import Mathlib

/-!
Verification of the data_exchange market-intelligence ingestion pipeline.

The development shallowly embeds the core of the repository:
* `src/services/db.ts` — the local store (`saveDailyData`, `queryMarketData`,
  `hasDataForDate`) over an in-memory list of rows with auto-incremented keys;
* `src/services/gemini.ts` — the response repairer (code-fence stripping, the
  `source_indices` textual repair, strict JSON parse with empty-items
  fallback), the citation resolver and the record normalizer;
* the `App` component's `loadCategoryData` / `runAutoSync` control flow,
  modelled as pure state-passing functions over oracles for the network
  fetch and for store-write failures.

JavaScript strings are modelled as `List Char` (comparisons are lexicographic
on character codes, mirroring the code-unit comparison used by the source for
its ASCII `YYYY-MM-DD` dates); `JSON.parse` is modelled by an executable
recursive-descent parser `jsonParse` over the strict JSON grammar.
-/

/-! ## String primitives (JS `<`, `includes`, `toLowerCase`, `trim`) -/

/-- Lexicographic strict comparison of character lists by character code,
modelling the JavaScript `<` operator on strings. -/
def lexLtCh : List Char → List Char → Bool
  | [], [] => false
  | [], _ :: _ => true
  | _ :: _, [] => false
  | a :: as, b :: bs =>
    if a.toNat < b.toNat then true
    else if b.toNat < a.toNat then false
    else lexLtCh as bs

/-- Non-strict lexicographic comparison, defined from `lexLtCh` by totality. -/
def lexLeCh (a b : List Char) : Bool := !(lexLtCh b a)

/-- Substring test, modelling JavaScript `String.prototype.includes`. -/
def containsSub (needle : List Char) : List Char → Bool
  | [] => needle.isEmpty
  | c :: rest => needle.isPrefixOf (c :: rest) || containsSub needle (rest)

/-- Lower-casing, modelling `String.prototype.toLowerCase` (ASCII range; the
source only feeds it search keywords and record fields). -/
def lowerCh (s : List Char) : List Char := s.map Char.toLower

/-! ## Data model (`src/types.ts`) -/

/-- The fixed category enumeration, in the declaration order of the source
`enum Category` (which is also the `Object.values` iteration order). -/
inductive Category where
  | trading
  | tender
  | bidWin
  | demand
deriving DecidableEq, Repr

/-- The category universe in enumeration order. -/
def categoryOrder : List Category := [.trading, .tender, .bidWin, .demand]

/-- The display string of each category member, from `src/types.ts`. -/
def Category.name : Category → String
  | .trading => "数据交易"
  | .tender => "招标信息"
  | .bidWin => "中标信息"
  | .demand => "市场需求"

/-- A grounding source: title and URI, positional identity. -/
structure GroundingSource where
  title : String
  uri : String
deriving DecidableEq, Repr

/-- The canonical persisted record (`MarketItem` in `src/types.ts`). -/
structure MarketItem where
  id : Option Nat := none
  category : Category
  date : String
  title : String
  region : String
  entity : String
  amount : String
  summary : String
  sourceIndices : List Int := []
  sources : List GroundingSource := []
deriving DecidableEq, Repr

/-- One ingestion unit (`SearchResult` in `src/types.ts`). -/
structure SearchResult where
  items : List MarketItem
  sources : List GroundingSource
  timestamp : String
deriving DecidableEq, Repr

/-! ## Local store (`src/services/db.ts`) -/

/-- The IndexedDB object store, modelled as its row list in key order
together with the auto-increment key generator state. -/
structure Store where
  rows : List MarketItem := []
  nextId : Nat := 1
deriving DecidableEq, Repr

/-- `saveDailyData`: append each item as a new row, assigning fresh
auto-incremented identifiers; one atomic batch, no deduplication. -/
def saveDailyData (st : Store) (items : List MarketItem) : Store :=
  match items with
  | [] => st
  | it :: rest =>
      saveDailyData { rows := st.rows ++ [{ it with id := some st.nextId }],
                      nextId := st.nextId + 1 } rest

/-- Query filter parameters (`QueryParams` in `src/services/db.ts`).
`none` models an absent (`undefined`) field. -/
structure QueryParams where
  startDate : Option String := none
  endDate : Option String := none
  region : Option String := none
  entityKeyword : Option String := none
  category : Option Category := none
deriving DecidableEq, Repr

/-- The `startDate` clause of the filter in `queryMarketData`: the guard
`params.startDate && item.date < params.startDate` sets `match = false`, so a
row passes when the bound is absent, empty (falsy) or `≤` the row date. -/
def passStart (p : Option String) (it : MarketItem) : Bool :=
  match p with
  | none => true
  | some s => if s.data.isEmpty then true else !(lexLtCh it.date.data s.data)

/-- The `endDate` clause: `params.endDate && item.date > params.endDate`
excludes the row. -/
def passEnd (p : Option String) (it : MarketItem) : Bool :=
  match p with
  | none => true
  | some s => if s.data.isEmpty then true else !(lexLtCh s.data it.date.data)

/-- The `category` clause: exact match when present. -/
def passCategory (p : Option Category) (it : MarketItem) : Bool :=
  match p with
  | none => true
  | some c => it.category = c

/-- The `region` clause: `item.region.includes(params.region)` when the
parameter is truthy. -/
def passRegion (p : Option String) (it : MarketItem) : Bool :=
  match p with
  | none => true
  | some r => if r.data.isEmpty then true else containsSub r.data it.region.data

/-- The `entityKeyword` clause: case-insensitive substring match against
entity or title when the parameter is truthy. -/
def passEntity (p : Option String) (it : MarketItem) : Bool :=
  match p with
  | none => true
  | some k =>
    if k.data.isEmpty then true
    else
      containsSub (lowerCh k.data) (lowerCh it.entity.data) ||
        containsSub (lowerCh k.data) (lowerCh it.title.data)

/-- The conjunction of all filter clauses of `queryMarketData`. -/
def matchesQuery (params : QueryParams) (it : MarketItem) : Bool :=
  passStart params.startDate it && passEnd params.endDate it &&
    passCategory params.category it && passRegion params.region it &&
    passEntity params.entityKeyword it

/-- One step of the stable date-descending sort: insert `x` before the first
row whose date is strictly smaller, after all rows with a `≥` date. -/
def insertByDateDesc (x : MarketItem) : List MarketItem → List MarketItem
  | [] => [x]
  | y :: ys =>
    if lexLtCh x.date.data y.date.data then y :: insertByDateDesc x ys
    else x :: y :: ys

/-- Stable sort by date descending, modelling the (ES2019-stable)
`Array.prototype.sort((a, b) => b.date.localeCompare(a.date))` call. -/
def sortByDateDesc : List MarketItem → List MarketItem
  | [] => []
  | x :: xs => insertByDateDesc x (sortByDateDesc xs)

/-- `queryMarketData`: full scan, conjunctive filter, then stable sort by
date descending. -/
def queryMarketData (st : Store) (params : QueryParams) : List MarketItem :=
  sortByDateDesc (st.rows.filter (matchesQuery params))

/-- `hasDataForDate`: the by-date index lookup followed by
`items.some(i => i.category === category)`. -/
def hasDataForDate (st : Store) (date : String) (category : Category) : Bool :=
  (st.rows.filter (fun i => i.date = date)).any (fun i => i.category = category)

/-- Modelled from the spec: `getMissingCategoriesForDate` is imported by the
`App` component from `./services/db` but its definition is not present in the
`src/` sources; per the spec it "returns every category in the fixed
enumeration for which no row exists with that date, in enumeration order",
a set-difference over the fixed category universe computed from the
per-category date lookup. -/
def getMissingCategoriesForDate (st : Store) (date : String) : List Category :=
  categoryOrder.filter (fun c => !(hasDataForDate st date c))

/-! ## Order lemmas for the date comparison -/
/-! ## Order lemmas for the date comparison -/

theorem lexLtCh_irrefl : ∀ a : List Char, lexLtCh a a = false := by
  intro a
  induction a with
  | nil => rfl
  | cons c cs ih => simp [lexLtCh, ih]

theorem lexLtCh_asymm :
    ∀ a b : List Char, lexLtCh a b = true → lexLtCh b a = false := by
  intro a
  induction a with
  | nil =>
    intro b hab
    cases b with
    | nil => rfl
    | cons y ys => rfl
  | cons x xs ih =>
    intro b hab
    cases b with
    | nil => simp [lexLtCh] at hab
    | cons y ys =>
      simp only [lexLtCh] at hab ⊢
      by_cases hxy : x.toNat < y.toNat
      · have : ¬ y.toNat < x.toNat := by omega
        simp [this, hxy]
      · by_cases hyx : y.toNat < x.toNat
        · simp [hxy, hyx] at hab
        · simp only [hxy, if_false, hyx] at hab ⊢
          exact ih ys hab

theorem lexLtCh_cotrans :
    ∀ a b c : List Char, lexLtCh a c = true →
      lexLtCh a b = true ∨ lexLtCh b c = true := by
  intro a
  induction a with
  | nil =>
    intro b c hac
    cases b with
    | nil => exact Or.inr hac
    | cons y ys => exact Or.inl rfl
  | cons x xs ih =>
    intro b c hac
    cases c with
    | nil => simp [lexLtCh] at hac
    | cons z zs =>
      cases b with
      | nil => exact Or.inr rfl
      | cons y ys =>
        simp only [lexLtCh] at hac ⊢
        by_cases hxy : x.toNat < y.toNat
        · exact Or.inl (by simp [hxy])
        · by_cases hyx : y.toNat < x.toNat
          · right
            by_cases hxz : x.toNat < z.toNat
            · have : y.toNat < z.toNat := by omega
              simp [this]
            · by_cases hzx : z.toNat < x.toNat
              · simp [hxz, hzx] at hac
              · have : y.toNat < z.toNat := by omega
                simp [this]
          · have hxy' : x.toNat = y.toNat := by omega
            by_cases hxz : x.toNat < z.toNat
            · right
              have : y.toNat < z.toNat := by omega
              simp [this]
            · by_cases hzx : z.toNat < x.toNat
              · simp [hxz, hzx] at hac
              · simp only [hxz, if_false, hzx] at hac
                rcases ih ys zs hac with h | h
                · left
                  simp [hxy, hyx, h]
                · right
                  have h1 : ¬ y.toNat < z.toNat := by omega
                  have h2 : ¬ z.toNat < y.toNat := by omega
                  simp [h1, h2, h]

/-! ## Sort lemmas -/

theorem insertByDateDesc_perm (x : MarketItem) (l : List MarketItem) :
    List.Perm (insertByDateDesc x l) (x :: l) := by
  induction l with
  | nil => rfl
  | cons y ys ih =>
    simp only [insertByDateDesc]
    split
    · exact (ih.cons y).trans (List.Perm.swap x y ys)
    · rfl

theorem sortByDateDesc_perm (l : List MarketItem) : List.Perm (sortByDateDesc l) l := by
  induction l with
  | nil => rfl
  | cons x xs ih =>
    simpa [sortByDateDesc] using (insertByDateDesc_perm x (sortByDateDesc xs)).trans (ih.cons x)

theorem insertByDateDesc_sorted (x : MarketItem) (l : List MarketItem)
    (h : l.Pairwise (fun a b => lexLtCh a.date.data b.date.data = false)) :
    (insertByDateDesc x l).Pairwise (fun a b => lexLtCh a.date.data b.date.data = false) := by
  induction l with
  | nil => simp [insertByDateDesc]
  | cons y ys ih =>
    simp only [insertByDateDesc]
    rcases List.pairwise_cons.mp h with ⟨hy, hys⟩
    split
    · rename_i hlt
      refine List.pairwise_cons.mpr ⟨?_, ih hys⟩
      intro z hz
      rcases List.mem_cons.mp ((insertByDateDesc_perm x ys).mem_iff.mp hz) with hzx | hzys
      · subst hzx
        exact lexLtCh_asymm _ _ hlt
      · exact hy z hzys
    · rename_i hnlt
      refine List.pairwise_cons.mpr ⟨?_, h⟩
      intro z hz
      rcases List.mem_cons.mp hz with hzy | hzys
      · subst hzy
        simpa using hnlt
      · cases hxz : lexLtCh x.date.data z.date.data
        · rfl
        · rcases lexLtCh_cotrans x.date.data y.date.data z.date.data hxz with h1 | h1
          · exact absurd h1 (by simpa using hnlt)
          · exact absurd h1 (by simpa using hy z hzys)

theorem sortByDateDesc_sorted (l : List MarketItem) :
    (sortByDateDesc l).Pairwise (fun a b => lexLtCh a.date.data b.date.data = false) := by
  induction l with
  | nil => simp [sortByDateDesc]
  | cons x xs ih => exact insertByDateDesc_sorted x _ ih

theorem insertByDateDesc_filter_date (x : MarketItem) (l : List MarketItem) (d : String) :
    (insertByDateDesc x l).filter (fun r => r.date = d) =
      (if x.date = d then [x] else []) ++ l.filter (fun r => r.date = d) := by
  induction l with
  | nil => by_cases hxd : x.date = d <;> simp [insertByDateDesc, List.filter_cons, hxd]
  | cons y ys ih =>
    simp only [insertByDateDesc]
    split
    · rename_i hlt
      by_cases hyd : y.date = d
      · by_cases hxd : x.date = d
        · exact absurd hlt (by
            rw [hxd, hyd]
            simp [lexLtCh_irrefl])
        · simp [List.filter_cons, hyd, hxd, ih]
      · simp [List.filter_cons, hyd, ih]
    · by_cases hxd : x.date = d <;> simp [List.filter_cons, hxd]

theorem sortByDateDesc_filter_date (l : List MarketItem) (d : String) :
    (sortByDateDesc l).filter (fun r => r.date = d) = l.filter (fun r => r.date = d) := by
  induction l with
  | nil => rfl
  | cons x xs ih =>
    simp only [sortByDateDesc, insertByDateDesc_filter_date, ih]
    by_cases hxd : x.date = d <;> simp [List.filter_cons, hxd]

/-! ## Store characterizations -/

/-- The identifiers the auto-increment key generator assigns to a batch,
starting at the generator state. -/
def assignIds (n : Nat) : List MarketItem → List MarketItem
  | [] => []
  | it :: rest => { it with id := some n } :: assignIds (n + 1) rest

theorem assignIds_map_id :
    ∀ (n : Nat) (items : List MarketItem),
      (assignIds n items).map MarketItem.id =
        (List.range items.length).map (fun k => some (n + k)) := by
  intro n items
  induction items generalizing n with
  | nil => rfl
  | cons it rest ih =>
    simp only [assignIds, List.map_cons, List.length_cons, List.range_succ_eq_map,
      List.map_map, ih]
    refine congrArg (some n :: ·) ?_
    refine List.map_congr_left ?_
    intro k _
    simp [Function.comp]
    omega

theorem assignIds_length (n : Nat) (items : List MarketItem) :
    (assignIds n items).length = items.length := by
  induction items generalizing n with
  | nil => rfl
  | cons it rest ih => simp [assignIds, ih]

theorem saveDailyData_eq (st : Store) (items : List MarketItem) :
    saveDailyData st items =
      { rows := st.rows ++ assignIds st.nextId items,
        nextId := st.nextId + items.length } := by
  induction items generalizing st with
  | nil => simp [saveDailyData, assignIds]
  | cons it rest ih =>
    simp only [saveDailyData, assignIds, ih]
    refine congrArg₂ Store.mk ?_ (by simp; omega)
    simp

/-- C7: the claim as stated — two identical batch inserts of `n` items grow
the row count by `2 * n`; each item is appended as a new row tagged with a
fresh consecutive auto-assigned identifier, with no deduplication. -/
theorem C7_saveDailyData_not_idempotent (st : Store) (items : List MarketItem) :
    (saveDailyData (saveDailyData st items) items).rows.length =
        st.rows.length + 2 * items.length ∧
    (saveDailyData st items).rows = st.rows ++ assignIds st.nextId items ∧
    (assignIds st.nextId items).map MarketItem.id =
      (List.range items.length).map (fun k => some (st.nextId + k)) := by
  refine ⟨?_, ?_, assignIds_map_id _ _⟩
  · simp [saveDailyData_eq, assignIds_length]
    omega
  · simp [saveDailyData_eq]

/-- C7 witness: a concrete double insert of a two-item batch. -/
theorem C7_saveDailyData_not_idempotent_witness :
    (saveDailyData (saveDailyData { rows := [], nextId := 1 }
        [{ category := .trading, date := "2024-01-01", title := "a", region := "r",
           entity := "e", amount := "m", summary := "s" },
         { category := .tender, date := "2024-01-01", title := "b", region := "r",
           entity := "e", amount := "m", summary := "s" }])
        [{ category := .trading, date := "2024-01-01", title := "a", region := "r",
           entity := "e", amount := "m", summary := "s" },
         { category := .tender, date := "2024-01-01", title := "b", region := "r",
           entity := "e", amount := "m", summary := "s" }]).rows.length = 0 + 2 * 2 :=
  (C7_saveDailyData_not_idempotent { rows := [], nextId := 1 } _).1

/-! ## Query predicates, spec side -/

/-- The filter predicate exactly as the claim states it: every present bound
applies unconditionally (inclusive lexicographic date range, exact category,
region substring, case-insensitive entity-or-title substring). -/
def specMatchesClaim (params : QueryParams) (it : MarketItem) : Prop :=
  (∀ s, params.startDate = some s → lexLeCh s.data it.date.data = true) ∧
  (∀ s, params.endDate = some s → lexLeCh it.date.data s.data = true) ∧
  (∀ c, params.category = some c → it.category = c) ∧
  (∀ r, params.region = some r → containsSub r.data it.region.data = true) ∧
  (∀ k, params.entityKeyword = some k →
    containsSub (lowerCh k.data) (lowerCh it.entity.data) = true ∨
      containsSub (lowerCh k.data) (lowerCh it.title.data) = true)

/-- The filter predicate as the code implements it: a present but empty
(falsy) string parameter is treated as an absent filter. -/
def specMatches (params : QueryParams) (it : MarketItem) : Prop :=
  (∀ s, params.startDate = some s → s.data ≠ [] → lexLeCh s.data it.date.data = true) ∧
  (∀ s, params.endDate = some s → s.data ≠ [] → lexLeCh it.date.data s.data = true) ∧
  (∀ c, params.category = some c → it.category = c) ∧
  (∀ r, params.region = some r → r.data ≠ [] → containsSub r.data it.region.data = true) ∧
  (∀ k, params.entityKeyword = some k → k.data ≠ [] →
    containsSub (lowerCh k.data) (lowerCh it.entity.data) = true ∨
      containsSub (lowerCh k.data) (lowerCh it.title.data) = true)

theorem matchesQuery_iff (params : QueryParams) (it : MarketItem) :
    matchesQuery params it = true ↔ specMatches params it := by
  constructor
  · intro h
    simp only [matchesQuery, Bool.and_eq_true] at h
    obtain ⟨⟨⟨⟨h1, h2⟩, h3⟩, h4⟩, h5⟩ := h
    refine ⟨?_, ?_, ?_, ?_, ?_⟩
    · intro s hs hne
      rw [hs] at h1
      simp only [passStart] at h1
      rw [if_neg (by simpa using hne)] at h1
      simpa [lexLeCh] using h1
    · intro s hs hne
      rw [hs] at h2
      simp only [passEnd] at h2
      rw [if_neg (by simpa using hne)] at h2
      simpa [lexLeCh] using h2
    · intro c hc
      rw [hc] at h3
      simpa [passCategory] using h3
    · intro r hr hne
      rw [hr] at h4
      simp only [passRegion] at h4
      rwa [if_neg (by simpa using hne)] at h4
    · intro k hk hne
      rw [hk] at h5
      simp only [passEntity] at h5
      rw [if_neg (by simpa using hne)] at h5
      simpa using h5
  · rintro ⟨h1, h2, h3, h4, h5⟩
    simp only [matchesQuery, Bool.and_eq_true]
    refine ⟨⟨⟨⟨?_, ?_⟩, ?_⟩, ?_⟩, ?_⟩
    · cases hp : params.startDate with
      | none => rfl
      | some s =>
        simp only [passStart]
        split
        · rfl
        · rename_i hne
          simpa [lexLeCh] using h1 s hp (by simpa using hne)
    · cases hp : params.endDate with
      | none => rfl
      | some s =>
        simp only [passEnd]
        split
        · rfl
        · rename_i hne
          simpa [lexLeCh] using h2 s hp (by simpa using hne)
    · cases hp : params.category with
      | none => rfl
      | some c => simpa [passCategory] using h3 c hp
    · cases hp : params.region with
      | none => rfl
      | some r =>
        simp only [passRegion]
        split
        · rfl
        · rename_i hne
          exact h4 r hp (by simpa using hne)
    · cases hp : params.entityKeyword with
      | none => rfl
      | some k =>
        simp only [passEntity]
        split
        · rfl
        · rename_i hne
          simpa using h5 k hp (by simpa using hne)

/-! ## C5: query semantics -/

/-- A concrete row used to exhibit the empty-string `endDate` divergence. -/
def cxRow : MarketItem :=
  { category := .tender, date := "2024-01-01", title := "t", region := "北京",
    entity := "e", amount := "a", summary := "" }

/-- A store holding only `cxRow`. -/
def cxStore : Store := { rows := [cxRow], nextId := 2 }

/-- Query parameters with a present but empty `endDate`. -/
def cxParams : QueryParams := { endDate := some "" }

/-- C5 counterexample: with `endDate = ""` (a present bound), the code's
truthiness guard skips the date filter and returns the row, although the row
violates the claimed inclusive upper bound `date ≤ endDate`; so `query` does
not return exactly the rows satisfying the claimed conjunction. -/
theorem C5_counterexample :
    queryMarketData cxStore cxParams = [cxRow] ∧ ¬ specMatchesClaim cxParams cxRow := by
  constructor
  · rfl
  · rintro ⟨-, h2, -, -, -⟩
    have := h2 "" rfl
    simp [lexLeCh, lexLtCh, cxRow] at this

/-- C5 (amended): `query` returns exactly the rows passing the conjunctive
filter, where a present-but-empty string bound is treated as absent; the
result is sorted by date descending (lexicographically), ties keep the
original row order, and `query {}` returns all rows date-descending. -/
theorem C5_queryMarketData_spec (st : Store) (params : QueryParams) :
    List.Perm (queryMarketData st params) (st.rows.filter (matchesQuery params)) ∧
    (∀ it, matchesQuery params it = true ↔ specMatches params it) ∧
    (queryMarketData st params).Pairwise
      (fun a b => lexLtCh a.date.data b.date.data = false) ∧
    (∀ d, (queryMarketData st params).filter (fun r => r.date = d) =
      (st.rows.filter (matchesQuery params)).filter (fun r => r.date = d)) ∧
    List.Perm (queryMarketData st {}) st.rows ∧
    (queryMarketData st {}).Pairwise
      (fun a b => lexLtCh a.date.data b.date.data = false) := by
  refine ⟨sortByDateDesc_perm _, matchesQuery_iff params, sortByDateDesc_sorted _,
    fun d => sortByDateDesc_filter_date _ d, ?_, sortByDateDesc_sorted _⟩
  have hall : st.rows.filter (matchesQuery {}) = st.rows := by
    apply List.filter_eq_self.mpr
    intro it _
    rfl
  rw [queryMarketData, hall]
  exact sortByDateDesc_perm _

/-- C5 witness: on the one-row store with no filters, the query returns the
row, in agreement with the amended statement. -/
theorem C5_queryMarketData_spec_witness :
    queryMarketData cxStore {} = [cxRow] ∧
    List.Perm (queryMarketData cxStore {}) cxStore.rows :=
  ⟨rfl, (C5_queryMarketData_spec cxStore {}).2.2.2.2.1⟩

/-! ## C6: missing categories for a date -/

theorem hasDataForDate_iff (st : Store) (d : String) (c : Category) :
    hasDataForDate st d c = true ↔ ∃ r ∈ st.rows, r.date = d ∧ r.category = c := by
  simp only [hasDataForDate, List.any_eq_true, List.mem_filter]
  constructor
  · rintro ⟨r, ⟨hr, hd⟩, hc⟩
    exact ⟨r, hr, by simpa using hd, by simpa using hc⟩
  · rintro ⟨r, hr, hd, hc⟩
    exact ⟨r, ⟨hr, by simpa using hd⟩, by simpa using hc⟩

/-- C6: `missingCategoriesForDate d` is exactly the fixed enumeration
restricted to categories with no row dated `d`, in enumeration order, and is
empty once every category has a row for `d`. (The function itself is absent
from the sources and is modelled from the spec over `hasDataForDate`.) -/
theorem C6_getMissingCategoriesForDate_spec (st : Store) (d : String) :
    (getMissingCategoriesForDate st d).Sublist categoryOrder ∧
    (∀ c, c ∈ getMissingCategoriesForDate st d ↔
      c ∈ categoryOrder ∧ ¬ ∃ r ∈ st.rows, r.date = d ∧ r.category = c) ∧
    ((∀ c ∈ categoryOrder, ∃ r ∈ st.rows, r.date = d ∧ r.category = c) →
      getMissingCategoriesForDate st d = []) := by
  refine ⟨List.filter_sublist _, ?_, ?_⟩
  · intro c
    simp only [getMissingCategoriesForDate, List.mem_filter, Bool.not_eq_true',
      ← hasDataForDate_iff st d c]
    constructor
    · rintro ⟨hmem, hfalse⟩
      exact ⟨hmem, by simp [hfalse]⟩
    · rintro ⟨hmem, hfalse⟩
      exact ⟨hmem, by simpa using hfalse⟩
  · intro hall
    simp only [getMissingCategoriesForDate]
    apply List.filter_eq_nil_iff.mpr
    intro c hc
    have := (hasDataForDate_iff st d c).mpr (hall c hc)
    simp [this]

/-- A store with one row per category for 2024-01-01. -/
def fullStore : Store :=
  { rows := [
      { category := .trading, date := "2024-01-01", title := "a", region := "r",
        entity := "e", amount := "m", summary := "s" },
      { category := .tender, date := "2024-01-01", title := "b", region := "r",
        entity := "e", amount := "m", summary := "s" },
      { category := .bidWin, date := "2024-01-01", title := "c", region := "r",
        entity := "e", amount := "m", summary := "s" },
      { category := .demand, date := "2024-01-01", title := "d", region := "r",
        entity := "e", amount := "m", summary := "s" }],
    nextId := 5 }

/-- C6 witness: on a store covering all four categories for the date, the
missing-category list is empty. -/
theorem C6_getMissingCategoriesForDate_spec_witness :
    getMissingCategoriesForDate fullStore "2024-01-01" = [] :=
  (C6_getMissingCategoriesForDate_spec fullStore "2024-01-01").2.2 (by decide)

/-! ## Fetch-and-ingest control flow (`App.loadCategoryData`, `runAutoSync`)

The network fetch and the possibility of a store-write failure are modelled
as oracles: `fetchR` is the (already resolved) outcome of
`fetchMarketIntelligence`, and `saveF` is the store-write operation, which
either commits the batch atomically or fails leaving the store unchanged. -/

/-- The observable outcome of one `loadCategoryData` run: the store after the
run, what the awaiting caller sees (normal return or rethrown error), and the
`setData` publication of the result for display. -/
structure LoadOutcome where
  store : Store
  returned : Except String SearchResult
  published : Option SearchResult
deriving Repr

/-- `loadCategoryData`: fetch, then — only when the result has at least one
item — write to the store, then publish and return the result. Any error
thrown by the fetch or by the store write jumps to the catch block before
`setData` runs, and is rethrown. -/
def loadCategoryData (fetchR : Except String SearchResult)
    (saveF : Store → List MarketItem → Except String Store) (st : Store) :
    LoadOutcome :=
  match fetchR with
  | .error e => { store := st, returned := .error e, published := none }
  | .ok r =>
    if r.items.length > 0 then
      match saveF st r.items with
      | .ok st2 => { store := st2, returned := .ok r, published := some r }
      | .error e => { store := st, returned := .error e, published := none }
    else { store := st, returned := .ok r, published := some r }

/-- The auto-sync progress state (`syncProgress` plus the threaded store, the
sequence of attempted categories and the error log). -/
structure SyncState where
  store : Store
  current : String := ""
  total : Nat := 0
  finished : Nat := 0
  attempted : List Category := []
  errors : List String := []
deriving Repr

/-- One iteration of the `runAutoSync` loop: set the current category, run
the fetch-and-ingest inside try/catch (a failure is logged and skipped), then
increment `finished` regardless of the outcome. -/
def autoSyncStep (fetch : Category → Except String SearchResult)
    (saveF : Store → List MarketItem → Except String Store)
    (s : SyncState) (cat : Category) : SyncState :=
  let s1 := { s with current := cat.name, attempted := s.attempted ++ [cat] }
  let o := loadCategoryData (fetch cat) saveF s1.store
  match o.returned with
  | .ok _ => { s1 with store := o.store, finished := s1.finished + 1 }
  | .error e =>
      { s1 with store := o.store, errors := s1.errors ++ [e],
                finished := s1.finished + 1 }

/-- `runAutoSync`: sequential fold of the per-category iteration over the
missing-category list, starting from a fresh progress state. -/
def runAutoSync (fetch : Category → Except String SearchResult)
    (saveF : Store → List MarketItem → Except String Store)
    (missing : List Category) (st : Store) : SyncState :=
  missing.foldl (autoSyncStep fetch saveF)
    { store := st, total := missing.length }

theorem autoSync_foldl_counts (fetch : Category → Except String SearchResult)
    (saveF : Store → List MarketItem → Except String Store) :
    ∀ (l : List Category) (s : SyncState),
      (l.foldl (autoSyncStep fetch saveF) s).finished = s.finished + l.length ∧
      (l.foldl (autoSyncStep fetch saveF) s).attempted = s.attempted ++ l ∧
      (l.foldl (autoSyncStep fetch saveF) s).total = s.total := by
  intro l
  induction l with
  | nil => intro s; simp
  | cons c rest ih =>
    intro s
    obtain ⟨h1, h2, h3⟩ := ih (autoSyncStep fetch saveF s c)
    refine ⟨?_, ?_, ?_⟩
    · rw [List.foldl_cons, h1]
      cases hret : (loadCategoryData (fetch c) saveF s.store).returned <;>
        simp [autoSyncStep, hret] <;> omega
    · rw [List.foldl_cons, h2]
      cases hret : (loadCategoryData (fetch c) saveF s.store).returned <;>
        simp [autoSyncStep, hret]
    · rw [List.foldl_cons, h3]
      cases hret : (loadCategoryData (fetch c) saveF s.store).returned <;>
        simp [autoSyncStep, hret]

/-- C8: the backfill loop attempts every missing category exactly once, in
list (enumeration) order, for arbitrary fetch/store-failure behaviour: no
failure aborts the remaining iterations, and the finished counter advances by
one after each attempt — after the first `n` iterations it equals
`min n missing.length`, and at the end it equals `missing.length` (which is
also the recorded total). -/
theorem C8_runAutoSync_spec (fetch : Category → Except String SearchResult)
    (saveF : Store → List MarketItem → Except String Store)
    (missing : List Category) (st : Store) :
    (runAutoSync fetch saveF missing st).attempted = missing ∧
    (runAutoSync fetch saveF missing st).finished = missing.length ∧
    (runAutoSync fetch saveF missing st).total = missing.length ∧
    (∀ n, ((missing.take n).foldl (autoSyncStep fetch saveF)
        { store := st, total := missing.length } : SyncState).finished =
      min n missing.length) := by
  obtain ⟨h1, h2, h3⟩ := autoSync_foldl_counts fetch saveF missing
    { store := st, total := missing.length }
  refine ⟨by simpa [runAutoSync] using h2, by simpa [runAutoSync] using h1,
    by simpa [runAutoSync] using h3, ?_⟩
  intro n
  obtain ⟨h1', -, -⟩ := autoSync_foldl_counts fetch saveF (missing.take n)
    { store := st, total := missing.length }
  simpa [List.length_take] using h1'

/-- C8 witness: two missing categories, the first fetch failing; both are
attempted and the counter reaches 2. -/
theorem C8_runAutoSync_spec_witness :
    (runAutoSync
        (fun c => if c = Category.trading then .error "network" else
          .ok { items := [], sources := [], timestamp := "ts" })
        (fun st _ => .ok st) [Category.trading, Category.tender] {rows := [], nextId := 1}).attempted
      = [Category.trading, Category.tender] ∧
    (runAutoSync
        (fun c => if c = Category.trading then .error "network" else
          .ok { items := [], sources := [], timestamp := "ts" })
        (fun st _ => .ok st) [Category.trading, Category.tender] {rows := [], nextId := 1}).finished
      = 2 :=
  ⟨(C8_runAutoSync_spec _ _ _ _).1, (C8_runAutoSync_spec _ _ _ _).2.1⟩

/-! ## C9: store-write failure -/

/-- A one-item fetch result for the write-failure scenarios. -/
def cxFetchResult : SearchResult :=
  { items := [{ category := .trading, date := "2024-01-02", title := "x",
                region := "r", entity := "e", amount := "m", summary := "s" }],
    sources := [], timestamp := "ts" }

/-- C9 counterexample: fetch succeeds with one item, the store write fails;
the error is rethrown to the caller, but — contrary to the claim — the
in-memory `SearchResult` is neither returned nor published for display,
because the catch block runs before `setData` and the `return result`. -/
theorem C9_counterexample :
    (loadCategoryData (.ok cxFetchResult)
        (fun _ _ => .error "write failed") { rows := [], nextId := 1 }).returned
      = .error "write failed" ∧
    (loadCategoryData (.ok cxFetchResult)
        (fun _ _ => .error "write failed") { rows := [], nextId := 1 }).published
      = none := ⟨rfl, rfl⟩

/-- C9 (amended): when the fetch succeeds with a non-empty item list and the
subsequent store write fails, the failure is surfaced to the caller
(rethrown), and the in-memory `SearchResult` is NOT returned and NOT made
available for display — the failure aborts `loadCategoryData` before the
result is published. -/
theorem C9_loadCategoryData_write_failure (r : SearchResult) (e : String)
    (st : Store) (saveF : Store → List MarketItem → Except String Store)
    (hitems : r.items.length > 0) (hsave : saveF st r.items = .error e) :
    loadCategoryData (.ok r) saveF st =
      { store := st, returned := .error e, published := none } := by
  simp [loadCategoryData, hitems, hsave]

/-- C9 witness: the amended statement at the concrete failing write. -/
theorem C9_loadCategoryData_write_failure_witness :
    loadCategoryData (.ok cxFetchResult) (fun _ _ => .error "disk full")
        { rows := [], nextId := 1 } =
      { store := { rows := [], nextId := 1 }, returned := .error "disk full",
        published := none } :=
  C9_loadCategoryData_write_failure cxFetchResult "disk full"
    { rows := [], nextId := 1 } (fun _ _ => .error "disk full")
    (by decide) rfl

/-! ## C10: empty fetches are never persisted -/

/-- C10: a successful fetch whose normalized item list is empty is returned
and published but never persisted: the store-write oracle is not consulted
(the outcome is identical for every store-write behaviour), the store is
unchanged, and the date/category completeness view — `hasDataForDate` and
the missing-category list — is exactly as before the fetch. -/
theorem C10_empty_fetch_never_persisted (r : SearchResult) (st : Store)
    (saveF saveG : Store → List MarketItem → Except String Store)
    (hempty : r.items = []) :
    loadCategoryData (.ok r) saveF st =
      { store := st, returned := .ok r, published := some r } ∧
    loadCategoryData (.ok r) saveF st = loadCategoryData (.ok r) saveG st ∧
    (loadCategoryData (.ok r) saveF st).store = st ∧
    (∀ d c, hasDataForDate ((loadCategoryData (.ok r) saveF st).store) d c =
      hasDataForDate st d c) ∧
    (∀ d, getMissingCategoriesForDate ((loadCategoryData (.ok r) saveF st).store) d =
      getMissingCategoriesForDate st d) := by
  have h : loadCategoryData (.ok r) saveF st =
      { store := st, returned := .ok r, published := some r } := by
    simp [loadCategoryData, hempty]
  have h' : loadCategoryData (.ok r) saveG st =
      { store := st, returned := .ok r, published := some r } := by
    simp [loadCategoryData, hempty]
  refine ⟨h, h.trans h'.symm, ?_, ?_, ?_⟩ <;> simp [h]

/-- C10 witness: a concrete empty fetch against the one-row store leaves the
store and its missing-category view untouched. -/
theorem C10_empty_fetch_never_persisted_witness :
    loadCategoryData (.ok { items := [], sources := [], timestamp := "ts" })
        (fun _ _ => .error "unused") cxStore =
      { store := cxStore,
        returned := .ok { items := [], sources := [], timestamp := "ts" },
        published := some { items := [], sources := [], timestamp := "ts" } } :=
  (C10_empty_fetch_never_persisted
    { items := [], sources := [], timestamp := "ts" } cxStore
    (fun _ _ => .error "unused") (fun _ _ => .error "unused") rfl).1

/-! ## JSON values and the strict parser (`JSON.parse`)

Strings are stored decoded; numeric tokens keep their source lexeme (the
pipeline never computes with parsed numbers except the integer citation
indices, extracted below). Object fields keep source order and duplicates;
field lookup takes the last occurrence, as `JSON.parse` does. -/

inductive Json where
  | null
  | bool (b : Bool)
  | num (lex : List Char)
  | str (s : List Char)
  | arr (elems : List Json)
  | obj (fields : List (List Char × Json))

/-- JSON whitespace (the only characters `JSON.parse` skips). -/
def isJsonWs (c : Char) : Bool :=
  c == ' ' || c == '\t' || c == '\n' || c == '\r'

/-- JavaScript whitespace, as matched by `\s` in a regex and stripped by
`String.prototype.trim`. -/
def isJsWs (c : Char) : Bool :=
  isJsonWs c || c == '\x0b' || c == '\x0c' || c.toNat == 0xa0 ||
    c.toNat == 0x1680 || (0x2000 ≤ c.toNat && c.toNat ≤ 0x200a) ||
    c.toNat == 0x2028 || c.toNat == 0x2029 || c.toNat == 0x202f ||
    c.toNat == 0x205f || c.toNat == 0x3000 || c.toNat == 0xfeff

/-- Hexadecimal digit value, for `\uXXXX` escapes. -/
def hexVal? (c : Char) : Option Nat :=
  if '0'.toNat ≤ c.toNat ∧ c.toNat ≤ '9'.toNat then some (c.toNat - '0'.toNat)
  else if 'a'.toNat ≤ c.toNat ∧ c.toNat ≤ 'f'.toNat then some (c.toNat - 'a'.toNat + 10)
  else if 'A'.toNat ≤ c.toNat ∧ c.toNat ≤ 'F'.toNat then some (c.toNat - 'A'.toNat + 10)
  else none

/-- Scan a JSON string body (the opening quote already consumed): returns the
decoded content and the text after the closing quote. Validates escapes and
rejects raw control characters, as the strict grammar does. -/
def scanStr : List Char → Option (List Char × List Char)
  | [] => none
  | c :: r =>
    if c == '"' then some ([], r)
    else if c == '\\' then
      match r with
      | [] => none
      | e :: r2 =>
        if e == 'u' then
          match r2 with
          | h1 :: h2 :: h3 :: h4 :: r3 =>
            match hexVal? h1, hexVal? h2, hexVal? h3, hexVal? h4 with
            | some a, some b, some c2, some d =>
              (scanStr r3).map
                (fun p => (Char.ofNat (((a * 16 + b) * 16 + c2) * 16 + d) :: p.1, p.2))
            | _, _, _, _ => none
          | _ => none
        else if e == '"' || e == '\\' || e == '/' then
          (scanStr r2).map (fun p => (e :: p.1, p.2))
        else if e == 'b' then (scanStr r2).map (fun p => ('\x08' :: p.1, p.2))
        else if e == 'f' then (scanStr r2).map (fun p => ('\x0c' :: p.1, p.2))
        else if e == 'n' then (scanStr r2).map (fun p => ('\n' :: p.1, p.2))
        else if e == 'r' then (scanStr r2).map (fun p => ('\r' :: p.1, p.2))
        else if e == 't' then (scanStr r2).map (fun p => ('\t' :: p.1, p.2))
        else none
    else if c.toNat < 0x20 then none
    else (scanStr r).map (fun p => (c :: p.1, p.2))

/-- The integer part of a JSON number: a single `0`, or a nonzero digit
followed by digits. -/
def scanIntPart : List Char → Option (List Char × List Char)
  | [] => none
  | c :: r =>
    if c == '0' then some ([c], r)
    else if c.isDigit then
      match r.span (fun d => d.isDigit) with
      | (ds, rest) => some (c :: ds, rest)
    else none

/-- The optional fraction part: consumed only when a digit follows the dot. -/
def scanFrac (cs : List Char) : List Char × List Char :=
  match cs with
  | c :: r =>
    if c == '.' then
      match r.span (fun d => d.isDigit) with
      | ([], _) => ([], cs)
      | (ds, rest) => ('.' :: ds, rest)
    else ([], cs)
  | [] => ([], cs)

/-- The optional exponent part: consumed only when digits follow. -/
def scanExp (cs : List Char) : List Char × List Char :=
  match cs with
  | e :: r =>
    if e == 'e' || e == 'E' then
      match r with
      | s :: r2 =>
        if s == '+' || s == '-' then
          match r2.span (fun d => d.isDigit) with
          | ([], _) => ([], cs)
          | (ds, rest) => (e :: s :: ds, rest)
        else
          match r.span (fun d => d.isDigit) with
          | ([], _) => ([], cs)
          | (ds, rest) => (e :: ds, rest)
      | [] => ([], cs)
    else ([], cs)
  | [] => ([], cs)

/-- Scan a JSON number token, returning its lexeme and the rest. It stops at
the longest prefix matching the grammar; malformed continuations are left in
place for the surrounding context to reject, which yields the same
accept/reject behaviour as the strict parser. -/
def scanNumber (cs : List Char) : Option (List Char × List Char) :=
  match cs with
  | [] => none
  | c :: r =>
    if c == '-' then
      (scanIntPart r).map (fun p =>
        match scanFrac p.2 with
        | (f, rest2) =>
          match scanExp rest2 with
          | (ex, rest3) => ('-' :: (p.1 ++ f ++ ex), rest3))
    else
      (scanIntPart cs).map (fun p =>
        match scanFrac p.2 with
        | (f, rest2) =>
          match scanExp rest2 with
          | (ex, rest3) => (p.1 ++ f ++ ex, rest3))

mutual

/-- Parse one JSON value (leading whitespace skipped), fuel-indexed. -/
def parseValue : Nat → List Char → Option (Json × List Char)
  | 0, _ => none
  | f + 1, cs =>
    match cs.dropWhile isJsonWs with
    | [] => none
    | c :: r =>
      if c == '{' then parseMembersTail f r
      else if c == '[' then parseArrTail f r
      else if c == '"' then (scanStr r).map (fun p => (Json.str p.1, p.2))
      else if c == 't' then (r.dropPrefix? "rue".data).map (fun rest => (Json.bool true, rest))
      else if c == 'f' then (r.dropPrefix? "alse".data).map (fun rest => (Json.bool false, rest))
      else if c == 'n' then (r.dropPrefix? "ull".data).map (fun rest => (Json.null, rest))
      else if c == '-' || c.isDigit then
        (scanNumber (c :: r)).map (fun p => (Json.num p.1, p.2))
      else none

/-- Parse the remainder of an array (the `[` already consumed). -/
def parseArrTail : Nat → List Char → Option (Json × List Char)
  | 0, _ => none
  | f + 1, cs =>
    match cs.dropWhile isJsonWs with
    | [] => none
    | c :: r2 =>
      if c == ']' then some (Json.arr [], r2)
      else do
        let (v, r1) ← parseValue f cs
        let (vs, r2') ← parseElemsAfter f r1
        pure (Json.arr (v :: vs), r2')

/-- Parse `, value`* `]` after an array element. -/
def parseElemsAfter : Nat → List Char → Option (List Json × List Char)
  | 0, _ => none
  | f + 1, cs =>
    match cs.dropWhile isJsonWs with
    | [] => none
    | c :: r =>
      if c == ',' then do
        let (v, r1) ← parseValue f r
        let (vs, r2) ← parseElemsAfter f r1
        pure (v :: vs, r2)
      else if c == ']' then some ([], r)
      else none

/-- Parse the remainder of an object (the `\x7b` already consumed). -/
def parseMembersTail : Nat → List Char → Option (Json × List Char)
  | 0, _ => none
  | f + 1, cs =>
    match cs.dropWhile isJsonWs with
    | [] => none
    | c :: rk =>
      if c == '}' then some (Json.obj [], rk)
      else if c == '"' then do
        let (k, rk2) ← scanStr rk
        match rk2.dropWhile isJsonWs with
        | [] => none
        | c2 :: r3 =>
          if c2 == ':' then do
            let (v, r4) ← parseValue f r3
            let (ms, r5) ← parseMembersAfter f r4
            pure (Json.obj ((k, v) :: ms), r5)
          else none
      else none

/-- Parse `, "key" : value`* `\x7d` after an object member. -/
def parseMembersAfter : Nat → List Char → Option (List (List Char × Json) × List Char)
  | 0, _ => none
  | f + 1, cs =>
    match cs.dropWhile isJsonWs with
    | [] => none
    | c :: r =>
      if c == ',' then
        match r.dropWhile isJsonWs with
        | [] => none
        | c2 :: rk =>
          if c2 == '"' then do
            let (k, rk2) ← scanStr rk
            match rk2.dropWhile isJsonWs with
            | [] => none
            | c3 :: r3 =>
              if c3 == ':' then do
                let (v, r4) ← parseValue f r3
                let (ms, r5) ← parseMembersAfter f r4
                pure ((k, v) :: ms, r5)
              else none
          else none
      else if c == '}' then some ([], r)
      else none

end

/-- `JSON.parse` on a character list: parse one value and require only
whitespace after it. The fuel is sufficient for every input (each recursion
level consumes input or moves one step along the value/tail call chain). -/
def jsonParse (cs : List Char) : Option Json :=
  match parseValue (4 * cs.length + 4) cs with
  | some (v, rest) => if (rest.dropWhile isJsonWs).isEmpty then some v else none
  | none => none

theorem dropPrefix?_eq_append {cs pat r : List Char}
    (h : cs.dropPrefix? pat = some r) : cs = pat ++ r := by
  obtain ⟨p', h1, h2⟩ := List.dropPrefix?_eq_some_iff.mp h
  have hp : p' = pat := by simpa using h2
  rwa [hp] at h1

/-! ## The Repairer's text cleanup (`gemini.ts`) -/

/-- The three-backtick fence token. -/
def fencePlain : List Char := [Char.ofNat 96, Char.ofNat 96, Char.ofNat 96]

/-- The fence token with a `json` language tag. -/
def fenceJson : List Char := fencePlain ++ "json".data

/-- `text.replace(/\x60\x60\x60json|\x60\x60\x60/g, '')`: left-to-right scan
removing every occurrence, preferring the tagged alternative at equal
positions, exactly as the regex alternation does. Structured with a fuel
argument for computability; each step consumes at least one character, so
the wrapper's fuel is always sufficient. -/
def stripFencesGo : Nat → List Char → List Char
  | 0, cs => cs
  | _ + 1, [] => []
  | fuel + 1, c :: rest =>
    match (c :: rest).dropPrefix? fenceJson with
    | some r => stripFencesGo fuel r
    | none =>
      match (c :: rest).dropPrefix? fencePlain with
      | some r => stripFencesGo fuel r
      | none => c :: stripFencesGo fuel rest

/-- The fence-stripping replace at its (always sufficient) fuel. -/
def stripFences (cs : List Char) : List Char := stripFencesGo cs.length cs

/-- `String.prototype.trim`: strip JavaScript whitespace from both ends. -/
def trimJs (cs : List Char) : List Char :=
  ((cs.dropWhile isJsWs).reverse.dropWhile isJsWs).reverse

/-- The quoted `source_indices` key token. -/
def siToken : List Char := "\"source_indices\"".data

/-- The replacement text of the targeted repair. -/
def siReplacement : List Char := "\"source_indices\": []".data

/-- The tail condition of the repair regex after the quoted key: optional
whitespace, a colon, optional whitespace, then a closing delimiter (the
lookahead). -/
def colonDelim (r1 : List Char) : Bool :=
  match r1.dropWhile isJsWs with
  | c2 :: r3 =>
    c2 == ':' &&
      (match r3.dropWhile isJsWs with
       | c :: _ => c == ',' || c == '}' || c == ']'
       | [] => false)
  | [] => false

/-- The resumption point after a match: the lookahead position (the
delimiter is not consumed by the match). -/
def siResume (r1 : List Char) : List Char :=
  ((r1.dropWhile isJsWs).tail).dropWhile isJsWs

/-- Match the repair regex `"source_indices"\s*:\s*(?=[,\x7d\]])` at the head
of the text: the quoted key, then `colonDelim`. Returns the resumption point
on success. -/
def matchSI (cs : List Char) : Option (List Char) :=
  match cs.dropPrefix? siToken with
  | none => none
  | some r1 => if colonDelim r1 then some (siResume r1) else none

theorem dropWhile_length_le (p : Char → Bool) (l : List Char) :
    (l.dropWhile p).length ≤ l.length := by
  have h := congrArg List.length (@List.takeWhile_append_dropWhile _ p l)
  simp only [List.length_append] at h
  omega

theorem siResume_length_le (r1 : List Char) : (siResume r1).length ≤ r1.length := by
  have h1 := dropWhile_length_le isJsWs r1
  have h2 := dropWhile_length_le isJsWs ((r1.dropWhile isJsWs).tail)
  have h3 : ((r1.dropWhile isJsWs).tail).length ≤ (r1.dropWhile isJsWs).length := by
    cases r1.dropWhile isJsWs <;> simp
  simp only [siResume]
  omega

theorem matchSI_length {cs r : List Char} (h : matchSI cs = some r) :
    r.length < cs.length := by
  unfold matchSI at h
  cases hp : cs.dropPrefix? siToken with
  | none => rw [hp] at h; exact absurd h (by simp)
  | some r1 =>
    rw [hp] at h
    simp only [] at h
    have hcs := dropPrefix?_eq_append hp
    have h1 : cs.length = r1.length + 16 := by rw [hcs]; simp [siToken]
    by_cases hc : colonDelim r1 = true
    · rw [if_pos hc] at h
      cases h
      have := siResume_length_le r1
      omega
    · rw [if_neg hc] at h
      exact absurd h (by simp)

/-- The global replace with the repair regex: scan left to right; at a match,
emit the replacement and resume at the lookahead position; otherwise keep one
character and continue. Fuel-structured as `stripFencesGo`; a match consumes
at least seventeen characters, so the wrapper's fuel is always sufficient. -/
def repairSIGo : Nat → List Char → List Char
  | 0, cs => cs
  | _ + 1, [] => []
  | fuel + 1, c :: rest =>
    match matchSI (c :: rest) with
    | some r => siReplacement ++ repairSIGo fuel r
    | none => c :: repairSIGo fuel rest

/-- The `source_indices` repair replace at its (always sufficient) fuel. -/
def repairSI (cs : List Char) : List Char := repairSIGo cs.length cs

/-- The Repairer's full text cleanup: strip fences, trim, apply the targeted
`source_indices` repair. -/
def cleanupText (cs : List Char) : List Char :=
  repairSI (trimJs (stripFences cs))

/-- The parse fallback value `\x7b items: [] \x7d` substituted on failure. -/
def fallbackValue : Json := Json.obj [("items".data, Json.arr [])]

/-- The Repairer: clean the text, strictly parse it, fall back to the
empty-items structure when the parse fails. Never throws. -/
def repairedValue (raw : List Char) : Json :=
  match jsonParse (cleanupText raw) with
  | some v => v
  | none => fallbackValue

/-! ## Item extraction and normalization (`gemini.ts`) -/

/-- Object field lookup with JavaScript semantics: the last occurrence of a
duplicated key wins. -/
def lookupLast (fields : List (List Char × Json)) (k : List Char) : Option Json :=
  match fields with
  | [] => none
  | (k2, v) :: rest =>
    match lookupLast rest k with
    | some v2 => some v2
    | none => if k2 == k then some v else none

/-- Whether a parsed value is an array (`Array.isArray`). -/
def jsonIsArr (v : Json) : Bool :=
  match v with
  | .arr _ => true
  | _ => false

/-- Whether a parsed value is an object owning an array-valued `items`
field. -/
def hasItemsArr (v : Json) : Bool :=
  match v with
  | .obj fields =>
    match lookupLast fields "items".data with
    | some (.arr _) => true
    | _ => false
  | _ => false

/-- The raw item list of a parsed value: a bare array is taken whole, an
object contributes its `items` array, and every other shape yields the empty
list (`parsedData.items` is undefined or not an array). -/
def extractItems (v : Json) : List Json :=
  match v with
  | .arr xs => xs
  | .obj fields =>
    match lookupLast fields "items".data with
    | some (.arr xs) => xs
    | _ => []
  | _ => []

/-- The Repairer's final item list for a raw text. -/
def repairedItems (raw : List Char) : List Json :=
  extractItems (repairedValue raw)

/-! ## Citation resolver -/

/-- JavaScript array indexing `sources[i]`: `undefined` (`none`) for any
index outside `[0, length)`. -/
def jsGetSrc (sources : List GroundingSource) (i : Int) : Option GroundingSource :=
  if 0 ≤ i then sources.get? i.toNat else none

/-- The citation resolver over the declared `number[]` index type:
`indices.map(i => sources[i - 1]).filter(s => !!s)`. -/
def resolveIndices (indices : List Int) (sources : List GroundingSource) :
    List GroundingSource :=
  (indices.map (fun i => jsGetSrc sources (i - 1))).filterMap id

/-! ## Record normalizer -/

/-- JavaScript truthiness of a parsed JSON value: `null`, `false`, numeric
zero and the empty string are falsy; objects and arrays are truthy. -/
def jsonTruthy (v : Json) : Bool :=
  match v with
  | .null => false
  | .bool b => b
  | .num lex => (lex.takeWhile (fun c => !(c == 'e' || c == 'E'))).any
      (fun c => c.isDigit && !(c == '0'))
  | .str s => !s.isEmpty
  | .arr _ => true
  | .obj _ => true

/-- Property access `item.f` on a parsed value: a field of an object, else
`undefined` (`none`). (On `null` the source would throw; the normalizer
claim is scoped to object items.) -/
def jsField (v : Json) (k : String) : Option Json :=
  match v with
  | .obj fields => lookupLast fields k.data
  | _ => none

/-- `x || dflt`: the value when truthy, the default otherwise (also when the
property is absent). -/
def jsOrDefault (v : Option Json) (dflt : Json) : Json :=
  match v with
  | some x => if jsonTruthy x then x else dflt
  | none => dflt

/-- A normalized item as built in `fetchMarketIntelligence`'s map step;
field values are kept as parsed JSON values, since the source applies no
further coercion. -/
structure NormItem where
  category : Category
  date : String
  title : Json
  region : Json
  entity : Json
  amount : Json
  summary : Json
  sourceIndices : List Json
  sources : List GroundingSource

/-- The integer value of a JSON numeric index token (the declared shape of
`source_indices` entries); any other value resolves to no source. -/
def jsonIndexInt? (v : Json) : Option Int :=
  match v with
  | .num lex =>
    match lex with
    | '-' :: ds =>
      if !ds.isEmpty && ds.all (fun c => c.isDigit) then
        some (-(ds.foldl (fun n c => n * 10 + (c.toNat - 48)) 0 : Nat))
      else none
    | ds =>
      if !ds.isEmpty && ds.all (fun c => c.isDigit) then
        some ((ds.foldl (fun n c => n * 10 + (c.toNat - 48)) 0 : Nat))
      else none
  | _ => none

/-- The resolver as invoked by the normalizer on the raw `source_indices`
array. -/
def resolveJsonIndices (indices : List Json) (sources : List GroundingSource) :
    List GroundingSource :=
  (indices.map (fun j =>
    match jsonIndexInt? j with
    | some i => jsGetSrc sources (i - 1)
    | none => none)).filterMap id

/-- The normalizer: apply the field defaults of the map step in
`fetchMarketIntelligence` and resolve the citation indices. -/
def normalizeItem (sources : List GroundingSource) (item : Json)
    (cat : Category) (date : String) : NormItem :=
  let indices :=
    match jsField item "source_indices" with
    | some (.arr xs) => xs
    | _ => []
  { category := cat
    date := date
    title := jsOrDefault (jsField item "title") (Json.str "无标题".data)
    region := jsOrDefault (jsField item "region") (Json.str "全国".data)
    entity := jsOrDefault (jsField item "entity") (Json.str "未知主体".data)
    amount := jsOrDefault (jsField item "amount") (Json.str "未披露".data)
    summary := jsOrDefault (jsField item "summary") (Json.str "".data)
    sourceIndices := indices
    sources := resolveJsonIndices indices sources }

/-! ## C2: the Repairer never throws and normalizes shapes -/

/-- C2: the Repairer is total; when the cleaned text fails the strict parse
it yields the empty-items fallback (with an empty item list), and when the
parse succeeds the parsed value is passed through: a bare array is the item
list, an object with an array-valued `items` field contributes that array,
and every other parsed shape yields the empty item list. -/
theorem C2_repairer_fallback_and_shapes (raw : List Char) :
    (jsonParse (cleanupText raw) = none →
      repairedValue raw = fallbackValue ∧ repairedItems raw = []) ∧
    (∀ v, jsonParse (cleanupText raw) = some v → repairedValue raw = v) ∧
    (∀ xs, jsonParse (cleanupText raw) = some (Json.arr xs) →
      repairedItems raw = xs) ∧
    (∀ fields xs, jsonParse (cleanupText raw) = some (Json.obj fields) →
      lookupLast fields "items".data = some (Json.arr xs) →
      repairedItems raw = xs) ∧
    (∀ v, jsonParse (cleanupText raw) = some v → jsonIsArr v = false →
      hasItemsArr v = false → repairedItems raw = []) := by
  refine ⟨?_, ?_, ?_, ?_, ?_⟩
  · intro h
    constructor
    · simp [repairedValue, h]
    · simp [repairedItems, repairedValue, h, extractItems, fallbackValue, lookupLast]
  · intro v h
    simp [repairedValue, h]
  · intro xs h
    simp [repairedItems, repairedValue, h, extractItems]
  · intro fields xs h hl
    simp [repairedItems, repairedValue, h, extractItems, hl]
  · intro v h harr hobj
    cases v with
    | arr xs => simp [jsonIsArr] at harr
    | obj fields =>
      simp only [repairedItems, repairedValue, h, extractItems]
      simp only [hasItemsArr] at hobj
      cases hl : lookupLast fields "items".data with
      | none => rfl
      | some w =>
        cases w <;> simp_all
    | null => simp [repairedItems, repairedValue, h, extractItems]
    | bool b => simp [repairedItems, repairedValue, h, extractItems]
    | num lex => simp [repairedItems, repairedValue, h, extractItems]
    | str s => simp [repairedItems, repairedValue, h, extractItems]

/-- C2 witness: unparseable input falls back to the empty-items structure. -/
theorem C2_repairer_fallback_and_shapes_witness :
    repairedValue "garbage".data = fallbackValue ∧ repairedItems "garbage".data = [] :=
  (C2_repairer_fallback_and_shapes "garbage".data).1 rfl

/-! ## C3: the citation resolver -/

/-- C3: the resolver keeps exactly the 1-based indices inside
`[1, sources.length]`, mapping each to `sources[i - 1]`, preserving the
relative order of `indices` and without deduplication (a `filter` of the
index list followed by an elementwise lookup); its result is never longer
than the index list, so every normalized item satisfies
`sources.length ≤ sourceIndices.length`, out-of-range indices being dropped
from `sources` while remaining in `sourceIndices`. -/
theorem C3_resolveIndices_spec (indices : List Int) (sources : List GroundingSource) :
    resolveIndices indices sources =
      (indices.filter (fun i => decide (1 ≤ i ∧ i ≤ (sources.length : Int)))).map
        (fun i => sources.getD (i - 1).toNat { title := "", uri := "" }) ∧
    (resolveIndices indices sources).length ≤ indices.length ∧
    (∀ (srcs2 : List GroundingSource) (item : Json) (cat : Category) (d : String),
      (normalizeItem srcs2 item cat d).sources.length ≤
        (normalizeItem srcs2 item cat d).sourceIndices.length) := by
  refine ⟨?_, ?_, ?_⟩
  · induction indices with
    | nil => rfl
    | cons i rest ih =>
      simp only [resolveIndices, List.map_cons, List.filterMap_cons, List.filter_cons] at ih ⊢
      by_cases h1 : 1 ≤ i ∧ i ≤ (sources.length : Int)
      · have h0 : 0 ≤ i - 1 := by omega
        have hlt : (i - 1).toNat < sources.length := by omega
        have hg : jsGetSrc sources (i - 1) =
            some (sources.getD (i - 1).toNat { title := "", uri := "" }) := by
          simp only [jsGetSrc, if_pos h0, List.get?_eq_getElem?,
            List.getElem?_eq_getElem hlt, List.getD_eq_getElem?_getD,
            Option.getD_some]
        rw [hg]
        simp only [decide_eq_true h1]
        simp [ih]
      · have hg : jsGetSrc sources (i - 1) = none := by
          rcases lt_or_le i 1 with hlti | hgei
          · have : ¬ 0 ≤ i - 1 := by omega
            simp [jsGetSrc, this]
          · have hge2 : sources.length ≤ (i - 1).toNat := by omega
            have h0 : (0 : Int) ≤ i - 1 := by omega
            simp only [jsGetSrc, if_pos h0, List.get?_eq_getElem?]
            exact List.getElem?_eq_none hge2
        rw [hg]
        have : decide (1 ≤ i ∧ i ≤ (sources.length : Int)) = false := by
          simpa using h1
        simp only [this]
        simpa using ih
  · have h := List.length_filterMap_le id
      (indices.map (fun i => jsGetSrc sources (i - 1)))
    simpa [resolveIndices] using h
  · intro srcs2 item cat d
    have h := List.length_filterMap_le id
      (((match jsField item "source_indices" with
          | some (.arr xs) => xs
          | _ => []) : List Json).map (fun j =>
        match jsonIndexInt? j with
        | some i => jsGetSrc srcs2 (i - 1)
        | none => none))
    simpa [normalizeItem, resolveJsonIndices] using h

/-- C3 witness: a concrete resolution with a repeated index and two
out-of-range indices. -/
theorem C3_resolveIndices_spec_witness :
    resolveIndices [1, 3, 1, -2] [{ title := "s1", uri := "u1" }, { title := "s2", uri := "u2" }] =
      [{ title := "s1", uri := "u1" }, { title := "s1", uri := "u1" }] := by
  rw [(C3_resolveIndices_spec [1, 3, 1, -2]
    [{ title := "s1", uri := "u1" }, { title := "s2", uri := "u2" }]).1]
  rfl

/-! ## C4: normalizer defaults -/

/-- C4: on any raw item object the normalizer is total and fills every
field: an absent `title` becomes the untitled sentinel, an absent `region`
the nationwide sentinel, an absent `entity` the unknown-subject sentinel, an
absent `amount` the undisclosed sentinel, an absent `summary` the empty
string, and an absent or non-array `source_indices` the empty sequence; the
category and date are stamped through unchanged. -/
theorem C4_normalizeItem_defaults (sources : List GroundingSource)
    (fields : List (List Char × Json)) (cat : Category) (d : String) :
    (lookupLast fields "title".data = none →
      (normalizeItem sources (Json.obj fields) cat d).title = Json.str "无标题".data) ∧
    (lookupLast fields "region".data = none →
      (normalizeItem sources (Json.obj fields) cat d).region = Json.str "全国".data) ∧
    (lookupLast fields "entity".data = none →
      (normalizeItem sources (Json.obj fields) cat d).entity = Json.str "未知主体".data) ∧
    (lookupLast fields "amount".data = none →
      (normalizeItem sources (Json.obj fields) cat d).amount = Json.str "未披露".data) ∧
    (lookupLast fields "summary".data = none →
      (normalizeItem sources (Json.obj fields) cat d).summary = Json.str "".data) ∧
    (lookupLast fields "source_indices".data = none →
      (normalizeItem sources (Json.obj fields) cat d).sourceIndices = [] ∧
      (normalizeItem sources (Json.obj fields) cat d).sources = []) ∧
    (∀ v, lookupLast fields "source_indices".data = some v → jsonIsArr v = false →
      (normalizeItem sources (Json.obj fields) cat d).sourceIndices = []) ∧
    (normalizeItem sources (Json.obj fields) cat d).category = cat ∧
    (normalizeItem sources (Json.obj fields) cat d).date = d := by
  refine ⟨?_, ?_, ?_, ?_, ?_, ?_, ?_, rfl, rfl⟩
  · intro h
    simp [normalizeItem, jsField, h, jsOrDefault]
  · intro h
    simp [normalizeItem, jsField, h, jsOrDefault]
  · intro h
    simp [normalizeItem, jsField, h, jsOrDefault]
  · intro h
    simp [normalizeItem, jsField, h, jsOrDefault]
  · intro h
    simp [normalizeItem, jsField, h, jsOrDefault]
  · intro h
    constructor
    · simp [normalizeItem, jsField, h]
    · simp [normalizeItem, jsField, h, resolveJsonIndices]
  · intro v h harr
    cases v <;> simp_all [normalizeItem, jsField, jsonIsArr]

/-- C4 witness: the empty raw object obtains every sentinel default. -/
theorem C4_normalizeItem_defaults_witness :
    (normalizeItem [] (Json.obj []) .tender "2024-01-01").title = Json.str "无标题".data ∧
    (normalizeItem [] (Json.obj []) .tender "2024-01-01").sourceIndices = [] ∧
    (normalizeItem [] (Json.obj []) .tender "2024-01-01").sources = [] :=
  ⟨(C4_normalizeItem_defaults [] [] .tender "2024-01-01").1 rfl,
   ((C4_normalizeItem_defaults [] [] .tender "2024-01-01").2.2.2.2.2.1 rfl).1,
   ((C4_normalizeItem_defaults [] [] .tender "2024-01-01").2.2.2.2.2.1 rfl).2⟩

/-! ## C1 metatheory: the repair regex on well-formed input -/

theorem matchSI_eq_none_of_no_token {cs : List Char}
    (h : cs.dropPrefix? siToken = none) : matchSI cs = none := by
  simp [matchSI, h]

theorem matchSI_eq_none_of_colonDelim {cs r1 : List Char}
    (hp : cs.dropPrefix? siToken = some r1) (hc : colonDelim r1 = false) :
    matchSI cs = none := by
  simp [matchSI, hp, hc]

theorem matchSI_some_elim {cs w : List Char} (h : matchSI cs = some w) :
    ∃ r1, cs.dropPrefix? siToken = some r1 ∧ colonDelim r1 = true := by
  cases hp : cs.dropPrefix? siToken with
  | none => exact absurd h (by simp [matchSI_eq_none_of_no_token hp])
  | some r1 =>
    refine ⟨r1, rfl, ?_⟩
    by_contra hc
    rw [matchSI_eq_none_of_colonDelim hp (by simpa using hc)] at h
    exact absurd h (by simp)

theorem matchSI_head {c : Char} {r w : List Char}
    (h : matchSI (c :: r) = some w) : c = '"' := by
  obtain ⟨r1, hp, -⟩ := matchSI_some_elim h
  have := dropPrefix?_eq_append hp
  simpa [siToken] using congrArg (fun l => l.headD ' ') this

theorem dropWhile_append_ne_nil {p : Char → Bool} {A B : List Char}
    (h : A.dropWhile p ≠ []) :
    (A ++ B).dropWhile p = A.dropWhile p ++ B := by
  rw [List.dropWhile_append]
  simp [List.isEmpty_iff, h]

theorem colonDelim_append {r1 B : List Char} (h : colonDelim r1 = true) :
    colonDelim (r1 ++ B) = true ∧ siResume (r1 ++ B) = siResume r1 ++ B := by
  unfold colonDelim at h
  cases hw : r1.dropWhile isJsWs with
  | nil => rw [hw] at h; exact absurd h (by simp)
  | cons c2 r3 =>
    rw [hw] at h
    simp only [Bool.and_eq_true, beq_iff_eq] at h
    obtain ⟨hc2, hrest⟩ := h
    subst hc2
    have hne : r1.dropWhile isJsWs ≠ [] := by simp [hw]
    have hw' : (r1 ++ B).dropWhile isJsWs = ':' :: (r3 ++ B) := by
      rw [dropWhile_append_ne_nil hne, hw]; rfl
    cases hw2 : r3.dropWhile isJsWs with
    | nil => rw [hw2] at hrest; exact absurd hrest (by simp)
    | cons c r4 =>
      rw [hw2] at hrest
      have hne2 : r3.dropWhile isJsWs ≠ [] := by simp [hw2]
      have hw2' : (r3 ++ B).dropWhile isJsWs = c :: (r4 ++ B) := by
        rw [dropWhile_append_ne_nil hne2, hw2]; rfl
      constructor
      · simp only [colonDelim, hw', hw2', Bool.and_eq_true, beq_iff_eq]
        exact ⟨trivial, by simpa using hrest⟩
      · simp only [siResume, hw', hw, List.tail_cons, hw2', hw2]
        simp

/-- A match of the repair regex only inspects a prefix of the text, so it
survives appending. -/
theorem matchSI_mono {A B w : List Char} (h : matchSI A = some w) :
    matchSI (A ++ B) = some (w ++ B) := by
  obtain ⟨r1, hp, hc⟩ := matchSI_some_elim h
  have hA := dropPrefix?_eq_append hp
  have hp2 : (A ++ B).dropPrefix? siToken = some (r1 ++ B) := by
    rw [hA, List.append_assoc]
    exact List.dropPrefix?_append_of_beq (r1 ++ B) (by simp)
  obtain ⟨hc2, hres⟩ := @colonDelim_append r1 B hc
  have hw : w = siResume r1 := by
    simp [matchSI, hp, hc] at h
    exact h.symm
  simp [matchSI, hp2, hc2, hres, hw]

theorem getLast?_cons_of_ne {a : Char} {l : List Char} (h : l ≠ []) :
    (a :: l).getLast? = l.getLast? := by
  cases l with
  | nil => exact absurd rfl h
  | cons b bs => exact List.getLast?_cons_cons

/-- A successful string scan consumes a nonempty block ending in the closing
quote, and replays identically on any continuation. -/
theorem scanStr_split {body s rest : List Char} (h : scanStr body = some (s, rest)) :
    ∃ B, body = B ++ rest ∧ B ≠ [] ∧ B.getLast? = some '"' ∧
      ∀ u, scanStr (B ++ u) = some (s, u) := by
  induction body using scanStr.induct generalizing s rest
  case case1 => exact absurd h (by simp [scanStr])
  case case2 c r hq =>
    have hc : c = '"' := by simpa using hq
    subst hc
    rw [scanStr.eq_def] at h
    simp only [if_pos (by decide : (('"' : Char) == '"') = true)] at h
    obtain ⟨hs, hr⟩ := by simpa using h
    subst hs
    subst hr
    exact ⟨['"'], rfl, by simp, rfl, fun u => by
      rw [scanStr.eq_def]
      simp⟩
  case case3 c hq hb =>
    exfalso
    have hc : c = '\\' := by simpa using hb
    subst hc
    rw [scanStr.eq_def] at h
    simp at h
  case case4 cb hq hb ce hu h1 h2 h3 h4 r3 a b c2 d hv4 hv3 hv2 hv1 ih =>
    rw [scanStr.eq_def] at h
    simp only [if_neg hq, if_pos hb, if_pos hu, hv1, hv2, hv3, hv4,
      Option.map_eq_some'] at h
    obtain ⟨⟨s', rest'⟩, hr, heq⟩ := h
    injection heq with hs hrr
    have hrr2 : rest' = rest := hrr
    have hs2 : Char.ofNat (((a * 16 + b) * 16 + c2) * 16 + d) :: s' = s := hs
    obtain ⟨B', hb1, hb2, hb3, hb4⟩ := ih hr
    refine ⟨cb :: ce :: h1 :: h2 :: h3 :: h4 :: B', by simp [hb1, hrr2], by simp,
      by rw [getLast?_cons_of_ne (by simp), getLast?_cons_of_ne (by simp),
        getLast?_cons_of_ne (by simp), getLast?_cons_of_ne (by simp),
        getLast?_cons_of_ne (by simp), getLast?_cons_of_ne hb2]
         exact hb3, ?_⟩
    intro u
    rw [List.cons_append, List.cons_append, List.cons_append, List.cons_append,
      List.cons_append, List.cons_append, scanStr.eq_def]
    simp only [if_neg hq, if_pos hb, if_pos hu, hv1, hv2, hv3, hv4, hb4 u]
    simp [← hs2]
  case case5 cb hq hb ce hu h1 h2 h3 h4 r3 hfail =>
    exfalso
    rw [scanStr.eq_def] at h
    simp only [if_neg hq, if_pos hb, if_pos hu] at h
    cases hv1 : hexVal? h1 with
    | none => simp at h
    | some a =>
      cases hv2 : hexVal? h2 with
      | none => simp at h
      | some b =>
        cases hv3 : hexVal? h3 with
        | none => simp at h
        | some c2 =>
          cases hv4 : hexVal? h4 with
          | none => simp at h
          | some d => exact hfail a b c2 d hv1 hv2 hv3 hv4
  case case6 cb hq hb ce r2 hu hshape =>
    exfalso
    rw [scanStr.eq_def] at h
    simp only [if_neg hq, if_pos hb, if_pos hu] at h
    simp at h
  case case7 cb hq hb ce r2 hu hc ih =>
    rw [scanStr.eq_def] at h
    simp only [if_neg hq, if_pos hb, if_neg hu, if_pos hc,
      Option.map_eq_some'] at h
    obtain ⟨⟨s2, rest2⟩, hr, heq⟩ := h
    injection heq with hs hrr
    have hrr2 : rest2 = rest := hrr
    have hs2 : ce :: s2 = s := hs
    obtain ⟨B2, hb1, hb2, hb3, hb4⟩ := ih hr
    refine ⟨cb :: ce :: B2, by simp [hb1, hrr2], by simp,
      by rw [getLast?_cons_of_ne (by simp), getLast?_cons_of_ne hb2]
         exact hb3, ?_⟩
    intro u
    rw [List.cons_append, List.cons_append, scanStr.eq_def]
    simp only [if_neg hq, if_pos hb, if_neg hu, if_pos hc, hb4 u]
    simp [← hs2]
  case case8 cb hq hb ce r2 hu h7 hc ih =>
    rw [scanStr.eq_def] at h
    simp only [if_neg hq, if_pos hb, if_neg hu, if_neg h7, if_pos hc,
      Option.map_eq_some'] at h
    obtain ⟨⟨s2, rest2⟩, hr, heq⟩ := h
    injection heq with hs hrr
    have hrr2 : rest2 = rest := hrr
    have hs2 : '\x08' :: s2 = s := hs
    obtain ⟨B2, hb1, hb2, hb3, hb4⟩ := ih hr
    refine ⟨cb :: ce :: B2, by simp [hb1, hrr2], by simp,
      by rw [getLast?_cons_of_ne (by simp), getLast?_cons_of_ne hb2]
         exact hb3, ?_⟩
    intro u
    rw [List.cons_append, List.cons_append, scanStr.eq_def]
    simp only [if_neg hq, if_pos hb, if_neg hu, if_neg h7, if_pos hc, hb4 u]
    simp [← hs2]
  case case9 cb hq hb ce r2 hu h7 h8 hc ih =>
    rw [scanStr.eq_def] at h
    simp only [if_neg hq, if_pos hb, if_neg hu, if_neg h7, if_neg h8, if_pos hc,
      Option.map_eq_some'] at h
    obtain ⟨⟨s2, rest2⟩, hr, heq⟩ := h
    injection heq with hs hrr
    have hrr2 : rest2 = rest := hrr
    have hs2 : '\x0c' :: s2 = s := hs
    obtain ⟨B2, hb1, hb2, hb3, hb4⟩ := ih hr
    refine ⟨cb :: ce :: B2, by simp [hb1, hrr2], by simp,
      by rw [getLast?_cons_of_ne (by simp), getLast?_cons_of_ne hb2]
         exact hb3, ?_⟩
    intro u
    rw [List.cons_append, List.cons_append, scanStr.eq_def]
    simp only [if_neg hq, if_pos hb, if_neg hu, if_neg h7, if_neg h8, if_pos hc, hb4 u]
    simp [← hs2]
  case case10 cb hq hb ce r2 hu h7 h8 h9 hc ih =>
    rw [scanStr.eq_def] at h
    simp only [if_neg hq, if_pos hb, if_neg hu, if_neg h7, if_neg h8, if_neg h9, if_pos hc,
      Option.map_eq_some'] at h
    obtain ⟨⟨s2, rest2⟩, hr, heq⟩ := h
    injection heq with hs hrr
    have hrr2 : rest2 = rest := hrr
    have hs2 : '\n' :: s2 = s := hs
    obtain ⟨B2, hb1, hb2, hb3, hb4⟩ := ih hr
    refine ⟨cb :: ce :: B2, by simp [hb1, hrr2], by simp,
      by rw [getLast?_cons_of_ne (by simp), getLast?_cons_of_ne hb2]
         exact hb3, ?_⟩
    intro u
    rw [List.cons_append, List.cons_append, scanStr.eq_def]
    simp only [if_neg hq, if_pos hb, if_neg hu, if_neg h7, if_neg h8, if_neg h9, if_pos hc, hb4 u]
    simp [← hs2]
  case case11 cb hq hb ce r2 hu h7 h8 h9 h10 hc ih =>
    rw [scanStr.eq_def] at h
    simp only [if_neg hq, if_pos hb, if_neg hu, if_neg h7, if_neg h8, if_neg h9, if_neg h10, if_pos hc,
      Option.map_eq_some'] at h
    obtain ⟨⟨s2, rest2⟩, hr, heq⟩ := h
    injection heq with hs hrr
    have hrr2 : rest2 = rest := hrr
    have hs2 : '\r' :: s2 = s := hs
    obtain ⟨B2, hb1, hb2, hb3, hb4⟩ := ih hr
    refine ⟨cb :: ce :: B2, by simp [hb1, hrr2], by simp,
      by rw [getLast?_cons_of_ne (by simp), getLast?_cons_of_ne hb2]
         exact hb3, ?_⟩
    intro u
    rw [List.cons_append, List.cons_append, scanStr.eq_def]
    simp only [if_neg hq, if_pos hb, if_neg hu, if_neg h7, if_neg h8, if_neg h9, if_neg h10, if_pos hc, hb4 u]
    simp [← hs2]
  case case12 cb hq hb ce r2 hu h7 h8 h9 h10 h11 hc ih =>
    rw [scanStr.eq_def] at h
    simp only [if_neg hq, if_pos hb, if_neg hu, if_neg h7, if_neg h8, if_neg h9, if_neg h10, if_neg h11, if_pos hc,
      Option.map_eq_some'] at h
    obtain ⟨⟨s2, rest2⟩, hr, heq⟩ := h
    injection heq with hs hrr
    have hrr2 : rest2 = rest := hrr
    have hs2 : '\t' :: s2 = s := hs
    obtain ⟨B2, hb1, hb2, hb3, hb4⟩ := ih hr
    refine ⟨cb :: ce :: B2, by simp [hb1, hrr2], by simp,
      by rw [getLast?_cons_of_ne (by simp), getLast?_cons_of_ne hb2]
         exact hb3, ?_⟩
    intro u
    rw [List.cons_append, List.cons_append, scanStr.eq_def]
    simp only [if_neg hq, if_pos hb, if_neg hu, if_neg h7, if_neg h8, if_neg h9, if_neg h10, if_neg h11, if_pos hc, hb4 u]
    simp [← hs2]
  case case13 cb hq hb ce r2 hu h7 h8 h9 h10 h11 h12 =>
    exfalso
    rw [scanStr.eq_def] at h
    simp only [if_neg hq, if_pos hb, if_neg hu, if_neg h7, if_neg h8, if_neg h9,
      if_neg h10, if_neg h11, if_neg h12] at h
    simp at h
  case case14 c r hq hb hctl =>
    exfalso
    rw [scanStr.eq_def] at h
    simp only [if_neg hq, if_neg hb, if_pos hctl] at h
    simp at h
  case case15 c r hq hb hctl ih =>
    rw [scanStr.eq_def] at h
    simp only [if_neg hq, if_neg hb, if_neg hctl, Option.map_eq_some'] at h
    obtain ⟨⟨s2, rest2⟩, hr, heq⟩ := h
    injection heq with hs hrr
    have hrr2 : rest2 = rest := hrr
    have hs2 : c :: s2 = s := hs
    obtain ⟨B2, hb1, hb2, hb3, hb4⟩ := ih hr
    refine ⟨c :: B2, by simp [hb1, hrr2], by simp,
      by rw [getLast?_cons_of_ne hb2]; exact hb3, ?_⟩
    intro u
    rw [List.cons_append, scanStr.eq_def]
    simp only [if_neg hq, if_neg hb, if_neg hctl, hb4 u]
    simp [← hs2]

/-! ## Number scanner lemmas -/

/-- Continuations that can follow a complete value: empty, whitespace, or a
closing delimiter. No such character can extend a number token. -/
def delimOK (r : List Char) : Prop :=
  match r with
  | [] => True
  | c :: _ => isJsonWs c = true ∧ c ≠ '"' ∨ c = ',' ∨ c = ']' ∨ c = '}'

theorem delimOK_head_mem {u : List Char} (h : delimOK u) :
    ∀ c cs, u = c :: cs →
      c = ' ' ∨ c = '\t' ∨ c = '\n' ∨ c = '\r' ∨ c = ',' ∨ c = ']' ∨ c = '}' := by
  intro c cs hu
  subst hu
  simp only [delimOK] at h
  rcases h with ⟨hw, -⟩ | rfl | rfl | rfl
  · revert hw
    simp only [isJsonWs, Bool.or_eq_true, beq_iff_eq]
    rintro (((rfl | rfl) | rfl) | rfl) <;> simp
  all_goals simp

theorem delimOK_head_not_digit {u : List Char} (h : delimOK u) :
    ∀ c cs, u = c :: cs → c.isDigit = false := by
  intro c cs hu
  rcases delimOK_head_mem h c cs hu with rfl | rfl | rfl | rfl | rfl | rfl | rfl <;> decide

theorem takeWhile_append_all {p : Char → Bool} {A B : List Char}
    (h : ∀ a ∈ A, p a = true)
    (hB : ∀ c cs2, B = c :: cs2 → p c = false) :
    (A ++ B).takeWhile p = A ∧ (A ++ B).dropWhile p = B := by
  induction A with
  | nil =>
    cases B with
    | nil => simp
    | cons c cs2 =>
      have := hB c cs2 rfl
      simp [List.takeWhile_cons, List.dropWhile_cons, this]
  | cons a A ih =>
    have ha := h a (by simp)
    obtain ⟨ih1, ih2⟩ := ih (fun x hx => h x (by simp [hx]))
    simp [List.takeWhile_cons, List.dropWhile_cons, ha, ih1, ih2]

theorem scanIntPart_split {cs ip rest : List Char}
    (h : scanIntPart cs = some (ip, rest)) :
    cs = ip ++ rest ∧ ip ≠ [] ∧
    (∃ dch, ip.getLast? = some dch ∧ dch.isDigit = true) ∧
    (∀ c ∈ ip, c.isDigit = true) ∧
    (∀ u, (∀ c cs2, u = c :: cs2 → c.isDigit = false) →
      scanIntPart (ip ++ u) = some (ip, u)) := by
  cases cs with
  | nil => exact absurd h (by simp [scanIntPart])
  | cons c r =>
    rw [scanIntPart.eq_def] at h
    by_cases h0 : (c == '0') = true
    · simp only [if_pos h0] at h
      have hc : c = '0' := by simpa using h0
      subst hc
      obtain ⟨hip, hrest⟩ := by simpa using h
      subst hip
      subst hrest
      refine ⟨rfl, by simp, ⟨'0', rfl, by decide⟩, by simp, ?_⟩
      intro u hu
      rw [scanIntPart.eq_def]
      simp
    · simp only [if_neg h0] at h
      by_cases hd : c.isDigit = true
      · simp only [if_pos hd, List.span_eq_take_drop] at h
        obtain ⟨hip, hrest⟩ := by simpa using h
        have hall : ∀ x ∈ r.takeWhile (fun d => d.isDigit), x.isDigit = true := by
          intro x hx
          exact List.mem_takeWhile_imp hx
        subst hip
        subst hrest
        refine ⟨by simp [List.takeWhile_append_dropWhile], by simp, ?_, ?_, ?_⟩
        · cases hlast : (r.takeWhile (fun d => d.isDigit)).getLast? with
          | none =>
            have : r.takeWhile (fun d => d.isDigit) = [] := by
              simpa using hlast
            exact ⟨c, by simp [this], hd⟩
          | some dch =>
            refine ⟨dch, ?_, hall dch (List.mem_of_getLast?_eq_some hlast)⟩
            rw [getLast?_cons_of_ne (by
              intro hnil
              rw [hnil] at hlast
              simp at hlast)]
            exact hlast
        · intro x hx
          rcases List.mem_cons.mp hx with rfl | hx2
          · exact hd
          · exact hall x hx2
        · intro u hu
          rw [List.cons_append, scanIntPart.eq_def]
          obtain ⟨ht, hdr⟩ := @takeWhile_append_all (fun d => d.isDigit) _ _ hall hu
          simp only [if_neg h0, if_pos hd, List.span_eq_take_drop, ht, hdr]
      · simp only [if_neg hd] at h
        exact absurd h (by simp)

theorem dropWhile_head_not {p : Char → Bool} {l : List Char} {c : Char} {cs2 : List Char}
    (h : l.dropWhile p = c :: cs2) : p c = false := by
  induction l with
  | nil => simp at h
  | cons a l ih =>
    rw [List.dropWhile_cons] at h
    split at h
    · exact ih h
    · rename_i hpa
      injection h with h1 h2
      subst h1
      simpa using hpa

theorem scanFrac_dot_eq {X ds2 rest2 : List Char} (d : Char) (ds3 : List Char)
    (ht : X.takeWhile (fun d => d.isDigit) = ds2)
    (hdr : X.dropWhile (fun d => d.isDigit) = rest2)
    (hne : ds2 = d :: ds3) :
    scanFrac ('.' :: X) = ('.' :: ds2, rest2) := by
  subst hne
  rw [scanFrac.eq_def]
  simp only [if_pos (by decide : (('.' : Char) == '.') = true),
    List.span_eq_take_drop, ht, hdr]

theorem scanFrac_split {cs f rest : List Char} (h : scanFrac cs = (f, rest)) :
    cs = f ++ rest ∧
    ((f = [] ∧ rest = cs) ∨
      (f.head? = some '.' ∧
        (∃ dch, f.getLast? = some dch ∧ dch.isDigit = true) ∧
        (∀ c ∈ f, c = '.' ∨ c.isDigit = true) ∧
        (∀ c cs2, rest = c :: cs2 → c.isDigit = false) ∧
        (∀ u2, (∀ c cs2, u2 = c :: cs2 → c.isDigit = false) →
          scanFrac (f ++ u2) = (f, u2)))) := by
  cases cs with
  | nil =>
    obtain ⟨hf, hr⟩ := by simpa [scanFrac] using h
    subst hf
    subst hr
    exact ⟨rfl, Or.inl ⟨rfl, rfl⟩⟩
  | cons c r =>
    by_cases hdot : (c == '.') = true
    · have hc : c = '.' := by simpa using hdot
      subst hc
      cases htw : r.takeWhile (fun d => d.isDigit) with
      | nil =>
        have h2 : (([] : List Char), ('.' :: r : List Char)) = (f, rest) := by
          rw [← h, scanFrac.eq_def]
          simp only [if_pos (by decide : (('.' : Char) == '.') = true),
            List.span_eq_take_drop, htw]
        injection h2 with hf hr
        subst hf
        subst hr
        exact ⟨rfl, Or.inl ⟨rfl, rfl⟩⟩
      | cons d ds =>
        have h2 : scanFrac ('.' :: r) = ('.' :: d :: ds, r.dropWhile (fun d => d.isDigit)) :=
          scanFrac_dot_eq d ds htw rfl rfl
        rw [h] at h2
        injection h2 with hf hr
        subst hf
        subst hr
        have hall : ∀ x ∈ d :: ds, x.isDigit = true := by
          intro x hx
          rw [← htw] at hx
          exact List.mem_takeWhile_imp hx
        refine ⟨?_, Or.inr ⟨rfl, ?_, ?_, ?_, ?_⟩⟩
        · have := @List.takeWhile_append_dropWhile _ (fun d => d.isDigit) r
          rw [htw] at this
          conv_lhs => rw [← this]
          simp
        · refine ⟨(d :: ds).getLast (by simp), ?_, ?_⟩
          · rw [getLast?_cons_of_ne (by simp)]
            exact List.getLast?_eq_getLast_of_ne_nil (by simp)
          · exact hall _ (List.getLast_mem (by simp))
        · intro x hx
          rcases List.mem_cons.mp hx with rfl | hx2
          · exact Or.inl rfl
          · exact Or.inr (hall x hx2)
        · intro x cs2 hx
          exact dropWhile_head_not hx
        · intro u2 hu2
          obtain ⟨ht, hdr⟩ := @takeWhile_append_all (fun d => d.isDigit) _ _ hall hu2
          exact scanFrac_dot_eq d ds ht hdr rfl
    · have h2 : (([] : List Char), (c :: r : List Char)) = (f, rest) := by
        rw [← h, scanFrac.eq_def]
        simp only [if_neg hdot]
      injection h2 with hf hr
      subst hf
      subst hr
      exact ⟨rfl, Or.inl ⟨rfl, rfl⟩⟩

theorem scanFrac_delim {u : List Char}
    (hu : ∀ c cs2, u = c :: cs2 → c ≠ '.') : scanFrac u = ([], u) := by
  cases u with
  | nil => rfl
  | cons c r =>
    rw [scanFrac.eq_def]
    simp only [if_neg (show ¬((c == '.') = true) by simpa using hu c r rfl)]

theorem scanExp_sign_eq {X rest2 : List Char} (e s d : Char) (ds3 : List Char)
    (he : (e == 'e' || e == 'E') = true) (hs : (s == '+' || s == '-') = true)
    (ht : X.takeWhile (fun d => d.isDigit) = d :: ds3)
    (hdr : X.dropWhile (fun d => d.isDigit) = rest2) :
    scanExp (e :: s :: X) = (e :: s :: d :: ds3, rest2) := by
  rw [scanExp.eq_def]
  simp only [if_pos he, if_pos hs, List.span_eq_take_drop, ht, hdr]

theorem scanExp_nosign_eq {X rest2 : List Char} (e d : Char) (ds3 : List Char)
    (he : (e == 'e' || e == 'E') = true)
    (ht : X.takeWhile (fun d => d.isDigit) = d :: ds3)
    (hdr : X.dropWhile (fun d => d.isDigit) = rest2) :
    scanExp (e :: X) = (e :: d :: ds3, rest2) := by
  have hdd : d.isDigit = true := by
    have : d ∈ X.takeWhile (fun d => d.isDigit) := by rw [ht]; simp
    exact List.mem_takeWhile_imp this
  have hX : ∃ r2, X = d :: r2 := by
    cases hx : X with
    | nil => rw [hx] at ht; simp at ht
    | cons x xs =>
      rw [hx, List.takeWhile_cons] at ht
      split at ht
      · injection ht with h1 h2
        exact ⟨xs, by rw [h1]⟩
      · simp at ht
  obtain ⟨r2, hX2⟩ := hX
  subst hX2
  have hds : (d == '+' || d == '-') = false := by
    revert hdd
    cases hdig : d.isDigit
    · simp
    · intro
      have : ¬(d = '+' ∨ d = '-') := by
        rintro (rfl | rfl) <;> simp [Char.isDigit] at hdig
      simpa using this
  rw [scanExp.eq_def]
  simp only [if_pos he, if_neg (by simp [hds] : ¬((d == '+' || d == '-') = true)),
    List.span_eq_take_drop, ht, hdr]

theorem scanExp_split {cs ex rest : List Char} (h : scanExp cs = (ex, rest)) :
    cs = ex ++ rest ∧
    ((ex = [] ∧ rest = cs) ∨
      ((∃ e, ex.head? = some e ∧ (e == 'e' || e == 'E') = true) ∧
        (∃ dch, ex.getLast? = some dch ∧ dch.isDigit = true) ∧
        (∀ c ∈ ex, c = 'e' ∨ c = 'E' ∨ c = '+' ∨ c = '-' ∨ c.isDigit = true) ∧
        (∀ c cs2, rest = c :: cs2 → c.isDigit = false) ∧
        (∀ u2, (∀ c cs2, u2 = c :: cs2 → c.isDigit = false) →
          scanExp (ex ++ u2) = (ex, u2)))) := by
  cases cs with
  | nil =>
    obtain ⟨hf, hr⟩ := by simpa [scanExp] using h
    subst hf
    subst hr
    exact ⟨rfl, Or.inl ⟨rfl, rfl⟩⟩
  | cons e r =>
    by_cases he : (e == 'e' || e == 'E') = true
    · cases r with
      | nil =>
        have h2 : (([] : List Char), ([e] : List Char)) = (ex, rest) := by
          rw [← h, scanExp.eq_def]
          simp only [if_pos he]
        injection h2 with hf hr
        subst hf
        subst hr
        exact ⟨rfl, Or.inl ⟨rfl, rfl⟩⟩
      | cons s r2 =>
        by_cases hs : (s == '+' || s == '-') = true
        · cases htw : r2.takeWhile (fun d => d.isDigit) with
          | nil =>
            have h2 : (([] : List Char), (e :: s :: r2 : List Char)) = (ex, rest) := by
              rw [← h, scanExp.eq_def]
              simp only [if_pos he, if_pos hs, List.span_eq_take_drop, htw]
            injection h2 with hf hr
            subst hf
            subst hr
            exact ⟨rfl, Or.inl ⟨rfl, rfl⟩⟩
          | cons d ds =>
            have h2 := scanExp_sign_eq e s d ds he hs htw rfl
            rw [h] at h2
            injection h2 with hf hr
            subst hf
            subst hr
            have hall : ∀ x ∈ d :: ds, x.isDigit = true := by
              intro x hx
              rw [← htw] at hx
              exact List.mem_takeWhile_imp hx
            have hse : s = '+' ∨ s = '-' := by
              rcases by simpa using hs with h1 | h1
              · exact Or.inl h1
              · exact Or.inr h1
            refine ⟨?_, Or.inr ⟨⟨e, rfl, he⟩, ?_, ?_, ?_, ?_⟩⟩
            · have := @List.takeWhile_append_dropWhile _ (fun d => d.isDigit) r2
              rw [htw] at this
              conv_lhs => rw [← this]
              simp
            · refine ⟨(d :: ds).getLast (by simp), ?_, ?_⟩
              · rw [getLast?_cons_of_ne (by simp), getLast?_cons_of_ne (by simp)]
                exact List.getLast?_eq_getLast_of_ne_nil (by simp)
              · exact hall _ (List.getLast_mem (by simp))
            · intro x hx
              rcases List.mem_cons.mp hx with rfl | hx2
              · rcases by simpa using he with h1 | h1
                · exact Or.inl h1
                · exact Or.inr (Or.inl h1)
              · rcases List.mem_cons.mp hx2 with rfl | hx3
                · rcases hse with rfl | rfl
                  · exact Or.inr (Or.inr (Or.inl rfl))
                  · exact Or.inr (Or.inr (Or.inr (Or.inl rfl)))
                · exact Or.inr (Or.inr (Or.inr (Or.inr (hall x hx3))))
            · intro x cs2 hx
              exact dropWhile_head_not hx
            · intro u2 hu2
              obtain ⟨ht, hdr⟩ := @takeWhile_append_all (fun d => d.isDigit) _ _ hall hu2
              exact scanExp_sign_eq e s d ds he hs ht hdr
        · cases htw : (s :: r2).takeWhile (fun d => d.isDigit) with
          | nil =>
            have h2 : (([] : List Char), (e :: s :: r2 : List Char)) = (ex, rest) := by
              rw [← h, scanExp.eq_def]
              simp only [if_pos he, if_neg hs, List.span_eq_take_drop, htw]
            injection h2 with hf hr
            subst hf
            subst hr
            exact ⟨rfl, Or.inl ⟨rfl, rfl⟩⟩
          | cons d ds =>
            have h2 := scanExp_nosign_eq e d ds he htw rfl
            rw [h] at h2
            injection h2 with hf hr
            subst hf
            subst hr
            have hall : ∀ x ∈ d :: ds, x.isDigit = true := by
              intro x hx
              rw [← htw] at hx
              exact List.mem_takeWhile_imp hx
            refine ⟨?_, Or.inr ⟨⟨e, rfl, he⟩, ?_, ?_, ?_, ?_⟩⟩
            · have := @List.takeWhile_append_dropWhile _ (fun d => d.isDigit) (s :: r2)
              rw [htw] at this
              conv_lhs => rw [← this]
              simp
            · refine ⟨(d :: ds).getLast (by simp), ?_, ?_⟩
              · rw [getLast?_cons_of_ne (by simp)]
                exact List.getLast?_eq_getLast_of_ne_nil (by simp)
              · exact hall _ (List.getLast_mem (by simp))
            · intro x hx
              rcases List.mem_cons.mp hx with rfl | hx2
              · rcases by simpa using he with h1 | h1
                · exact Or.inl h1
                · exact Or.inr (Or.inl h1)
              · exact Or.inr (Or.inr (Or.inr (Or.inr (hall x hx2))))
            · intro x cs2 hx
              exact dropWhile_head_not hx
            · intro u2 hu2
              obtain ⟨ht, hdr⟩ := @takeWhile_append_all (fun d => d.isDigit) _ _ hall hu2
              exact scanExp_nosign_eq e d ds he ht hdr
    · have h2 : (([] : List Char), (e :: r : List Char)) = (ex, rest) := by
        rw [← h, scanExp.eq_def]
        simp only [if_neg he]
      injection h2 with hf hr
      subst hf
      subst hr
      exact ⟨rfl, Or.inl ⟨rfl, rfl⟩⟩

theorem scanExp_delim {u : List Char}
    (hu : ∀ c cs2, u = c :: cs2 → c ≠ 'e' ∧ c ≠ 'E') : scanExp u = ([], u) := by
  cases u with
  | nil => rfl
  | cons c r =>
    rw [scanExp.eq_def]
    obtain ⟨h1, h2⟩ := hu c r rfl
    simp only [if_neg (show ¬((c == 'e' || c == 'E') = true) by simp [h1, h2])]

theorem head_of_append {A B : List Char} {x : Char} {cs2 : List Char}
    (h : A ++ B = x :: cs2) :
    A.head? = some x ∨ (A = [] ∧ B = x :: cs2) := by
  cases A with
  | nil => exact Or.inr ⟨rfl, h⟩
  | cons a A2 =>
    injection h with h1 h2
    exact Or.inl (by rw [h1]; rfl)

/-- The core composition of a number-token scan: decomposition, nonemptiness,
quote-freeness, a digit last character, and replay on any delimiter-headed
continuation. -/
theorem scanNumber_core {cs0 ip f ex rest1 rest2 rest3 : List Char}
    (hip : scanIntPart cs0 = some (ip, rest1))
    (hsf : scanFrac rest1 = (f, rest2))
    (hse : scanExp rest2 = (ex, rest3)) :
    cs0 = (ip ++ f ++ ex) ++ rest3 ∧ ip ++ f ++ ex ≠ [] ∧
    (∀ c ∈ ip ++ f ++ ex, c ≠ '"') ∧
    (∃ dch, (ip ++ f ++ ex).getLast? = some dch ∧ dch.isDigit = true) ∧
    (∀ u, delimOK u →
      scanIntPart ((ip ++ f ++ ex) ++ u) = some (ip, f ++ ex ++ u) ∧
      scanFrac (f ++ ex ++ u) = (f, ex ++ u) ∧
      scanExp (ex ++ u) = (ex, u)) := by
  obtain ⟨hc1, hne, ⟨ipd, hipl, hipd⟩, hipall, hiprep⟩ := scanIntPart_split hip
  obtain ⟨hc2, hfcase⟩ := scanFrac_split hsf
  obtain ⟨hc3, hexcase⟩ := scanExp_split hse
  have hexhead : ∀ x cs2, ex = x :: cs2 → x = 'e' ∨ x = 'E' := by
    intro x cs2 hx
    rcases hexcase with ⟨hex0, -⟩ | ⟨⟨e, hh, he⟩, -⟩
    · rw [hex0] at hx
      simp at hx
    · rw [hx] at hh
      obtain rfl : x = e := by simpa using hh
      rcases by simpa using he with rfl | rfl
      · exact Or.inl rfl
      · exact Or.inr rfl
  have hexnd : ∀ x cs2, ex = x :: cs2 → x.isDigit = false := by
    intro x cs2 hx
    rcases hexcase with ⟨hex0, -⟩ | ⟨⟨e, hh, he⟩, -⟩
    · rw [hex0] at hx
      simp at hx
    · rw [hx] at hh
      injection hh with hh2
      subst hh2
      rcases by simpa using he with rfl | rfl <;> decide
  have hfnd : ∀ x cs2, f = x :: cs2 → x.isDigit = false := by
    intro x cs2 hx
    rcases hfcase with ⟨hf0, -⟩ | ⟨hh, -⟩
    · rw [hf0] at hx
      simp at hx
    · rw [hx] at hh
      injection hh with hh2
      subst hh2
      decide
  refine ⟨?_, ?_, ?_, ?_, ?_⟩
  · rw [hc1, hc2, hc3]
    simp
  · intro hcon
    rw [List.append_assoc, List.append_eq_nil] at hcon
    exact hne hcon.1
  · intro c hc
    rcases by simpa using hc with hcip | hcf | hcex
    · have := hipall c hcip
      intro hq
      subst hq
      simp [Char.isDigit] at this
    · rcases hfcase with ⟨hf0, -⟩ | ⟨-, -, hmem, -⟩
      · rw [hf0] at hcf
        simp at hcf
      · rcases hmem c hcf with rfl | hd
        · decide
        · intro hq
          subst hq
          simp [Char.isDigit] at hd
    · rcases hexcase with ⟨hex0, -⟩ | ⟨-, -, hmem, -⟩
      · rw [hex0] at hcex
        simp at hcex
      · rcases hmem c hcex with rfl | rfl | rfl | rfl | hd
        · decide
        · decide
        · decide
        · decide
        · intro hq
          subst hq
          simp [Char.isDigit] at hd
  · rcases hexcase with ⟨hex0, -⟩ | ⟨-, ⟨dch, hd1, hd2⟩, -⟩
    · subst hex0
      rcases hfcase with ⟨hf0, -⟩ | ⟨-, ⟨dch, hd1, hd2⟩, -⟩
      · subst hf0
        exact ⟨ipd, by simpa using hipl, hipd⟩
      · refine ⟨dch, ?_, hd2⟩
        rw [List.append_nil, List.getLast?_append_of_ne_nil, hd1]
        intro hf0
        rw [hf0] at hd1
        simp at hd1
    · refine ⟨dch, ?_, hd2⟩
      rw [List.getLast?_append_of_ne_nil, hd1]
      intro hex0
      rw [hex0] at hd1
      simp at hd1
  · intro u hu
    have hundig := delimOK_head_not_digit hu
    have hexu_nd : ∀ x cs2, ex ++ u = x :: cs2 → x.isDigit = false := by
      intro x cs2 hx
      rcases head_of_append hx with hh | ⟨hex0, hu2⟩
      · cases hex : ex with
        | nil => rw [hex] at hh; simp at hh
        | cons a as =>
          rw [hex] at hh
          injection hh with hh2
          subst hh2
          exact hexnd a as hex
      · exact hundig x cs2 hu2
    have hfexu_nd : ∀ x cs2, f ++ ex ++ u = x :: cs2 → x.isDigit = false := by
      intro x cs2 hx
      rcases head_of_append hx with hh | ⟨hfe0, hu2⟩
      · cases hf : f with
        | nil =>
          rw [hf, List.nil_append] at hh
          cases hex : ex with
          | nil => rw [hex] at hh; simp at hh
          | cons a as =>
            rw [hex] at hh
            obtain rfl : x = a := by symm; simpa using hh
            exact hexnd x as hex
        | cons a as =>
          rw [hf] at hh
          obtain rfl : x = a := by symm; simpa using hh
          exact hfnd x as hf
      · exact hundig x cs2 hu2
    refine ⟨?_, ?_, ?_⟩
    · have := hiprep (f ++ ex ++ u) hfexu_nd
      simpa [List.append_assoc] using this
    · rcases hfcase with ⟨hf0, -⟩ | ⟨-, -, -, -, hrep⟩
      · subst hf0
        simp only [List.nil_append]
        cases hex : ex with
        | nil =>
          subst hex
          simp only [List.nil_append]
          refine scanFrac_delim ?_
          intro c cs2 hc
          rcases delimOK_head_mem hu c cs2 hc with rfl | rfl | rfl | rfl | rfl | rfl | rfl <;> decide
        | cons a as =>
          subst hex
          refine scanFrac_delim ?_
          intro c cs2 hc
          rw [List.cons_append] at hc
          obtain rfl : c = a := by
            injection hc with h1 h2
            exact h1.symm
          rcases hexhead c as rfl with rfl | rfl <;> decide
      · rw [List.append_assoc]
        exact hrep (ex ++ u) hexu_nd
    · rcases hexcase with ⟨hex0, -⟩ | ⟨-, -, -, -, hrep⟩
      · subst hex0
        simp only [List.nil_append]
        refine scanExp_delim ?_
        intro c cs2 hc
        rcases delimOK_head_mem hu c cs2 hc with rfl | rfl | rfl | rfl | rfl | rfl | rfl <;>
          exact ⟨by decide, by decide⟩
      · exact hrep u hundig

theorem scanNumber_split {cs lex rest : List Char}
    (h : scanNumber cs = some (lex, rest)) :
    cs = lex ++ rest ∧ lex ≠ [] ∧ (∀ c ∈ lex, c ≠ '"') ∧
    (∃ dch, lex.getLast? = some dch ∧ dch.isDigit = true) ∧
    (∀ u, delimOK u → scanNumber (lex ++ u) = some (lex, u)) := by
  cases cs with
  | nil => exact absurd h (by simp [scanNumber])
  | cons c r =>
    rw [scanNumber.eq_def] at h
    by_cases hm : (c == '-') = true
    · simp only [if_pos hm, Option.map_eq_some'] at h
      obtain ⟨⟨ip, rest1⟩, hip, heq⟩ := h
      rcases hsf : scanFrac rest1 with ⟨f, rest2⟩
      rcases hse : scanExp rest2 with ⟨ex, rest3⟩
      rw [hsf, hse] at heq
      injection heq with hlex hrest
      obtain ⟨hc1, hbne, hqf, ⟨dch, hlast, hdig⟩, hrep⟩ := scanNumber_core hip hsf hse
      have hcm : c = '-' := by simpa using hm
      subst hcm
      subst hlex
      subst hrest
      refine ⟨by rw [hc1]; rfl, by simp, ?_, ⟨dch, ?_, hdig⟩, ?_⟩
      · intro x hx
        rcases List.mem_cons.mp hx with rfl | hx2
        · decide
        · exact hqf x hx2
      · rw [getLast?_cons_of_ne hbne]
        exact hlast
      · intro u hu
        obtain ⟨hr1, hr2, hr3⟩ := hrep u hu
        rw [List.cons_append, scanNumber.eq_def]
        simp only [if_pos (by decide : (('-' : Char) == '-') = true), hr1,
          Option.map_some', hr2, hr3]
    · simp only [if_neg hm, Option.map_eq_some'] at h
      obtain ⟨⟨ip, rest1⟩, hip, heq⟩ := h
      rcases hsf : scanFrac rest1 with ⟨f, rest2⟩
      rcases hse : scanExp rest2 with ⟨ex, rest3⟩
      rw [hsf, hse] at heq
      injection heq with hlex hrest
      obtain ⟨hc1, hbne, hqf, ⟨dch, hlast, hdig⟩, hrep⟩ := scanNumber_core hip hsf hse
      subst hlex
      subst hrest
      obtain ⟨hd1, hd2, ⟨ipd, hipl, hipdg⟩, hipall, -⟩ := scanIntPart_split hip
      refine ⟨hc1, hbne, hqf, ⟨dch, hlast, hdig⟩, ?_⟩
      intro u hu
      obtain ⟨hr1, hr2, hr3⟩ := hrep u hu
      have hipcons : ∃ hd tl, ip = hd :: tl := by
        cases hip2 : ip with
        | nil => exact absurd hip2 hd2
        | cons hd tl => exact ⟨hd, tl, rfl⟩
      obtain ⟨hd, tl, hip2⟩ := hipcons
      have hhd : hd.isDigit = true := hipall hd (by rw [hip2]; simp)
      have hhdm : ¬(hd == '-') = true := by
        intro hcon
        obtain rfl : hd = '-' := by simpa using hcon
        simp [Char.isDigit] at hhd
      have hshape : (ip ++ f ++ ex) ++ u = hd :: (tl ++ f ++ ex ++ u) := by
        rw [hip2]
        simp
      rw [hshape, scanNumber.eq_def]
      simp only [if_neg hhdm]
      have hback : hd :: (tl ++ f ++ ex ++ u) = (ip ++ f ++ ex) ++ u := by
        rw [hip2]
        simp
      rw [hback, hr1]
      simp only [Option.map_some', hr2, hr3]

/-! ## Character-class helpers -/

theorem char_beq_iff {c d : Char} : (c == d) = true ↔ c.toNat = d.toNat := by
  constructor
  · intro h
    have : c = d := by simpa using h
    rw [this]
  · intro h
    have : c = d := Char.eq_of_val_eq (UInt32.toNat.inj h)
    simp [this]

theorem char_eq_iff {c d : Char} : c = d ↔ c.toNat = d.toNat :=
  ⟨fun h => by rw [h], fun h => Char.eq_of_val_eq (UInt32.toNat.inj h)⟩

theorem isJsonWs_iff {c : Char} :
    isJsonWs c = true ↔ c.toNat = 32 ∨ c.toNat = 9 ∨ c.toNat = 10 ∨ c.toNat = 13 := by
  have e1 : (' ' : Char).toNat = 32 := rfl
  have e2 : ('\t' : Char).toNat = 9 := rfl
  have e3 : ('\n' : Char).toNat = 10 := rfl
  have e4 : ('\r' : Char).toNat = 13 := rfl
  simp only [isJsonWs, Bool.or_eq_true, char_beq_iff, e1, e2, e3, e4]
  omega

theorem isJsWs_iff {c : Char} :
    isJsWs c = true ↔
      c.toNat = 32 ∨ c.toNat = 9 ∨ c.toNat = 10 ∨ c.toNat = 13 ∨
      c.toNat = 11 ∨ c.toNat = 12 ∨ c.toNat = 0xa0 ∨ c.toNat = 0x1680 ∨
      (0x2000 ≤ c.toNat ∧ c.toNat ≤ 0x200a) ∨ c.toNat = 0x2028 ∨
      c.toNat = 0x2029 ∨ c.toNat = 0x202f ∨ c.toNat = 0x205f ∨
      c.toNat = 0x3000 ∨ c.toNat = 0xfeff := by
  have e5 : ('\x0b' : Char).toNat = 11 := rfl
  have e6 : ('\x0c' : Char).toNat = 12 := rfl
  simp only [isJsWs, Bool.or_eq_true, char_beq_iff, isJsonWs_iff, e5, e6,
    Bool.and_eq_true, decide_eq_true_eq, beq_iff_eq, char_eq_iff]
  omega

theorem digit_toNat_bounds {c : Char} (h : c.isDigit = true) :
    48 ≤ c.toNat ∧ c.toNat ≤ 57 := by
  simp only [Char.isDigit, Bool.and_eq_true, decide_eq_true_eq] at h
  obtain ⟨h1, h2⟩ := h
  exact ⟨h1, h2⟩

theorem digit_not_jsws {c : Char} (h : c.isDigit = true) : isJsWs c = false := by
  obtain ⟨h1, h2⟩ := digit_toNat_bounds h
  cases hw : isJsWs c
  · rfl
  · obtain hcase := isJsWs_iff.mp hw
    omega

theorem digit_not_jsonws {c : Char} (h : c.isDigit = true) : isJsonWs c = false := by
  obtain ⟨h1, h2⟩ := digit_toNat_bounds h
  cases hw : isJsonWs c
  · rfl
  · obtain hcase := isJsonWs_iff.mp hw
    omega

theorem digit_beq_false {c d : Char} (h : c.isDigit = true)
    (hd : d.toNat < 48 ∨ 57 < d.toNat) : (c == d) = false := by
  obtain ⟨h1, h2⟩ := digit_toNat_bounds h
  cases hb : (c == d)
  · rfl
  · have := char_beq_iff.mp hb
    omega

/-! ## Whitespace-class bridging lemmas -/

theorem jsonws_imp_jsws {c : Char} (h : isJsonWs c = true) : isJsWs c = true := by
  simp [isJsWs, h]

theorem not_jsws_not_jsonws {c : Char} (h : isJsWs c = false) : isJsonWs c = false := by
  cases hj : isJsonWs c
  · rfl
  · rw [jsonws_imp_jsws hj] at h
    exact absurd h (by simp)

theorem jsonws_ne_quote {c : Char} (h : isJsonWs c = true) : c ≠ '"' := by
  intro hc
  subst hc
  exact absurd h (by decide)

theorem dropWhile_all_append {p : Char → Bool} {A : List Char} (B : List Char)
    (hA : ∀ a ∈ A, p a = true) : (A ++ B).dropWhile p = B.dropWhile p := by
  induction A with
  | nil => rfl
  | cons a A ih =>
    rw [List.cons_append, List.dropWhile_cons_of_pos (hA a (by simp))]
    exact ih (fun x hx => hA x (by simp [hx]))

theorem dropWhile_ws_shape {p : Char → Bool} {A : List Char} {c : Char} (X : List Char)
    (hA : ∀ a ∈ A, p a = true) (hc : p c = false) :
    (A ++ c :: X).dropWhile p = c :: X := by
  rw [dropWhile_all_append _ hA, List.dropWhile_cons_of_neg (by simp [hc])]

theorem all_of_dropWhile_nil {p : Char → Bool} {l : List Char}
    (h : l.dropWhile p = []) : ∀ x ∈ l, p x = true := by
  intro x hx
  have hl := @List.takeWhile_append_dropWhile _ p l
  rw [h, List.append_nil] at hl
  exact List.mem_takeWhile_imp (hl ▸ hx)

/-! ## Position-wise absence of the repair-regex match -/

/-- No position of `A`, continued by `X`, matches the repair regex. -/
def noSIfrom (A X : List Char) : Prop :=
  ∀ i, i < A.length → matchSI (A.drop i ++ X) = none

theorem matchSI_none_of_head {c : Char} {r : List Char} (h : c ≠ '"') :
    matchSI (c :: r) = none := by
  cases hm : matchSI (c :: r) with
  | none => rfl
  | some w => exact absurd (matchSI_head hm) h

theorem noSIfrom_nil {X : List Char} : noSIfrom [] X := by
  intro i hi
  simp at hi

theorem noSIfrom_append {A B X : List Char}
    (hA : noSIfrom A (B ++ X)) (hB : noSIfrom B X) : noSIfrom (A ++ B) X := by
  intro i hi
  rcases Nat.lt_or_ge i A.length with hlt | hge
  · rw [List.drop_append_of_le_length (Nat.le_of_lt hlt), List.append_assoc]
    exact hA i hlt
  · have hi2 : i - A.length < B.length := by
      rw [List.length_append] at hi
      omega
    have hdrop : (A ++ B).drop i = B.drop (i - A.length) := by
      conv_lhs => rw [show i = A.length + (i - A.length) from by omega]
      rw [List.drop_append]
    rw [hdrop]
    exact hB (i - A.length) hi2

theorem noSIfrom_cons {c : Char} {A X : List Char}
    (hc : matchSI (c :: (A ++ X)) = none) (hA : noSIfrom A X) : noSIfrom (c :: A) X := by
  intro i hi
  cases i with
  | zero => simpa using hc
  | succ j =>
    have : j < A.length := by simp at hi; omega
    exact hA j this

theorem noSI_of_no_quote {A : List Char} (hA : ∀ c ∈ A, c ≠ '"') (X : List Char) :
    noSIfrom A X := by
  induction A with
  | nil => exact noSIfrom_nil
  | cons a A ih =>
    refine noSIfrom_cons (matchSI_none_of_head (hA a (by simp))) ?_
    exact ih (fun c hc => hA c (by simp [hc]))

theorem matchSI_quote_not_s {X : List Char} (h : X.head? ≠ some 's') :
    matchSI ('"' :: X) = none := by
  have hp : List.dropPrefix? ('"' :: X) siToken = none := by
    cases X with
    | nil => rfl
    | cons x xs =>
      have hx : (x == 's') = false := by
        cases hb : x == 's'
        · rfl
        · exact absurd (by simpa using hb : x = 's') (by simpa using h)
      simp [siToken, List.dropPrefix?, hx]
  exact matchSI_eq_none_of_no_token hp

/-! ## The regex match at a quote followed by a scannable string body -/

theorem scanStr_quote (r : List Char) : scanStr ('"' :: r) = some ([], r) := by
  rw [scanStr.eq_def]
  simp

theorem scanStr_plain {c : Char} (r : List Char) (h1 : (c == '"') = false)
    (h2 : (c == '\\') = false) (h3 : ¬ (c.toNat < 32)) :
    scanStr (c :: r) = (scanStr r).map (fun p => (c :: p.1, p.2)) := by
  rw [scanStr.eq_def]
  simp only [h1, h2, Bool.false_eq_true, if_false, if_neg h3]

theorem scanStr_plain_run {P : List Char} (Z : List Char)
    (hP : ∀ c ∈ P, (c == '"') = false ∧ (c == '\\') = false ∧ ¬ (c.toNat < 32)) :
    scanStr (P ++ '"' :: Z) = some (P, Z) := by
  induction P with
  | nil => exact scanStr_quote Z
  | cons c P ih =>
    obtain ⟨h1, h2, h3⟩ := hP c (by simp)
    rw [List.cons_append, scanStr_plain _ h1 h2 h3, ih (fun x hx => hP x (by simp [hx]))]
    rfl

theorem scanStr_si (Z : List Char) :
    scanStr ("source_indices\"".data ++ Z) = some ("source_indices".data, Z) := by
  have h : "source_indices\"".data ++ Z = "source_indices".data ++ '"' :: Z := rfl
  rw [h]
  exact scanStr_plain_run Z (by decide)

/-- At an opening quote whose body scans successfully, the repair regex can
only fire when the body is literally `source_indices` and the continuation
passes the colon-lookahead test; with a failing lookahead there is no match. -/
theorem matchSI_quote_scanStr {B s X : List Char}
    (hrep : ∀ u, scanStr (B ++ u) = some (s, u))
    (hcd : colonDelim X = false) : matchSI ('"' :: (B ++ X)) = none := by
  cases hm : matchSI ('"' :: (B ++ X)) with
  | none => rfl
  | some w =>
    exfalso
    obtain ⟨r1, hp, hc⟩ := matchSI_some_elim hm
    have heq : '"' :: (B ++ X) = siToken ++ r1 := dropPrefix?_eq_append hp
    have heq2 : B ++ X = "source_indices\"".data ++ r1 := by
      have : siToken ++ r1 = '"' :: ("source_indices\"".data ++ r1) := by
        simp [siToken]
      rw [this] at heq
      exact List.cons.inj heq |>.2
    have h1 : scanStr (B ++ X) = some (s, X) := hrep X
    have h2 : scanStr (B ++ X) = some ("source_indices".data, r1) := by
      rw [heq2]
      exact scanStr_si r1
    rw [h1] at h2
    have hX : X = r1 := (Prod.mk.injEq _ _ _ _ ▸ Option.some.inj h2).2
    rw [← hX] at hc
    rw [hc] at hcd
    exact absurd hcd (by simp)

/-! ## The colon-lookahead on structured continuations -/

theorem colonDelim_ws_append {W : List Char} (X : List Char)
    (hW : ∀ a ∈ W, isJsWs a = true) : colonDelim (W ++ X) = colonDelim X := by
  simp only [colonDelim, dropWhile_all_append _ hW]

theorem colonDelim_jsonws_append {W : List Char} (X : List Char)
    (hW : ∀ a ∈ W, isJsonWs a = true) : colonDelim (W ++ X) = colonDelim X :=
  colonDelim_ws_append X (fun a ha => jsonws_imp_jsws (hW a ha))

theorem colonDelim_head_ne {c : Char} {X : List Char}
    (hws : isJsWs c = false) (hne : c ≠ ':') : colonDelim (c :: X) = false := by
  have hstep : (c :: X).dropWhile isJsWs = c :: X :=
    List.dropWhile_cons_of_neg (by simp [hws])
  have hbeq : (c == ':') = false := by
    cases hb : c == ':'
    · rfl
    · exact absurd (by simpa using hb) hne
  simp [colonDelim, hstep, hbeq]

theorem colonDelim_all_ws {W : List Char} (hW : ∀ a ∈ W, isJsWs a = true) :
    colonDelim W = false := by
  have : W.dropWhile isJsWs = [] := by
    have := @dropWhile_all_append isJsWs W [] hW
    simpa using this
  simp [colonDelim, this]

/-- Continuations on which no repair-regex match can begin at a directly
preceding complete value: the colon-lookahead fails and the head cannot
extend a quoted `source_indices` key. -/
def tailOK (u : List Char) : Prop :=
  colonDelim u = false ∧ u.head? ≠ some 's'

theorem tailOK_nil : tailOK [] := by
  constructor
  · rfl
  · simp

theorem delimOK_nil : delimOK [] := trivial


theorem hexVal_ne_quote {c : Char} {a : Nat} (h : hexVal? c = some a) : c ≠ '"' := by
  intro hc
  subst hc
  have hn : hexVal? '"' = none := by decide
  rw [hn] at h
  exact absurd h (by simp)

theorem block_of_append (P tl B B2 z : List Char)
    (hB : P ++ tl = B ++ z) (htl : tl = B2 ++ z) : B = P ++ B2 := by
  rw [htl] at hB
  have h2 : (P ++ B2) ++ z = B ++ z := by
    rw [List.append_assoc]
    exact hB
  exact (List.append_cancel_right h2).symm

/-- No interior position of a successfully scanned string body starts a
repair-regex match, whatever colon-free text follows the string. -/
theorem scanStr_noSI {X : List Char} (hcd : colonDelim X = false)
    (hhd : X.head? ≠ some 's') :
    ∀ {body s rest B : List Char}, scanStr body = some (s, rest) →
      body = B ++ rest → noSIfrom B X := by
  intro body
  induction body using scanStr.induct
  case case1 =>
    intro s rest B h hB
    exact absurd h (by simp [scanStr])
  case case2 c r hq =>
    intro s rest B h hB
    have hc : c = '"' := by simpa using hq
    subst hc
    rw [scanStr.eq_def] at h
    simp only [if_pos (by decide : (('"' : Char) == '"') = true)] at h
    injection h with hpair
    injection hpair with h1 h2
    rw [← h2] at hB
    have hBs : B = ['"'] :=
      (List.append_cancel_right (show (['"'] : List Char) ++ r = B ++ r from hB)).symm
    subst hBs
    refine noSIfrom_cons ?_ noSIfrom_nil
    rw [List.nil_append]
    exact matchSI_quote_not_s hhd
  case case3 c hq hb =>
    intro s rest B h hB
    exfalso
    have hc : c = '\\' := by simpa using hb
    subst hc
    rw [scanStr.eq_def] at h
    simp at h
  case case4 cb hq hb ce hu h1 h2 h3 h4 r3 a b c2 d hv4 hv3 hv2 hv1 ih =>
    intro s rest B h hB
    rw [scanStr.eq_def] at h
    simp only [if_neg hq, if_pos hb, if_pos hu, hv1, hv2, hv3, hv4,
      Option.map_eq_some'] at h
    obtain ⟨⟨s2, rest2⟩, hr, heq⟩ := h
    injection heq with hs hrr
    have hrr2 : rest2 = rest := hrr
    obtain ⟨B2, hb1, -, -, -⟩ := scanStr_split hr
    have hnos : noSIfrom B2 X := ih hr hb1
    rw [hrr2] at hb1
    have hBs : B = [cb, ce, h1, h2, h3, h4] ++ B2 :=
      block_of_append [cb, ce, h1, h2, h3, h4] r3 B B2 rest hB hb1
    subst hBs
    have hcb : cb ≠ '"' := by simpa using hq
    have hce : ce ≠ '"' := by
      have hlit : ce = 'u' := by simpa using hu
      subst hlit
      decide
    refine noSIfrom_cons (matchSI_none_of_head hcb) ?_
    refine noSIfrom_cons (matchSI_none_of_head hce) ?_
    refine noSIfrom_cons (matchSI_none_of_head (hexVal_ne_quote hv1)) ?_
    refine noSIfrom_cons (matchSI_none_of_head (hexVal_ne_quote hv2)) ?_
    refine noSIfrom_cons (matchSI_none_of_head (hexVal_ne_quote hv3)) ?_
    exact noSIfrom_cons (matchSI_none_of_head (hexVal_ne_quote hv4)) hnos
  case case5 cb hq hb ce hu h1 h2 h3 h4 r3 hfail =>
    intro s rest B h hB
    exfalso
    rw [scanStr.eq_def] at h
    simp only [if_neg hq, if_pos hb, if_pos hu] at h
    cases hv1 : hexVal? h1 with
    | none => simp [hv1] at h
    | some a =>
      cases hv2 : hexVal? h2 with
      | none => simp [hv1, hv2] at h
      | some b =>
        cases hv3 : hexVal? h3 with
        | none => simp [hv1, hv2, hv3] at h
        | some c2 =>
          cases hv4 : hexVal? h4 with
          | none => simp [hv1, hv2, hv3, hv4] at h
          | some d => exact hfail a b c2 d hv1 hv2 hv3 hv4
  case case6 cb hq hb ce r2 hu hshape =>
    intro s rest B h hB
    exfalso
    rw [scanStr.eq_def] at h
    simp only [if_neg hq, if_pos hb, if_pos hu] at h
    simp at h
  case case7 cb hq hb ce r2 hu hc ih =>
    intro s rest B h hB
    rw [scanStr.eq_def] at h
    simp only [if_neg hq, if_pos hb, if_neg hu, if_pos hc,
      Option.map_eq_some'] at h
    obtain ⟨⟨s2, rest2⟩, hr, heq⟩ := h
    injection heq with hs hrr
    have hrr2 : rest2 = rest := hrr
    obtain ⟨B2, hb1, -, -, hrep⟩ := scanStr_split hr
    have hnos : noSIfrom B2 X := ih hr hb1
    rw [hrr2] at hb1
    have hBs : B = [cb, ce] ++ B2 := block_of_append [cb, ce] r2 B B2 rest hB hb1
    subst hBs
    have hcb : cb ≠ '"' := by simpa using hq
    refine noSIfrom_cons (matchSI_none_of_head hcb) ?_
    refine noSIfrom_cons ?_ hnos
    by_cases hce : ce = '"'
    · subst hce
      exact matchSI_quote_scanStr hrep hcd
    · exact matchSI_none_of_head hce
  case case8 cb hq hb ce r2 hu h7 hc ih =>
    intro s rest B h hB
    rw [scanStr.eq_def] at h
    simp only [if_neg hq, if_pos hb, if_neg hu, if_neg h7, if_pos hc,
      Option.map_eq_some'] at h
    obtain ⟨⟨s2, rest2⟩, hr, heq⟩ := h
    injection heq with hs hrr
    have hrr2 : rest2 = rest := hrr
    obtain ⟨B2, hb1, -, -, -⟩ := scanStr_split hr
    have hnos : noSIfrom B2 X := ih hr hb1
    rw [hrr2] at hb1
    have hBs : B = [cb, ce] ++ B2 := block_of_append [cb, ce] r2 B B2 rest hB hb1
    subst hBs
    have hcb : cb ≠ '"' := by simpa using hq
    have hce : ce ≠ '"' := by
      have hlit : ce = 'b' := by simpa using hc
      subst hlit
      decide
    exact noSIfrom_cons (matchSI_none_of_head hcb)
      (noSIfrom_cons (matchSI_none_of_head hce) hnos)
  case case9 cb hq hb ce r2 hu h7 h8 hc ih =>
    intro s rest B h hB
    rw [scanStr.eq_def] at h
    simp only [if_neg hq, if_pos hb, if_neg hu, if_neg h7, if_neg h8, if_pos hc,
      Option.map_eq_some'] at h
    obtain ⟨⟨s2, rest2⟩, hr, heq⟩ := h
    injection heq with hs hrr
    have hrr2 : rest2 = rest := hrr
    obtain ⟨B2, hb1, -, -, -⟩ := scanStr_split hr
    have hnos : noSIfrom B2 X := ih hr hb1
    rw [hrr2] at hb1
    have hBs : B = [cb, ce] ++ B2 := block_of_append [cb, ce] r2 B B2 rest hB hb1
    subst hBs
    have hcb : cb ≠ '"' := by simpa using hq
    have hce : ce ≠ '"' := by
      have hlit : ce = 'f' := by simpa using hc
      subst hlit
      decide
    exact noSIfrom_cons (matchSI_none_of_head hcb)
      (noSIfrom_cons (matchSI_none_of_head hce) hnos)
  case case10 cb hq hb ce r2 hu h7 h8 h9 hc ih =>
    intro s rest B h hB
    rw [scanStr.eq_def] at h
    simp only [if_neg hq, if_pos hb, if_neg hu, if_neg h7, if_neg h8, if_neg h9, if_pos hc,
      Option.map_eq_some'] at h
    obtain ⟨⟨s2, rest2⟩, hr, heq⟩ := h
    injection heq with hs hrr
    have hrr2 : rest2 = rest := hrr
    obtain ⟨B2, hb1, -, -, -⟩ := scanStr_split hr
    have hnos : noSIfrom B2 X := ih hr hb1
    rw [hrr2] at hb1
    have hBs : B = [cb, ce] ++ B2 := block_of_append [cb, ce] r2 B B2 rest hB hb1
    subst hBs
    have hcb : cb ≠ '"' := by simpa using hq
    have hce : ce ≠ '"' := by
      have hlit : ce = 'n' := by simpa using hc
      subst hlit
      decide
    exact noSIfrom_cons (matchSI_none_of_head hcb)
      (noSIfrom_cons (matchSI_none_of_head hce) hnos)
  case case11 cb hq hb ce r2 hu h7 h8 h9 h10 hc ih =>
    intro s rest B h hB
    rw [scanStr.eq_def] at h
    simp only [if_neg hq, if_pos hb, if_neg hu, if_neg h7, if_neg h8, if_neg h9, if_neg h10, if_pos hc,
      Option.map_eq_some'] at h
    obtain ⟨⟨s2, rest2⟩, hr, heq⟩ := h
    injection heq with hs hrr
    have hrr2 : rest2 = rest := hrr
    obtain ⟨B2, hb1, -, -, -⟩ := scanStr_split hr
    have hnos : noSIfrom B2 X := ih hr hb1
    rw [hrr2] at hb1
    have hBs : B = [cb, ce] ++ B2 := block_of_append [cb, ce] r2 B B2 rest hB hb1
    subst hBs
    have hcb : cb ≠ '"' := by simpa using hq
    have hce : ce ≠ '"' := by
      have hlit : ce = 'r' := by simpa using hc
      subst hlit
      decide
    exact noSIfrom_cons (matchSI_none_of_head hcb)
      (noSIfrom_cons (matchSI_none_of_head hce) hnos)
  case case12 cb hq hb ce r2 hu h7 h8 h9 h10 h11 hc ih =>
    intro s rest B h hB
    rw [scanStr.eq_def] at h
    simp only [if_neg hq, if_pos hb, if_neg hu, if_neg h7, if_neg h8, if_neg h9, if_neg h10, if_neg h11, if_pos hc,
      Option.map_eq_some'] at h
    obtain ⟨⟨s2, rest2⟩, hr, heq⟩ := h
    injection heq with hs hrr
    have hrr2 : rest2 = rest := hrr
    obtain ⟨B2, hb1, -, -, -⟩ := scanStr_split hr
    have hnos : noSIfrom B2 X := ih hr hb1
    rw [hrr2] at hb1
    have hBs : B = [cb, ce] ++ B2 := block_of_append [cb, ce] r2 B B2 rest hB hb1
    subst hBs
    have hcb : cb ≠ '"' := by simpa using hq
    have hce : ce ≠ '"' := by
      have hlit : ce = 't' := by simpa using hc
      subst hlit
      decide
    exact noSIfrom_cons (matchSI_none_of_head hcb)
      (noSIfrom_cons (matchSI_none_of_head hce) hnos)
  case case13 cb hq hb ce r2 hu h7 h8 h9 h10 h11 h12 =>
    intro s rest B h hB
    exfalso
    rw [scanStr.eq_def] at h
    simp only [if_neg hq, if_pos hb, if_neg hu, if_neg h7, if_neg h8, if_neg h9,
      if_neg h10, if_neg h11, if_neg h12] at h
    simp at h
  case case14 c r hq hb hctl =>
    intro s rest B h hB
    exfalso
    rw [scanStr.eq_def] at h
    simp only [if_neg hq, if_neg hb, if_pos hctl] at h
    simp at h
  case case15 c r hq hb hctl ih =>
    intro s rest B h hB
    rw [scanStr.eq_def] at h
    simp only [if_neg hq, if_neg hb, if_neg hctl, Option.map_eq_some'] at h
    obtain ⟨⟨s2, rest2⟩, hr, heq⟩ := h
    injection heq with hs hrr
    have hrr2 : rest2 = rest := hrr
    obtain ⟨B2, hb1, -, -, -⟩ := scanStr_split hr
    have hnos : noSIfrom B2 X := ih hr hb1
    rw [hrr2] at hb1
    have hBs : B = [c] ++ B2 := block_of_append [c] r B B2 rest hB hb1
    subst hBs
    have hcb : c ≠ '"' := by simpa using hq
    exact noSIfrom_cons (matchSI_none_of_head hcb) hnos

/-! ## Shape facts for delimiter-headed continuations -/

theorem jsonws_ne_s {c : Char} (h : isJsonWs c = true) : c ≠ 's' := by
  intro hc
  subst hc
  exact absurd h (by decide)

theorem head_ne_s_of_ws_delim {W : List Char} {c : Char} (T : List Char)
    (hW : ∀ a ∈ W, isJsonWs a = true) (hc : c ≠ 's') :
    (W ++ c :: T).head? ≠ some 's' := by
  cases W with
  | nil =>
    simp only [List.nil_append, List.head?_cons]
    intro hcon
    exact hc (by simpa using hcon)
  | cons w ws =>
    simp only [List.cons_append, List.head?_cons]
    intro hcon
    exact jsonws_ne_s (hW w (by simp)) (by simpa using hcon)

theorem delimOK_ws_delim {W : List Char} {c : Char} (T : List Char)
    (hW : ∀ a ∈ W, isJsonWs a = true) (hc : c = ',' ∨ c = ']' ∨ c = '}') :
    delimOK (W ++ c :: T) := by
  cases W with
  | nil =>
    simp only [List.nil_append, delimOK]
    tauto
  | cons w ws =>
    simp only [List.cons_append, delimOK]
    exact Or.inl ⟨hW w (by simp), jsonws_ne_quote (hW w (by simp))⟩

theorem tailOK_ws_delim {W : List Char} {c : Char} (T : List Char)
    (hW : ∀ a ∈ W, isJsonWs a = true) (hcws : isJsWs c = false)
    (hcol : c ≠ ':') (hs : c ≠ 's') : tailOK (W ++ c :: T) := by
  constructor
  · rw [colonDelim_jsonws_append _ hW]
    exact colonDelim_head_ne hcws hcol
  · exact head_ne_s_of_ws_delim T hW hs

/-- Leading JSON whitespace never affects a value parse, at any fuel. -/
theorem parseValue_ws {W : List Char} (g : Nat) (X : List Char)
    (hW : ∀ w ∈ W, isJsonWs w = true) :
    parseValue g (W ++ X) = parseValue g X := by
  cases g with
  | zero => rfl
  | succ g =>
    simp only [parseValue]
    rw [dropWhile_all_append X hW]

/-! ## The parser-locality invariants -/

/-- What a successful value parse guarantees about the consumed text: a
whitespace prefix, then a block headed by a dispatch character and ended by a
non-whitespace character, replayable before any well-delimited continuation at
any sufficient fuel, and free of repair-regex matches at every position. -/
def ValueOut (cs : List Char) (v : Json) (rest : List Char) : Prop :=
  ∃ W C, cs = W ++ C ++ rest ∧ (∀ w ∈ W, isJsonWs w = true) ∧
    (∃ hd tl, C = hd :: tl ∧ isJsWs hd = false ∧
      hd ≠ ',' ∧ hd ≠ '}' ∧ hd ≠ ']') ∧
    (∃ lc, C.getLast? = some lc ∧ isJsWs lc = false) ∧
    (∀ u, delimOK u → ∀ g, 4 * C.length + 1 ≤ g → parseValue g (C ++ u) = some (v, u)) ∧
    (∀ u, tailOK u → noSIfrom C u)

/-- The analogous guarantees for the array-tail parser (after `[`). -/
def ATOut (cs : List Char) (v : Json) (rest : List Char) : Prop :=
  ∃ C, cs = C ++ rest ∧ C ≠ [] ∧ C.getLast? = some ']' ∧
    (∀ u g, 4 * C.length + 2 ≤ g → parseArrTail g (C ++ u) = some (v, u)) ∧
    (∀ u, tailOK u → noSIfrom C u)

/-- The analogous guarantees for the object-tail parser (after `\x7b`). -/
def MTOut (cs : List Char) (v : Json) (rest : List Char) : Prop :=
  ∃ C, cs = C ++ rest ∧ C ≠ [] ∧ C.getLast? = some '}' ∧
    (∀ u g, 4 * C.length + 2 ≤ g → parseMembersTail g (C ++ u) = some (v, u)) ∧
    (∀ u, tailOK u → noSIfrom C u)

/-- The guarantees for the after-element parser, whose block moreover begins
with whitespace and then a comma or closing bracket, making it a safe
continuation for the value before it. -/
def EAOut (cs : List Char) (vs : List Json) (rest : List Char) : Prop :=
  ∃ C, cs = C ++ rest ∧ C ≠ [] ∧ C.getLast? = some ']' ∧
    (∀ u g, 4 * C.length + 2 ≤ g → parseElemsAfter g (C ++ u) = some (vs, u)) ∧
    (∀ u, tailOK u → noSIfrom C u) ∧
    (∀ z, tailOK (C ++ z)) ∧ (∀ z, delimOK (C ++ z))

/-- The guarantees for the after-member parser, as for `EAOut`. -/
def MAOut (cs : List Char) (ms : List (List Char × Json)) (rest : List Char) : Prop :=
  ∃ C, cs = C ++ rest ∧ C ≠ [] ∧ C.getLast? = some '}' ∧
    (∀ u g, 4 * C.length + 2 ≤ g → parseMembersAfter g (C ++ u) = some (ms, u)) ∧
    (∀ u, tailOK u → noSIfrom C u) ∧
    (∀ z, tailOK (C ++ z)) ∧ (∀ z, delimOK (C ++ z))

theorem dropPrefix?_self_append (P u : List Char) :
    (P ++ u).dropPrefix? P = some u := by
  induction P with
  | nil => simp [List.dropPrefix?]
  | cons p P ih => simp [List.dropPrefix?, ih]

theorem isDigit_ne {c d : Char} (h : c.isDigit = true) (hd : d.isDigit = false) :
    c ≠ d := by
  intro hc
  subst hc
  rw [h] at hd
  exact absurd hd (by simp)

/-- The value-parser step of the locality induction. -/
theorem valueStep (f : Nat)
    (ihat : ∀ cs v rest, parseArrTail f cs = some (v, rest) → ATOut cs v rest)
    (ihmt : ∀ cs v rest, parseMembersTail f cs = some (v, rest) → MTOut cs v rest) :
    ∀ cs v rest, parseValue (f + 1) cs = some (v, rest) → ValueOut cs v rest := by
  intro cs v rest h
  simp only [parseValue] at h
  split at h
  · exact absurd h (by simp)
  next c r hdw =>
    have hcs : cs = cs.takeWhile isJsonWs ++ c :: r := by
      conv_lhs => rw [← @List.takeWhile_append_dropWhile _ isJsonWs cs]
      rw [hdw]
    have hW : ∀ w ∈ cs.takeWhile isJsonWs, isJsonWs w = true :=
      fun w hw => List.mem_takeWhile_imp hw
    by_cases h1 : (c == '{') = true
    · rw [if_pos h1] at h
      have hc1 : c = '{' := by simpa using h1
      subst hc1
      obtain ⟨C, hC1, hC2, hC3, hC4, hC5⟩ := ihmt r v rest h
      refine ⟨cs.takeWhile isJsonWs, '{' :: C, ?_, hW, ?_, ?_, ?_, ?_⟩
      · conv_lhs => rw [hcs, hC1]
        simp
      · exact ⟨'{', C, rfl, by decide, by decide, by decide, by decide⟩
      · refine ⟨'}', ?_, by decide⟩
        rw [getLast?_cons_of_ne hC2]
        exact hC3
      · intro u hu g hg
        obtain ⟨g', rfl⟩ : ∃ g', g = g' + 1 := ⟨g - 1, by omega⟩
        simp only [parseValue]
        have hdw2 : (('{' :: C) ++ u).dropWhile isJsonWs = '{' :: (C ++ u) := by
          rw [List.cons_append]
          exact List.dropWhile_cons_of_neg (by decide)
        rw [hdw2]
        exact hC4 u g' (by simp only [List.length_cons] at hg; omega)
      · intro u hu
        exact noSIfrom_cons (matchSI_none_of_head (by decide)) (hC5 u hu)
    · rw [if_neg h1] at h
      by_cases h2 : (c == '[') = true
      · rw [if_pos h2] at h
        have hc2 : c = '[' := by simpa using h2
        subst hc2
        obtain ⟨C, hC1, hC2, hC3, hC4, hC5⟩ := ihat r v rest h
        refine ⟨cs.takeWhile isJsonWs, '[' :: C, ?_, hW, ?_, ?_, ?_, ?_⟩
        · conv_lhs => rw [hcs, hC1]
          simp
        · exact ⟨'[', C, rfl, by decide, by decide, by decide, by decide⟩
        · refine ⟨']', ?_, by decide⟩
          rw [getLast?_cons_of_ne hC2]
          exact hC3
        · intro u hu g hg
          obtain ⟨g', rfl⟩ : ∃ g', g = g' + 1 := ⟨g - 1, by omega⟩
          simp only [parseValue]
          have hdw2 : (('[' :: C) ++ u).dropWhile isJsonWs = '[' :: (C ++ u) := by
            rw [List.cons_append]
            exact List.dropWhile_cons_of_neg (by decide)
          rw [hdw2]
          exact hC4 u g' (by simp only [List.length_cons] at hg; omega)
        · intro u hu
          exact noSIfrom_cons (matchSI_none_of_head (by decide)) (hC5 u hu)
      · rw [if_neg h2] at h
        by_cases h3 : (c == '"') = true
        · rw [if_pos h3] at h
          have hc3 : c = '"' := by simpa using h3
          subst hc3
          simp only [Option.map_eq_some'] at h
          obtain ⟨⟨s, rest2⟩, hscan, heq⟩ := h
          injection heq with hv hrr
          have hv2 : Json.str s = v := hv
          have hrr2 : rest2 = rest := hrr
          subst hrr2
          obtain ⟨B, hB1, hB2, hB3, hB4⟩ := scanStr_split hscan
          refine ⟨cs.takeWhile isJsonWs, '"' :: B, ?_, hW, ?_, ?_, ?_, ?_⟩
          · conv_lhs => rw [hcs, hB1]
            simp
          · exact ⟨'"', B, rfl, by decide, by decide, by decide, by decide⟩
          · refine ⟨'"', ?_, by decide⟩
            rw [getLast?_cons_of_ne hB2]
            exact hB3
          · intro u hu g hg
            obtain ⟨g', rfl⟩ : ∃ g', g = g' + 1 := ⟨g - 1, by omega⟩
            simp only [parseValue]
            have hdw2 : (('"' :: B) ++ u).dropWhile isJsonWs = '"' :: (B ++ u) := by
              rw [List.cons_append]
              exact List.dropWhile_cons_of_neg (by decide)
            rw [hdw2]
            show (scanStr (B ++ u)).map (fun p => (Json.str p.1, p.2)) = some (v, u)
            rw [hB4 u, ← hv2]
            rfl
          · intro u hu
            refine noSIfrom_cons (matchSI_quote_scanStr hB4 hu.1) ?_
            exact scanStr_noSI hu.1 hu.2 hscan hB1
        · rw [if_neg h3] at h
          by_cases h4 : (c == 't') = true
          · rw [if_pos h4] at h
            have hc4 : c = 't' := by simpa using h4
            subst hc4
            simp only [Option.map_eq_some'] at h
            obtain ⟨rest2, hdp, heq⟩ := h
            injection heq with hv hrr
            have hv2 : Json.bool true = v := hv
            have hr : r = "rue".data ++ rest2 := dropPrefix?_eq_append hdp
            have hrr2 : rest2 = rest := hrr
            subst hrr2
            refine ⟨cs.takeWhile isJsonWs, "true".data, ?_, hW, ?_, ?_, ?_, ?_⟩
            · conv_lhs => rw [hcs, hr]
              simp
            · exact ⟨'t', "rue".data, rfl, by decide, by decide, by decide, by decide⟩
            · exact ⟨'e', by decide, by decide⟩
            · intro u hu g hg
              obtain ⟨g', rfl⟩ : ∃ g', g = g' + 1 := ⟨g - 1, by omega⟩
              simp only [parseValue]
              have hdw2 : ("true".data ++ u).dropWhile isJsonWs = 't' :: ("rue".data ++ u) := by
                exact List.dropWhile_cons_of_neg (by decide)
              rw [hdw2]
              show (("rue".data ++ u).dropPrefix? "rue".data).map
                (fun rest => (Json.bool true, rest)) = some (v, u)
              rw [dropPrefix?_self_append, ← hv2]
              rfl
            · intro u hu
              exact noSI_of_no_quote (by decide) u
          · rw [if_neg h4] at h
            by_cases h5 : (c == 'f') = true
            · rw [if_pos h5] at h
              have hc5 : c = 'f' := by simpa using h5
              subst hc5
              simp only [Option.map_eq_some'] at h
              obtain ⟨rest2, hdp, heq⟩ := h
              injection heq with hv hrr
              have hv2 : Json.bool false = v := hv
              have hr : r = "alse".data ++ rest2 := dropPrefix?_eq_append hdp
              have hrr2 : rest2 = rest := hrr
              subst hrr2
              refine ⟨cs.takeWhile isJsonWs, "false".data, ?_, hW, ?_, ?_, ?_, ?_⟩
              · conv_lhs => rw [hcs, hr]
                simp
              · exact ⟨'f', "alse".data, rfl, by decide, by decide, by decide, by decide⟩
              · exact ⟨'e', by decide, by decide⟩
              · intro u hu g hg
                obtain ⟨g', rfl⟩ : ∃ g', g = g' + 1 := ⟨g - 1, by omega⟩
                simp only [parseValue]
                have hdw2 : ("false".data ++ u).dropWhile isJsonWs
                    = 'f' :: ("alse".data ++ u) := by
                  exact List.dropWhile_cons_of_neg (by decide)
                rw [hdw2]
                show (("alse".data ++ u).dropPrefix? "alse".data).map
                  (fun rest => (Json.bool false, rest)) = some (v, u)
                rw [dropPrefix?_self_append, ← hv2]
                rfl
              · intro u hu
                exact noSI_of_no_quote (by decide) u
            · rw [if_neg h5] at h
              by_cases h6 : (c == 'n') = true
              · rw [if_pos h6] at h
                have hc6 : c = 'n' := by simpa using h6
                subst hc6
                simp only [Option.map_eq_some'] at h
                obtain ⟨rest2, hdp, heq⟩ := h
                injection heq with hv hrr
                have hv2 : Json.null = v := hv
                have hr : r = "ull".data ++ rest2 := dropPrefix?_eq_append hdp
                have hrr2 : rest2 = rest := hrr
                subst hrr2
                refine ⟨cs.takeWhile isJsonWs, "null".data, ?_, hW, ?_, ?_, ?_, ?_⟩
                · conv_lhs => rw [hcs, hr]
                  simp
                · exact ⟨'n', "ull".data, rfl, by decide, by decide, by decide, by decide⟩
                · exact ⟨'l', by decide, by decide⟩
                · intro u hu g hg
                  obtain ⟨g', rfl⟩ : ∃ g', g = g' + 1 := ⟨g - 1, by omega⟩
                  simp only [parseValue]
                  have hdw2 : ("null".data ++ u).dropWhile isJsonWs
                      = 'n' :: ("ull".data ++ u) := by
                    exact List.dropWhile_cons_of_neg (by decide)
                  rw [hdw2]
                  show (("ull".data ++ u).dropPrefix? "ull".data).map
                    (fun rest => (Json.null, rest)) = some (v, u)
                  rw [dropPrefix?_self_append, ← hv2]
                  rfl
                · intro u hu
                  exact noSI_of_no_quote (by decide) u
              · rw [if_neg h6] at h
                by_cases h7 : (c == '-' || c.isDigit) = true
                · rw [if_pos h7] at h
                  simp only [Option.map_eq_some'] at h
                  obtain ⟨⟨lex, rest2⟩, hnum, heq⟩ := h
                  injection heq with hv hrr
                  have hv2 : Json.num lex = v := hv
                  have hrr2 : rest2 = rest := hrr
                  subst hrr2
                  obtain ⟨hn1, hn2, hn3, ⟨dch, hn4, hn5⟩, hn6⟩ := scanNumber_split hnum
                  obtain ⟨hd, tl, hlex⟩ : ∃ hd tl, lex = hd :: tl := by
                    cases hx : lex with
                    | nil => exact absurd hx hn2
                    | cons a b => exact ⟨a, b, rfl⟩
                  have hchd : c = hd := by
                    rw [hlex] at hn1
                    exact (List.cons.inj hn1).1
                  have hcases : hd = '-' ∨ hd.isDigit = true := by
                    rw [hchd] at h7
                    rcases (by simpa using h7 : hd = '-' ∨ hd.isDigit = true) with hx | hx
                    · exact Or.inl hx
                    · exact Or.inr hx
                  have hhdws : isJsWs hd = false := by
                    rcases hcases with rfl | hx
                    · decide
                    · exact digit_not_jsws hx
                  refine ⟨cs.takeWhile isJsonWs, lex, ?_, hW, ?_, ?_, ?_, ?_⟩
                  · conv_lhs => rw [hcs, hn1]
                    simp
                  · refine ⟨hd, tl, hlex, hhdws, ?_, ?_, ?_⟩
                    · rcases hcases with rfl | hx
                      · decide
                      · exact isDigit_ne hx (by decide)
                    · rcases hcases with rfl | hx
                      · decide
                      · exact isDigit_ne hx (by decide)
                    · rcases hcases with rfl | hx
                      · decide
                      · exact isDigit_ne hx (by decide)
                  · exact ⟨dch, hn4, digit_not_jsws hn5⟩
                  · intro u hu g hg
                    obtain ⟨g', rfl⟩ : ∃ g', g = g' + 1 := ⟨g - 1, by omega⟩
                    simp only [parseValue]
                    have hdw2 : (lex ++ u).dropWhile isJsonWs = hd :: (tl ++ u) := by
                      rw [hlex, List.cons_append]
                      exact List.dropWhile_cons_of_neg
                        (by simp [not_jsws_not_jsonws hhdws])
                    rw [hdw2]
                    have hne1 : (hd == '{') = false := by
                      rcases hcases with rfl | hx
                      · decide
                      · cases hb : hd == '{'
                        · rfl
                        · exact absurd (by simpa using hb) (isDigit_ne hx (by decide))
                    have hne2 : (hd == '[') = false := by
                      rcases hcases with rfl | hx
                      · decide
                      · cases hb : hd == '['
                        · rfl
                        · exact absurd (by simpa using hb) (isDigit_ne hx (by decide))
                    have hne3 : (hd == '"') = false := by
                      rcases hcases with rfl | hx
                      · decide
                      · cases hb : hd == '"'
                        · rfl
                        · exact absurd (by simpa using hb) (isDigit_ne hx (by decide))
                    have hne4 : (hd == 't') = false := by
                      rcases hcases with rfl | hx
                      · decide
                      · cases hb : hd == 't'
                        · rfl
                        · exact absurd (by simpa using hb) (isDigit_ne hx (by decide))
                    have hne5 : (hd == 'f') = false := by
                      rcases hcases with rfl | hx
                      · decide
                      · cases hb : hd == 'f'
                        · rfl
                        · exact absurd (by simpa using hb) (isDigit_ne hx (by decide))
                    have hne6 : (hd == 'n') = false := by
                      rcases hcases with rfl | hx
                      · decide
                      · cases hb : hd == 'n'
                        · rfl
                        · exact absurd (by simpa using hb) (isDigit_ne hx (by decide))
                    have hyes : (hd == '-' || hd.isDigit) = true := by
                      rcases hcases with rfl | hx
                      · decide
                      · simp [hx]
                    simp only [hne1, hne2, hne3, hne4, hne5, hne6, hyes,
                      Bool.false_eq_true, if_false, if_true]
                    have hback : hd :: (tl ++ u) = lex ++ u := by
                      rw [hlex]
                      rfl
                    rw [hback, hn6 u hu, ← hv2]
                    rfl
                  · intro u hu
                    exact noSI_of_no_quote hn3 u
                · rw [if_neg h7] at h
                  exact absurd h (by simp)

/-- The array-tail step of the locality induction. -/
theorem atStep (f : Nat)
    (ihv : ∀ cs v rest, parseValue f cs = some (v, rest) → ValueOut cs v rest)
    (ihea : ∀ cs vs rest, parseElemsAfter f cs = some (vs, rest) → EAOut cs vs rest) :
    ∀ cs v rest, parseArrTail (f + 1) cs = some (v, rest) → ATOut cs v rest := by
  intro cs v rest h
  simp only [parseArrTail] at h
  split at h
  · exact absurd h (by simp)
  next c r2 hdw =>
    have hcs : cs = cs.takeWhile isJsonWs ++ c :: r2 := by
      conv_lhs => rw [← @List.takeWhile_append_dropWhile _ isJsonWs cs]
      rw [hdw]
    have hW : ∀ w ∈ cs.takeWhile isJsonWs, isJsonWs w = true :=
      fun w hw => List.mem_takeWhile_imp hw
    by_cases h1 : (c == ']') = true
    · rw [if_pos h1] at h
      injection h with hpair
      injection hpair with hv hrr
      have hc : c = ']' := by simpa using h1
      subst hc
      refine ⟨cs.takeWhile isJsonWs ++ [']'], ?_, by simp, ?_, ?_, ?_⟩
      · rw [← hrr]
        conv_lhs => rw [hcs]
        simp
      · exact List.getLast?_concat _
      · intro u g hg
        obtain ⟨g', rfl⟩ : ∃ g', g = g' + 1 := ⟨g - 1, by omega⟩
        simp only [parseArrTail]
        have hdw2 : ((cs.takeWhile isJsonWs ++ [']']) ++ u).dropWhile isJsonWs
            = ']' :: u := by
          rw [List.append_assoc]
          exact dropWhile_ws_shape u hW (by decide)
        rw [hdw2]
        show some (Json.arr [], u) = some (v, u)
        rw [hv]
      · intro u hu
        refine noSI_of_no_quote ?_ u
        intro x hx
        rcases List.mem_append.mp hx with hx1 | hx2
        · exact jsonws_ne_quote (hW x hx1)
        · simp at hx2
          subst hx2
          decide
    · rw [if_neg h1] at h
      cases hpv : parseValue f cs with
      | none =>
        rw [hpv] at h
        simp at h
      | some p =>
        obtain ⟨v0, r1⟩ := p
        rw [hpv] at h
        simp only [Option.bind_eq_bind, Option.some_bind] at h
        cases hea : parseElemsAfter f r1 with
        | none =>
          rw [hea] at h
          simp at h
        | some q =>
          obtain ⟨vs, r2'⟩ := q
          rw [hea] at h
          simp only [Option.bind_eq_bind, Option.some_bind] at h
          injection h with hpair
          injection hpair with hv hrr
          obtain ⟨W1, C1, hv1, hv2, ⟨hd, tl, hv3, hv3w, hv3a, hv3b, hv3c⟩,
            hv4, hv5, hv6⟩ := ihv cs v0 r1 hpv
          obtain ⟨C2, he1, he2, he3, he4, he5, he6, he7⟩ := ihea r1 vs r2' hea
          have hrr2 : r2' = rest := hrr
          refine ⟨W1 ++ C1 ++ C2, ?_, ?_, ?_, ?_, ?_⟩
          · rw [← hrr2]
            conv_lhs => rw [hv1, he1]
            simp
          · intro hcon
            rw [hv3] at hcon
            simp at hcon
          · rw [List.getLast?_append_of_ne_nil _ he2]
            exact he3
          · intro u g hg
            obtain ⟨g', rfl⟩ : ∃ g', g = g' + 1 := ⟨g - 1, by omega⟩
            have hlen : 4 * W1.length + 4 * C1.length + 4 * C2.length + 2 ≤ g' + 1 := by
              simp only [List.length_append] at hg
              omega
            have hC1len : 1 ≤ C1.length := by
              rw [hv3]
              simp
            have hC2len : 1 ≤ C2.length := by
              cases hx : C2 with
              | nil => exact absurd hx he2
              | cons a b => simp [hx]
            simp only [parseArrTail]
            have hdw2 : ((W1 ++ C1 ++ C2) ++ u).dropWhile isJsonWs
                = hd :: (tl ++ (C2 ++ u)) := by
              have hsh : (W1 ++ C1 ++ C2) ++ u = W1 ++ (hd :: (tl ++ (C2 ++ u))) := by
                rw [hv3]
                simp
              rw [hsh]
              exact dropWhile_ws_shape _ hv2 (not_jsws_not_jsonws hv3w)
            rw [hdw2]
            have hne : (hd == ']') = false := by
              cases hb : hd == ']'
              · rfl
              · exact absurd (by simpa using hb) hv3c
            have hval : parseValue g' ((W1 ++ C1 ++ C2) ++ u) = some (v0, C2 ++ u) := by
              have hsplit : (W1 ++ C1 ++ C2) ++ u = W1 ++ (C1 ++ (C2 ++ u)) := by
                simp
              rw [hsplit, parseValue_ws g' _ hv2]
              exact hv5 (C2 ++ u) (he7 u) g' (by omega)
            have heat : parseElemsAfter g' (C2 ++ u) = some (vs, u) :=
              he4 u g' (by omega)
            simp only [hne, Bool.false_eq_true, if_false, hval, Option.bind_eq_bind, Option.some_bind, heat]
            rw [hv]
            rfl
          · intro u hu
            refine noSIfrom_append (noSIfrom_append
              (noSI_of_no_quote (fun x hx => jsonws_ne_quote (hv2 x hx)) _)
              (hv6 (C2 ++ u) (he6 u))) (he5 u hu)

/-- The after-element step of the locality induction. -/
theorem eaStep (f : Nat)
    (ihv : ∀ cs v rest, parseValue f cs = some (v, rest) → ValueOut cs v rest)
    (ihea : ∀ cs vs rest, parseElemsAfter f cs = some (vs, rest) → EAOut cs vs rest) :
    ∀ cs vs rest, parseElemsAfter (f + 1) cs = some (vs, rest) → EAOut cs vs rest := by
  intro cs vs rest h
  simp only [parseElemsAfter] at h
  split at h
  · exact absurd h (by simp)
  next c r hdw =>
    have hcs : cs = cs.takeWhile isJsonWs ++ c :: r := by
      conv_lhs => rw [← @List.takeWhile_append_dropWhile _ isJsonWs cs]
      rw [hdw]
    have hW : ∀ w ∈ cs.takeWhile isJsonWs, isJsonWs w = true :=
      fun w hw => List.mem_takeWhile_imp hw
    by_cases h1 : (c == ',') = true
    · rw [if_pos h1] at h
      have hc : c = ',' := by simpa using h1
      subst hc
      cases hpv : parseValue f r with
      | none =>
        rw [hpv] at h
        simp at h
      | some p =>
        obtain ⟨v0, r1⟩ := p
        rw [hpv] at h
        simp only [Option.bind_eq_bind, Option.some_bind] at h
        cases hea : parseElemsAfter f r1 with
        | none =>
          rw [hea] at h
          simp at h
        | some q =>
          obtain ⟨vs2, r2'⟩ := q
          rw [hea] at h
          simp only [Option.bind_eq_bind, Option.some_bind] at h
          injection h with hpair
          injection hpair with hv hrr
          obtain ⟨W1, C1, hv1, hv2, ⟨hd, tl, hv3, hv3w, hv3a, hv3b, hv3c⟩,
            hv4, hv5, hv6⟩ := ihv r v0 r1 hpv
          obtain ⟨C2, he1, he2, he3, he4, he5, he6, he7⟩ := ihea r1 vs2 r2' hea
          have hrr2 : r2' = rest := hrr
          refine ⟨cs.takeWhile isJsonWs ++ [','] ++ W1 ++ C1 ++ C2, ?_, by simp,
            ?_, ?_, ?_, ?_, ?_⟩
          · rw [← hrr2]
            conv_lhs => rw [hcs, hv1, he1]
            simp
          · rw [List.getLast?_append_of_ne_nil _ he2]
            exact he3
          · intro u g hg
            obtain ⟨g', rfl⟩ : ∃ g', g = g' + 1 := ⟨g - 1, by omega⟩
            have hlen : 4 * (cs.takeWhile isJsonWs).length + 4 + 4 * W1.length
                + 4 * C1.length + 4 * C2.length + 2 ≤ g' + 1 := by
              simp only [List.length_append] at hg
              simp at hg
              omega
            have hC1len : 1 ≤ C1.length := by
              rw [hv3]
              simp
            have hC2len : 1 ≤ C2.length := by
              cases hx : C2 with
              | nil => exact absurd hx he2
              | cons a b => simp [hx]
            simp only [parseElemsAfter]
            have hdw2 : ((cs.takeWhile isJsonWs ++ [','] ++ W1 ++ C1 ++ C2) ++ u).dropWhile
                isJsonWs = ',' :: ((W1 ++ C1 ++ C2) ++ u) := by
              have hsh : (cs.takeWhile isJsonWs ++ [','] ++ W1 ++ C1 ++ C2) ++ u
                  = cs.takeWhile isJsonWs ++ ',' :: ((W1 ++ C1 ++ C2) ++ u) := by
                simp
              rw [hsh]
              exact dropWhile_ws_shape _ hW (by decide)
            rw [hdw2]
            have hval : parseValue g' ((W1 ++ C1 ++ C2) ++ u) = some (v0, C2 ++ u) := by
              have hsplit : (W1 ++ C1 ++ C2) ++ u = W1 ++ (C1 ++ (C2 ++ u)) := by
                simp
              rw [hsplit, parseValue_ws g' _ hv2]
              exact hv5 (C2 ++ u) (he7 u) g' (by omega)
            have heat : parseElemsAfter g' (C2 ++ u) = some (vs2, u) :=
              he4 u g' (by omega)
            simp only [hval, Option.bind_eq_bind, Option.some_bind, heat]
            rw [hv]
            rfl
          · intro u hu
            have n5 : noSIfrom C2 u := he5 u hu
            have n4 : noSIfrom C1 (C2 ++ u) := hv6 _ (he6 u)
            have n3 : noSIfrom W1 (C1 ++ (C2 ++ u)) :=
              noSI_of_no_quote (fun x hx => jsonws_ne_quote (hv2 x hx)) _
            have n12 : noSIfrom (cs.takeWhile isJsonWs ++ [','])
                (W1 ++ (C1 ++ (C2 ++ u))) := by
              refine noSI_of_no_quote ?_ _
              intro x hx
              rcases List.mem_append.mp hx with hx1 | hx2
              · exact jsonws_ne_quote (hW x hx1)
              · simp at hx2
                subst hx2
                decide
            exact noSIfrom_append (noSIfrom_append (noSIfrom_append n12 n3) n4) n5
          · intro z
            have heq : (cs.takeWhile isJsonWs ++ [','] ++ W1 ++ C1 ++ C2) ++ z
                = cs.takeWhile isJsonWs ++ ',' :: ((W1 ++ C1 ++ C2) ++ z) := by
              simp
            rw [heq]
            exact tailOK_ws_delim _ hW (by decide) (by decide) (by decide)
          · intro z
            have heq : (cs.takeWhile isJsonWs ++ [','] ++ W1 ++ C1 ++ C2) ++ z
                = cs.takeWhile isJsonWs ++ ',' :: ((W1 ++ C1 ++ C2) ++ z) := by
              simp
            rw [heq]
            exact delimOK_ws_delim _ hW (Or.inl rfl)
    · rw [if_neg h1] at h
      by_cases h2 : (c == ']') = true
      · rw [if_pos h2] at h
        have hc : c = ']' := by simpa using h2
        subst hc
        injection h with hpair
        injection hpair with hv hrr
        refine ⟨cs.takeWhile isJsonWs ++ [']'], ?_, by simp, List.getLast?_concat _,
          ?_, ?_, ?_, ?_⟩
        · rw [← hrr]
          conv_lhs => rw [hcs]
          simp
        · intro u g hg
          obtain ⟨g', rfl⟩ : ∃ g', g = g' + 1 := ⟨g - 1, by omega⟩
          simp only [parseElemsAfter]
          have hdw2 : ((cs.takeWhile isJsonWs ++ [']']) ++ u).dropWhile isJsonWs
              = ']' :: u := by
            rw [List.append_assoc]
            exact dropWhile_ws_shape u hW (by decide)
          rw [hdw2]
          show some (([] : List Json), u) = some (vs, u)
          rw [hv]
        · intro u hu
          refine noSI_of_no_quote ?_ u
          intro x hx
          rcases List.mem_append.mp hx with hx1 | hx2
          · exact jsonws_ne_quote (hW x hx1)
          · simp at hx2
            subst hx2
            decide
        · intro z
          have heq : (cs.takeWhile isJsonWs ++ [']']) ++ z
              = cs.takeWhile isJsonWs ++ ']' :: z := by
            simp
          rw [heq]
          exact tailOK_ws_delim _ hW (by decide) (by decide) (by decide)
        · intro z
          have heq : (cs.takeWhile isJsonWs ++ [']']) ++ z
              = cs.takeWhile isJsonWs ++ ']' :: z := by
            simp
          rw [heq]
          exact delimOK_ws_delim _ hW (Or.inr (Or.inl rfl))
      · rw [if_neg h2] at h
        exact absurd h (by simp)

/-- A colon followed by whitespace and then a value-opening character fails
the repair regex's closing-delimiter lookahead. -/
theorem colonDelim_colon_head {W1 : List Char} {hd : Char} (T : List Char)
    (hW1 : ∀ a ∈ W1, isJsonWs a = true) (hhd : isJsWs hd = false)
    (ha : hd ≠ ',') (hb : hd ≠ '}') (hc : hd ≠ ']') :
    colonDelim (':' :: (W1 ++ hd :: T)) = false := by
  have h1 : (':' :: (W1 ++ hd :: T)).dropWhile isJsWs = ':' :: (W1 ++ hd :: T) :=
    List.dropWhile_cons_of_neg (by decide)
  have h2 : (W1 ++ hd :: T).dropWhile isJsWs = hd :: T :=
    dropWhile_ws_shape T (fun a ha2 => jsonws_imp_jsws (hW1 a ha2)) hhd
  simp only [colonDelim, h1, h2, beq_false_of_ne ha, beq_false_of_ne hb,
    beq_false_of_ne hc]
  simp

/-- The object-tail step of the locality induction. -/
theorem mtStep (f : Nat)
    (ihv : ∀ cs v rest, parseValue f cs = some (v, rest) → ValueOut cs v rest)
    (ihma : ∀ cs ms rest, parseMembersAfter f cs = some (ms, rest) → MAOut cs ms rest) :
    ∀ cs v rest, parseMembersTail (f + 1) cs = some (v, rest) → MTOut cs v rest := by
  intro cs v rest h
  simp only [parseMembersTail] at h
  split at h
  · exact absurd h (by simp)
  next c rk hdw =>
    have hcs : cs = cs.takeWhile isJsonWs ++ c :: rk := by
      conv_lhs => rw [← @List.takeWhile_append_dropWhile _ isJsonWs cs]
      rw [hdw]
    have hW : ∀ w ∈ cs.takeWhile isJsonWs, isJsonWs w = true :=
      fun w hw => List.mem_takeWhile_imp hw
    by_cases h1 : (c == '}') = true
    · rw [if_pos h1] at h
      injection h with hpair
      injection hpair with hv hrr
      have hc : c = '}' := by simpa using h1
      subst hc
      refine ⟨cs.takeWhile isJsonWs ++ ['}'], ?_, by simp, List.getLast?_concat _, ?_, ?_⟩
      · rw [← hrr]
        conv_lhs => rw [hcs]
        simp
      · intro u g hg
        obtain ⟨g', rfl⟩ : ∃ g', g = g' + 1 := ⟨g - 1, by omega⟩
        simp only [parseMembersTail]
        have hdw2 : ((cs.takeWhile isJsonWs ++ ['}']) ++ u).dropWhile isJsonWs
            = '}' :: u := by
          rw [List.append_assoc]
          exact dropWhile_ws_shape u hW (by decide)
        rw [hdw2]
        show some (Json.obj [], u) = some (v, u)
        rw [hv]
      · intro u hu
        refine noSI_of_no_quote ?_ u
        intro x hx
        rcases List.mem_append.mp hx with hx1 | hx2
        · exact jsonws_ne_quote (hW x hx1)
        · simp at hx2
          subst hx2
          decide
    · rw [if_neg h1] at h
      by_cases h2 : (c == '"') = true
      · rw [if_pos h2] at h
        have hc : c = '"' := by simpa using h2
        subst hc
        cases hsc : scanStr rk with
        | none =>
          rw [hsc] at h
          simp at h
        | some pk =>
          obtain ⟨k, rk2⟩ := pk
          rw [hsc] at h
          simp only [Option.bind_eq_bind, Option.some_bind] at h
          split at h
          · exact absurd h (by simp)
          next c2 r3 hdw3 =>
            by_cases hcol : (c2 == ':') = true
            · rw [if_pos hcol] at h
              have hc2 : c2 = ':' := by simpa using hcol
              subst hc2
              have hrk2 : rk2 = rk2.takeWhile isJsonWs ++ ':' :: r3 := by
                conv_lhs =>
                  rw [← @List.takeWhile_append_dropWhile _ isJsonWs rk2]
                rw [hdw3]
              have hWc : ∀ w ∈ rk2.takeWhile isJsonWs, isJsonWs w = true :=
                fun w hw => List.mem_takeWhile_imp hw
              cases hpv : parseValue f r3 with
              | none =>
                rw [hpv] at h
                simp at h
              | some p =>
                obtain ⟨v0, r4⟩ := p
                rw [hpv] at h
                simp only [Option.bind_eq_bind, Option.some_bind] at h
                cases hma : parseMembersAfter f r4 with
                | none =>
                  rw [hma] at h
                  simp at h
                | some q =>
                  obtain ⟨ms, r5⟩ := q
                  rw [hma] at h
                  simp only [Option.bind_eq_bind, Option.some_bind] at h
                  injection h with hpair
                  injection hpair with hv hrr
                  obtain ⟨Bk, hbk1, hbk2, hbk3, hkrep⟩ := scanStr_split hsc
                  obtain ⟨W1, C1, hv1, hv2, ⟨hd, tl, hv3, hv3w, hv3a, hv3b, hv3c⟩,
                    hv4, hv5, hv6⟩ := ihv r3 v0 r4 hpv
                  obtain ⟨C2, hm1, hm2, hm3, hm4, hm5, hm6, hm7⟩ := ihma r4 ms r5 hma
                  have hrr2 : r5 = rest := hrr
                  refine ⟨cs.takeWhile isJsonWs ++ ['"'] ++ Bk ++ rk2.takeWhile isJsonWs
                    ++ [':'] ++ W1 ++ C1 ++ C2, ?_, by simp, ?_, ?_, ?_⟩
                  · rw [← hrr2]
                    conv_lhs => rw [hcs, hbk1, hrk2, hv1, hm1]
                    simp
                  · rw [List.getLast?_append_of_ne_nil _ hm2]
                    exact hm3
                  · intro u g hg
                    obtain ⟨g', rfl⟩ : ∃ g', g = g' + 1 := ⟨g - 1, by omega⟩
                    have hlen : 4 * (cs.takeWhile isJsonWs).length + 8
                        + 4 * Bk.length + 4 * (rk2.takeWhile isJsonWs).length
                        + 4 * W1.length + 4 * C1.length + 4 * C2.length ≤ g' + 1 := by
                      simp only [List.length_append] at hg
                      simp at hg
                      omega
                    have hBklen : 1 ≤ Bk.length := by
                      cases hx : Bk with
                      | nil => exact absurd hx hbk2
                      | cons a b => simp [hx]
                    have hC1len : 1 ≤ C1.length := by
                      rw [hv3]
                      simp
                    have hC2len : 1 ≤ C2.length := by
                      cases hx : C2 with
                      | nil => exact absurd hx hm2
                      | cons a b => simp [hx]
                    simp only [parseMembersTail]
                    have hdw2 : ((cs.takeWhile isJsonWs ++ ['"'] ++ Bk
                        ++ rk2.takeWhile isJsonWs ++ [':'] ++ W1 ++ C1 ++ C2) ++ u).dropWhile
                        isJsonWs = '"' :: (Bk ++ ((rk2.takeWhile isJsonWs
                        ++ [':'] ++ W1 ++ C1 ++ C2) ++ u)) := by
                      have hsh : (cs.takeWhile isJsonWs ++ ['"'] ++ Bk
                          ++ rk2.takeWhile isJsonWs ++ [':'] ++ W1 ++ C1 ++ C2) ++ u
                          = cs.takeWhile isJsonWs ++ '"' :: (Bk ++ ((rk2.takeWhile isJsonWs
                            ++ [':'] ++ W1 ++ C1 ++ C2) ++ u)) := by
                        simp
                      rw [hsh]
                      exact dropWhile_ws_shape _ hW (by decide)
                    rw [hdw2]
                    have hdw4 : ((rk2.takeWhile isJsonWs ++ [':'] ++ W1 ++ C1 ++ C2)
                        ++ u).dropWhile isJsonWs = ':' :: ((W1 ++ C1 ++ C2) ++ u) := by
                      have hsh : (rk2.takeWhile isJsonWs ++ [':'] ++ W1 ++ C1 ++ C2) ++ u
                          = rk2.takeWhile isJsonWs ++ ':' :: ((W1 ++ C1 ++ C2) ++ u) := by
                        simp
                      rw [hsh]
                      exact dropWhile_ws_shape _ hWc (by decide)
                    have hval : parseValue g' ((W1 ++ C1 ++ C2) ++ u)
                        = some (v0, C2 ++ u) := by
                      have hsplit : (W1 ++ C1 ++ C2) ++ u = W1 ++ (C1 ++ (C2 ++ u)) := by
                        simp
                      rw [hsplit, parseValue_ws g' _ hv2]
                      exact hv5 (C2 ++ u) (hm7 u) g' (by omega)
                    have hmat : parseMembersAfter g' (C2 ++ u) = some (ms, u) :=
                      hm4 u g' (by omega)
                    simp only [hkrep, Option.bind_eq_bind, Option.some_bind, hdw4,
                      hval, hmat]
                    rw [hv]
                    rfl
                  · intro u hu
                    have hcdZ : colonDelim (rk2.takeWhile isJsonWs
                        ++ ([':'] ++ (W1 ++ (C1 ++ (C2 ++ u))))) = false := by
                      rw [colonDelim_jsonws_append _ hWc, hv3]
                      exact colonDelim_colon_head _ hv2 hv3w hv3a hv3b hv3c
                    have hhdZ : (rk2.takeWhile isJsonWs
                        ++ ([':'] ++ (W1 ++ (C1 ++ (C2 ++ u))))).head? ≠ some 's' :=
                      head_ne_s_of_ws_delim _ hWc (by decide)
                    have n8 : noSIfrom C2 u := hm5 u hu
                    have n7 : noSIfrom C1 (C2 ++ u) := hv6 _ (hm6 u)
                    have n6 : noSIfrom W1 (C1 ++ (C2 ++ u)) :=
                      noSI_of_no_quote (fun x hx => jsonws_ne_quote (hv2 x hx)) _
                    have n5 : noSIfrom [':'] (W1 ++ (C1 ++ (C2 ++ u))) :=
                      noSI_of_no_quote (by decide) _
                    have n4 : noSIfrom (rk2.takeWhile isJsonWs)
                        ([':'] ++ (W1 ++ (C1 ++ (C2 ++ u)))) :=
                      noSI_of_no_quote (fun x hx => jsonws_ne_quote (hWc x hx)) _
                    have n3 : noSIfrom Bk (rk2.takeWhile isJsonWs
                        ++ ([':'] ++ (W1 ++ (C1 ++ (C2 ++ u))))) :=
                      scanStr_noSI hcdZ hhdZ hsc hbk1
                    have hq : matchSI ('"' :: (Bk ++ (rk2.takeWhile isJsonWs
                        ++ ([':'] ++ (W1 ++ (C1 ++ (C2 ++ u))))))) = none :=
                      matchSI_quote_scanStr hkrep hcdZ
                    have n2 : noSIfrom ['"'] (Bk ++ (rk2.takeWhile isJsonWs
                        ++ ([':'] ++ (W1 ++ (C1 ++ (C2 ++ u)))))) :=
                      noSIfrom_cons hq noSIfrom_nil
                    have n1 : noSIfrom (cs.takeWhile isJsonWs)
                        (['"'] ++ (Bk ++ (rk2.takeWhile isJsonWs
                          ++ ([':'] ++ (W1 ++ (C1 ++ (C2 ++ u))))))) :=
                      noSI_of_no_quote (fun x hx => jsonws_ne_quote (hW x hx)) _
                    exact noSIfrom_append (noSIfrom_append (noSIfrom_append
                      (noSIfrom_append (noSIfrom_append (noSIfrom_append
                        (noSIfrom_append n1 n2) n3) n4) n5) n6) n7) n8
            · rw [if_neg hcol] at h
              exact absurd h (by simp)
      · rw [if_neg h2] at h
        exact absurd h (by simp)

/-- The after-member step of the locality induction. -/
theorem maStep (f : Nat)
    (ihv : ∀ cs v rest, parseValue f cs = some (v, rest) → ValueOut cs v rest)
    (ihma : ∀ cs ms rest, parseMembersAfter f cs = some (ms, rest) → MAOut cs ms rest) :
    ∀ cs ms rest, parseMembersAfter (f + 1) cs = some (ms, rest) → MAOut cs ms rest := by
  intro cs ms rest h
  simp only [parseMembersAfter] at h
  split at h
  · exact absurd h (by simp)
  next c r hdw =>
    have hcs : cs = cs.takeWhile isJsonWs ++ c :: r := by
      conv_lhs => rw [← @List.takeWhile_append_dropWhile _ isJsonWs cs]
      rw [hdw]
    have hW : ∀ w ∈ cs.takeWhile isJsonWs, isJsonWs w = true :=
      fun w hw => List.mem_takeWhile_imp hw
    by_cases h1 : (c == ',') = true
    · rw [if_pos h1] at h
      have hc : c = ',' := by simpa using h1
      subst hc
      split at h
      · exact absurd h (by simp)
      next c2 rk hdwB =>
        by_cases h2 : (c2 == '"') = true
        · rw [if_pos h2] at h
          have hc2 : c2 = '"' := by simpa using h2
          subst hc2
          have hr : r = r.takeWhile isJsonWs ++ '"' :: rk := by
            conv_lhs => rw [← @List.takeWhile_append_dropWhile _ isJsonWs r]
            rw [hdwB]
          have hW2 : ∀ w ∈ r.takeWhile isJsonWs, isJsonWs w = true :=
            fun w hw => List.mem_takeWhile_imp hw
          cases hsc : scanStr rk with
          | none =>
            rw [hsc] at h
            simp at h
          | some pk =>
            obtain ⟨k, rk2⟩ := pk
            rw [hsc] at h
            simp only [Option.bind_eq_bind, Option.some_bind] at h
            split at h
            · exact absurd h (by simp)
            next c3 r3 hdw3 =>
              by_cases hcol : (c3 == ':') = true
              · rw [if_pos hcol] at h
                have hc3 : c3 = ':' := by simpa using hcol
                subst hc3
                have hrk2 : rk2 = rk2.takeWhile isJsonWs ++ ':' :: r3 := by
                  conv_lhs =>
                    rw [← @List.takeWhile_append_dropWhile _ isJsonWs rk2]
                  rw [hdw3]
                have hWc : ∀ w ∈ rk2.takeWhile isJsonWs, isJsonWs w = true :=
                  fun w hw => List.mem_takeWhile_imp hw
                cases hpv : parseValue f r3 with
                | none =>
                  rw [hpv] at h
                  simp at h
                | some p =>
                  obtain ⟨v0, r4⟩ := p
                  rw [hpv] at h
                  simp only [Option.bind_eq_bind, Option.some_bind] at h
                  cases hma : parseMembersAfter f r4 with
                  | none =>
                    rw [hma] at h
                    simp at h
                  | some q =>
                    obtain ⟨ms2, r5⟩ := q
                    rw [hma] at h
                    simp only [Option.bind_eq_bind, Option.some_bind] at h
                    injection h with hpair
                    injection hpair with hv hrr
                    obtain ⟨Bk, hbk1, hbk2, hbk3, hkrep⟩ := scanStr_split hsc
                    obtain ⟨W1, C1, hv1, hv2, ⟨hd, tl, hv3, hv3w, hv3a, hv3b, hv3c⟩,
                      hv4, hv5, hv6⟩ := ihv r3 v0 r4 hpv
                    obtain ⟨C2, hm1, hm2, hm3, hm4, hm5, hm6, hm7⟩ := ihma r4 ms2 r5 hma
                    have hrr2 : r5 = rest := hrr
                    refine ⟨cs.takeWhile isJsonWs ++ [','] ++ r.takeWhile isJsonWs
                      ++ ['"'] ++ Bk ++ rk2.takeWhile isJsonWs
                      ++ [':'] ++ W1 ++ C1 ++ C2, ?_, by simp, ?_, ?_, ?_, ?_, ?_⟩
                    · rw [← hrr2]
                      conv_lhs => rw [hcs, hr, hbk1, hrk2, hv1, hm1]
                      simp
                    · rw [List.getLast?_append_of_ne_nil _ hm2]
                      exact hm3
                    · intro u g hg
                      obtain ⟨g', rfl⟩ : ∃ g', g = g' + 1 := ⟨g - 1, by omega⟩
                      have hlen : 4 * (cs.takeWhile isJsonWs).length + 12
                          + 4 * (r.takeWhile isJsonWs).length
                          + 4 * Bk.length + 4 * (rk2.takeWhile isJsonWs).length
                          + 4 * W1.length + 4 * C1.length + 4 * C2.length ≤ g' + 1 := by
                        simp only [List.length_append] at hg
                        simp at hg
                        omega
                      have hBklen : 1 ≤ Bk.length := by
                        cases hx : Bk with
                        | nil => exact absurd hx hbk2
                        | cons a b => simp [hx]
                      have hC1len : 1 ≤ C1.length := by
                        rw [hv3]
                        simp
                      have hC2len : 1 ≤ C2.length := by
                        cases hx : C2 with
                        | nil => exact absurd hx hm2
                        | cons a b => simp [hx]
                      simp only [parseMembersAfter]
                      have hdw2 : ((cs.takeWhile isJsonWs ++ [','] ++ r.takeWhile isJsonWs
                          ++ ['"'] ++ Bk ++ rk2.takeWhile isJsonWs ++ [':'] ++ W1 ++ C1
                          ++ C2) ++ u).dropWhile isJsonWs
                          = ',' :: ((r.takeWhile isJsonWs ++ ['"'] ++ Bk
                            ++ rk2.takeWhile isJsonWs ++ [':'] ++ W1 ++ C1 ++ C2)
                              ++ u) := by
                        have hsh : (cs.takeWhile isJsonWs ++ [','] ++ r.takeWhile isJsonWs
                            ++ ['"'] ++ Bk ++ rk2.takeWhile isJsonWs ++ [':'] ++ W1 ++ C1
                            ++ C2) ++ u
                            = cs.takeWhile isJsonWs ++ ',' :: ((r.takeWhile isJsonWs
                              ++ ['"'] ++ Bk ++ rk2.takeWhile isJsonWs ++ [':'] ++ W1
                              ++ C1 ++ C2) ++ u) := by
                          simp
                        rw [hsh]
                        exact dropWhile_ws_shape _ hW (by decide)
                      rw [hdw2]
                      have hdwB2 : ((r.takeWhile isJsonWs ++ ['"'] ++ Bk
                          ++ rk2.takeWhile isJsonWs ++ [':'] ++ W1 ++ C1 ++ C2)
                            ++ u).dropWhile isJsonWs
                          = '"' :: (Bk ++ ((rk2.takeWhile isJsonWs ++ [':'] ++ W1 ++ C1
                            ++ C2) ++ u)) := by
                        have hsh : (r.takeWhile isJsonWs ++ ['"'] ++ Bk
                            ++ rk2.takeWhile isJsonWs ++ [':'] ++ W1 ++ C1 ++ C2) ++ u
                            = r.takeWhile isJsonWs ++ '"' :: (Bk
                              ++ ((rk2.takeWhile isJsonWs ++ [':'] ++ W1 ++ C1 ++ C2)
                                ++ u)) := by
                          simp
                        rw [hsh]
                        exact dropWhile_ws_shape _ hW2 (by decide)
                      have hdw4 : ((rk2.takeWhile isJsonWs ++ [':'] ++ W1 ++ C1 ++ C2)
                          ++ u).dropWhile isJsonWs = ':' :: ((W1 ++ C1 ++ C2) ++ u) := by
                        have hsh : (rk2.takeWhile isJsonWs ++ [':'] ++ W1 ++ C1 ++ C2)
                            ++ u = rk2.takeWhile isJsonWs
                              ++ ':' :: ((W1 ++ C1 ++ C2) ++ u) := by
                          simp
                        rw [hsh]
                        exact dropWhile_ws_shape _ hWc (by decide)
                      have hval : parseValue g' ((W1 ++ C1 ++ C2) ++ u)
                          = some (v0, C2 ++ u) := by
                        have hsplit : (W1 ++ C1 ++ C2) ++ u
                            = W1 ++ (C1 ++ (C2 ++ u)) := by
                          simp
                        rw [hsplit, parseValue_ws g' _ hv2]
                        exact hv5 (C2 ++ u) (hm7 u) g' (by omega)
                      have hmat : parseMembersAfter g' (C2 ++ u) = some (ms2, u) :=
                        hm4 u g' (by omega)
                      simp only [hdwB2, hkrep, Option.bind_eq_bind, Option.some_bind,
                        hdw4, hval, hmat]
                      rw [hv]
                      rfl
                    · intro u hu
                      have hcdZ : colonDelim (rk2.takeWhile isJsonWs
                          ++ ([':'] ++ (W1 ++ (C1 ++ (C2 ++ u))))) = false := by
                        rw [colonDelim_jsonws_append _ hWc, hv3]
                        exact colonDelim_colon_head _ hv2 hv3w hv3a hv3b hv3c
                      have hhdZ : (rk2.takeWhile isJsonWs
                          ++ ([':'] ++ (W1 ++ (C1 ++ (C2 ++ u))))).head? ≠ some 's' :=
                        head_ne_s_of_ws_delim _ hWc (by decide)
                      have n10 : noSIfrom C2 u := hm5 u hu
                      have n9 : noSIfrom C1 (C2 ++ u) := hv6 _ (hm6 u)
                      have n8 : noSIfrom W1 (C1 ++ (C2 ++ u)) :=
                        noSI_of_no_quote (fun x hx => jsonws_ne_quote (hv2 x hx)) _
                      have n7 : noSIfrom [':'] (W1 ++ (C1 ++ (C2 ++ u))) :=
                        noSI_of_no_quote (by decide) _
                      have n6 : noSIfrom (rk2.takeWhile isJsonWs)
                          ([':'] ++ (W1 ++ (C1 ++ (C2 ++ u)))) :=
                        noSI_of_no_quote (fun x hx => jsonws_ne_quote (hWc x hx)) _
                      have n5 : noSIfrom Bk (rk2.takeWhile isJsonWs
                          ++ ([':'] ++ (W1 ++ (C1 ++ (C2 ++ u))))) :=
                        scanStr_noSI hcdZ hhdZ hsc hbk1
                      have hq : matchSI ('"' :: (Bk ++ (rk2.takeWhile isJsonWs
                          ++ ([':'] ++ (W1 ++ (C1 ++ (C2 ++ u))))))) = none :=
                        matchSI_quote_scanStr hkrep hcdZ
                      have n4 : noSIfrom ['"'] (Bk ++ (rk2.takeWhile isJsonWs
                          ++ ([':'] ++ (W1 ++ (C1 ++ (C2 ++ u)))))) :=
                        noSIfrom_cons hq noSIfrom_nil
                      have n3 : noSIfrom (r.takeWhile isJsonWs)
                          (['"'] ++ (Bk ++ (rk2.takeWhile isJsonWs
                            ++ ([':'] ++ (W1 ++ (C1 ++ (C2 ++ u))))))) :=
                        noSI_of_no_quote (fun x hx => jsonws_ne_quote (hW2 x hx)) _
                      have n2 : noSIfrom [',']
                          (r.takeWhile isJsonWs ++ (['"'] ++ (Bk
                            ++ (rk2.takeWhile isJsonWs
                              ++ ([':'] ++ (W1 ++ (C1 ++ (C2 ++ u)))))))) :=
                        noSI_of_no_quote (by decide) _
                      have n1 : noSIfrom (cs.takeWhile isJsonWs)
                          ([','] ++ (r.takeWhile isJsonWs ++ (['"'] ++ (Bk
                            ++ (rk2.takeWhile isJsonWs
                              ++ ([':'] ++ (W1 ++ (C1 ++ (C2 ++ u))))))))) :=
                        noSI_of_no_quote (fun x hx => jsonws_ne_quote (hW x hx)) _
                      exact noSIfrom_append (noSIfrom_append (noSIfrom_append
                        (noSIfrom_append (noSIfrom_append (noSIfrom_append
                          (noSIfrom_append (noSIfrom_append (noSIfrom_append n1 n2)
                            n3) n4) n5) n6) n7) n8) n9) n10
                    · intro z
                      have heq : (cs.takeWhile isJsonWs ++ [','] ++ r.takeWhile isJsonWs
                          ++ ['"'] ++ Bk ++ rk2.takeWhile isJsonWs ++ [':'] ++ W1 ++ C1
                          ++ C2) ++ z
                          = cs.takeWhile isJsonWs ++ ',' :: ((r.takeWhile isJsonWs
                            ++ ['"'] ++ Bk ++ rk2.takeWhile isJsonWs ++ [':'] ++ W1
                            ++ C1 ++ C2) ++ z) := by
                        simp
                      rw [heq]
                      exact tailOK_ws_delim _ hW (by decide) (by decide) (by decide)
                    · intro z
                      have heq : (cs.takeWhile isJsonWs ++ [','] ++ r.takeWhile isJsonWs
                          ++ ['"'] ++ Bk ++ rk2.takeWhile isJsonWs ++ [':'] ++ W1 ++ C1
                          ++ C2) ++ z
                          = cs.takeWhile isJsonWs ++ ',' :: ((r.takeWhile isJsonWs
                            ++ ['"'] ++ Bk ++ rk2.takeWhile isJsonWs ++ [':'] ++ W1
                            ++ C1 ++ C2) ++ z) := by
                        simp
                      rw [heq]
                      exact delimOK_ws_delim _ hW (Or.inl rfl)
              · rw [if_neg hcol] at h
                exact absurd h (by simp)
        · rw [if_neg h2] at h
          exact absurd h (by simp)
    · rw [if_neg h1] at h
      by_cases h2 : (c == '}') = true
      · rw [if_pos h2] at h
        have hc : c = '}' := by simpa using h2
        subst hc
        injection h with hpair
        injection hpair with hv hrr
        refine ⟨cs.takeWhile isJsonWs ++ ['}'], ?_, by simp, List.getLast?_concat _,
          ?_, ?_, ?_, ?_⟩
        · rw [← hrr]
          conv_lhs => rw [hcs]
          simp
        · intro u g hg
          obtain ⟨g', rfl⟩ : ∃ g', g = g' + 1 := ⟨g - 1, by omega⟩
          simp only [parseMembersAfter]
          have hdw2 : ((cs.takeWhile isJsonWs ++ ['}']) ++ u).dropWhile isJsonWs
              = '}' :: u := by
            rw [List.append_assoc]
            exact dropWhile_ws_shape u hW (by decide)
          rw [hdw2]
          show some (([] : List (List Char × Json)), u) = some (ms, u)
          rw [hv]
        · intro u hu
          refine noSI_of_no_quote ?_ u
          intro x hx
          rcases List.mem_append.mp hx with hx1 | hx2
          · exact jsonws_ne_quote (hW x hx1)
          · simp at hx2
            subst hx2
            decide
        · intro z
          have heq : (cs.takeWhile isJsonWs ++ ['}']) ++ z
              = cs.takeWhile isJsonWs ++ '}' :: z := by
            simp
          rw [heq]
          exact tailOK_ws_delim _ hW (by decide) (by decide) (by decide)
        · intro z
          have heq : (cs.takeWhile isJsonWs ++ ['}']) ++ z
              = cs.takeWhile isJsonWs ++ '}' :: z := by
            simp
          rw [heq]
          exact delimOK_ws_delim _ hW (Or.inr (Or.inr rfl))
      · rw [if_neg h2] at h
        exact absurd h (by simp)

/-- The parser-locality theorem: every successful parse decomposes its input
into a replayable, repair-regex-free consumed block and the untouched rest. -/
theorem parser_split : ∀ f : Nat,
    (∀ cs v rest, parseValue f cs = some (v, rest) → ValueOut cs v rest) ∧
    (∀ cs v rest, parseArrTail f cs = some (v, rest) → ATOut cs v rest) ∧
    (∀ cs vs rest, parseElemsAfter f cs = some (vs, rest) → EAOut cs vs rest) ∧
    (∀ cs v rest, parseMembersTail f cs = some (v, rest) → MTOut cs v rest) ∧
    (∀ cs ms rest, parseMembersAfter f cs = some (ms, rest) → MAOut cs ms rest) := by
  intro f
  induction f with
  | zero =>
    refine ⟨?_, ?_, ?_, ?_, ?_⟩ <;> intro cs x rest h <;>
      exact absurd h (by
        simp [parseValue, parseArrTail, parseElemsAfter, parseMembersTail,
          parseMembersAfter])
  | succ f ih =>
    obtain ⟨ihv, ihat, ihea, ihmt, ihma⟩ := ih
    exact ⟨valueStep f ihat ihmt, atStep f ihv ihea, eaStep f ihv ihea,
      mtStep f ihv ihma, maStep f ihv ihma⟩

/-! ## From parser locality to the cleanup being a no-op -/

theorem repairSIGo_id : ∀ fuel cs, (∀ i, i < cs.length → matchSI (cs.drop i) = none) →
    repairSIGo fuel cs = cs := by
  intro fuel
  induction fuel with
  | zero =>
    intro cs h
    rfl
  | succ fuel ih =>
    intro cs h
    cases cs with
    | nil => rfl
    | cons c rest =>
      have h0 : matchSI (c :: rest) = none := by simpa using h 0 (by simp)
      have hh : ∀ i, i < rest.length → matchSI (rest.drop i) = none := by
        intro i hi
        have h2 := h (i + 1) (by simp; omega)
        simpa using h2
      simp only [repairSIGo, h0]
      rw [ih rest hh]

theorem repairSI_id {cs : List Char}
    (h : ∀ i, i < cs.length → matchSI (cs.drop i) = none) : repairSI cs = cs :=
  repairSIGo_id cs.length cs h

theorem dropPrefix?_eq_none_of_not_isPrefixOf {P cs : List Char}
    (h : P.isPrefixOf cs = false) : cs.dropPrefix? P = none := by
  cases hdp : cs.dropPrefix? P with
  | none => rfl
  | some r =>
    exfalso
    have hcs : cs = P ++ r := dropPrefix?_eq_append hdp
    have : P.isPrefixOf cs = true := by
      rw [List.isPrefixOf_iff_prefix, hcs]
      exact ⟨r, rfl⟩
    rw [this] at h
    exact absurd h (by simp)

theorem stripFencesGo_id : ∀ fuel cs, containsSub fencePlain cs = false →
    stripFencesGo fuel cs = cs := by
  intro fuel
  induction fuel with
  | zero =>
    intro cs h
    rfl
  | succ fuel ih =>
    intro cs h
    cases cs with
    | nil => rfl
    | cons c rest =>
      rw [containsSub] at h
      simp only [Bool.or_eq_false_iff] at h
      obtain ⟨hpre, hrest⟩ := h
      have hdp1 : (c :: rest).dropPrefix? fencePlain = none :=
        dropPrefix?_eq_none_of_not_isPrefixOf hpre
      have hdp2 : (c :: rest).dropPrefix? fenceJson = none := by
        cases hdp : (c :: rest).dropPrefix? fenceJson with
        | none => rfl
        | some r =>
          exfalso
          have hcs : c :: rest = fenceJson ++ r := dropPrefix?_eq_append hdp
          have hcs2 : c :: rest = fencePlain ++ ("json".data ++ r) := by
            rw [hcs]
            rfl
          have : (c :: rest).dropPrefix? fencePlain = some ("json".data ++ r) := by
            rw [hcs2]
            exact dropPrefix?_self_append _ _
          rw [hdp1] at this
          exact absurd this (by simp)
      simp only [stripFencesGo, hdp1, hdp2]
      rw [ih rest hrest]

theorem stripFences_id {cs : List Char} (h : containsSub fencePlain cs = false) :
    stripFences cs = cs :=
  stripFencesGo_id cs.length cs h

/-- Trimming text made of whitespace, a whitespace-delimited block and
trailing whitespace yields exactly the block. -/
theorem trimJs_decomp {W C rest : List Char}
    (hW : ∀ w ∈ W, isJsonWs w = true) (hrest : ∀ w ∈ rest, isJsonWs w = true)
    (hhd : ∃ hd tl, C = hd :: tl ∧ isJsWs hd = false)
    (hlast : ∃ lc, C.getLast? = some lc ∧ isJsWs lc = false) :
    trimJs (W ++ C ++ rest) = C := by
  obtain ⟨hd, tl, hC, hhdw⟩ := hhd
  obtain ⟨lc, hlc, hlcw⟩ := hlast
  have h1 : (W ++ C ++ rest).dropWhile isJsWs = C ++ rest := by
    have hsh : W ++ C ++ rest = W ++ hd :: (tl ++ rest) := by
      rw [hC]
      simp
    rw [hsh, dropWhile_ws_shape _ (fun a ha => jsonws_imp_jsws (hW a ha)) hhdw, hC]
    simp
  obtain ⟨T, hcr⟩ : ∃ T, C.reverse = lc :: T := by
    have hh : C.reverse.head? = some lc := by
      rw [← List.getLast?_eq_head?_reverse, hlc]
    cases hcr : C.reverse with
    | nil =>
      rw [hcr] at hh
      exact absurd hh (by simp)
    | cons x T =>
      rw [hcr] at hh
      refine ⟨T, ?_⟩
      have : x = lc := by simpa using hh
      rw [this]
  have h2 : (C ++ rest).reverse.dropWhile isJsWs = lc :: T := by
    rw [List.reverse_append, hcr]
    exact dropWhile_ws_shape _
      (fun a ha => jsonws_imp_jsws (hrest a (List.mem_reverse.mp ha))) hlcw
  rw [trimJs, h1, h2, ← hcr, List.reverse_reverse]

theorem head_ne_s_of_all_ws {l : List Char} (h : ∀ w ∈ l, isJsonWs w = true) :
    l.head? ≠ some 's' := by
  cases l with
  | nil => simp
  | cons x xs =>
    simp only [List.head?_cons]
    intro hcon
    exact jsonws_ne_s (h x (by simp)) (by simpa using hcon)

theorem tailOK_of_all_ws {l : List Char} (h : ∀ w ∈ l, isJsonWs w = true) :
    tailOK l := by
  constructor
  · exact colonDelim_all_ws (fun a ha => jsonws_imp_jsws (h a ha))
  · exact head_ne_s_of_all_ws h

/-- A successful strict parse decomposes the raw text and certifies all the
locality facts of the consumed value block. -/
theorem jsonParse_split {cs : List Char} {v : Json} (h : jsonParse cs = some v) :
    ∃ W C rest, cs = W ++ C ++ rest ∧
      (∀ w ∈ W, isJsonWs w = true) ∧ (∀ w ∈ rest, isJsonWs w = true) ∧
      (∃ hd tl, C = hd :: tl ∧ isJsWs hd = false ∧ hd ≠ ',' ∧ hd ≠ '}' ∧ hd ≠ ']') ∧
      (∃ lc, C.getLast? = some lc ∧ isJsWs lc = false) ∧
      (∀ u, delimOK u → ∀ g, 4 * C.length + 1 ≤ g →
        parseValue g (C ++ u) = some (v, u)) ∧
      (∀ u, tailOK u → noSIfrom C u) := by
  unfold jsonParse at h
  cases hp : parseValue (4 * cs.length + 4) cs with
  | none =>
    rw [hp] at h
    exact absurd h (by simp)
  | some p =>
    obtain ⟨v0, rest⟩ := p
    rw [hp] at h
    have h2 : (if (rest.dropWhile isJsonWs).isEmpty = true then some v0 else none)
        = some v := h
    by_cases he : (rest.dropWhile isJsonWs).isEmpty = true
    · rw [if_pos he] at h2
      injection h2 with hv
      subst hv
      obtain ⟨W, C, h1, h2, h3, h4, h5, h6⟩ := (parser_split _).1 cs v0 rest hp
      exact ⟨W, C, rest, h1, h2,
        all_of_dropWhile_nil (List.isEmpty_iff.mp he), h3, h4, h5, h6⟩
    · rw [if_neg he] at h2
      exact absurd h2 (by simp)

/-- On strictly well-formed input the `source_indices` repair regex matches at
no position at all. -/
theorem jsonParse_SIfree {cs : List Char} {v : Json} (h : jsonParse cs = some v) :
    ∀ i, i < cs.length → matchSI (cs.drop i) = none := by
  obtain ⟨W, C, rest, h1, h2, h3, ⟨hd, tl, hC, hhdw, -, -, -⟩, -, -, h6⟩ :=
    jsonParse_split h
  have htOK : tailOK (rest ++ []) := by
    rw [List.append_nil]
    exact tailOK_of_all_ws h3
  have hfull : noSIfrom cs [] := by
    rw [h1]
    refine noSIfrom_append (noSIfrom_append ?_ ?_) ?_
    · exact noSI_of_no_quote (fun x hx => jsonws_ne_quote (h2 x hx)) _
    · exact h6 (rest ++ []) htOK
    · exact noSI_of_no_quote (fun x hx => jsonws_ne_quote (h3 x hx)) _
  intro i hi
  have hfi := hfull i hi
  rwa [List.append_nil] at hfi

/-- C1: on input that is already valid strict JSON, the `source_indices`
repair replace is the identity; and in the absence of any three-backtick run
the whole cleanup only trims, so the Repairer's parse equals the direct
parse. (The backtick-sequence part of the claim is settled separately by the
counterexample: fence stripping does alter well-formed inputs whose string
values contain a three-backtick run.) -/
theorem C1_cleanup_noop_on_wellformed (cs : List Char) (v : Json)
    (h : jsonParse cs = some v) :
    repairSI cs = cs ∧
    (containsSub fencePlain cs = false →
      cleanupText cs = trimJs cs ∧ jsonParse (cleanupText cs) = some v) := by
  obtain ⟨W, C, rest, h1, h2, h3, hhd, hlast, hrep, hnos⟩ := jsonParse_split h
  obtain ⟨hd, tl, hC, hhdw, -, -, -⟩ := hhd
  constructor
  · exact repairSI_id (jsonParse_SIfree h)
  · intro hnf
    have htrim : trimJs cs = C := by
      rw [h1]
      exact trimJs_decomp h2 h3 ⟨hd, tl, hC, hhdw⟩ hlast
    have hCfree : ∀ i, i < C.length → matchSI (C.drop i) = none := by
      have hn := hnos [] tailOK_nil
      intro i hi
      have hni := hn i hi
      rwa [List.append_nil] at hni
    have hclean : cleanupText cs = C := by
      unfold cleanupText
      rw [stripFences_id hnf, htrim]
      exact repairSI_id hCfree
    refine ⟨by rw [hclean, htrim], ?_⟩
    rw [hclean]
    have hpv : parseValue (4 * C.length + 4) C = some (v, []) := by
      have hp := hrep [] delimOK_nil (4 * C.length + 4) (by omega)
      rwa [List.append_nil] at hp
    unfold jsonParse
    rw [hpv]
    simp

/-- C1 witness: a concrete well-formed input on which the repair replace is
the identity and the Repairer's parse equals the direct parse. -/
theorem C1_cleanup_noop_on_wellformed_witness :
    repairSI "[1, 2]".data = "[1, 2]".data ∧
    cleanupText "[1, 2]".data = trimJs "[1, 2]".data ∧
    jsonParse (cleanupText "[1, 2]".data)
      = some (Json.arr [Json.num ['1'], Json.num ['2']]) := by
  have T := C1_cleanup_noop_on_wellformed "[1, 2]".data
    (Json.arr [Json.num ['1'], Json.num ['2']]) (by rfl)
  exact ⟨T.1, (T.2 (by decide)).1, (T.2 (by decide)).2⟩

/-- A well-formed input whose string value contains a three-backtick run. -/
def cxC1raw : List Char := "\x7b\"a\":\"x```y\"\x7d".data

/-- C1 counterexample: the input is valid JSON, yet fence stripping removes
the backtick run inside the string value, so the cleanup is not the identity
and the Repairer's output differs from the direct parse. -/
theorem C1_counterexample :
    jsonParse cxC1raw = some (Json.obj [("a".data, Json.str "x```y".data)]) ∧
    stripFences cxC1raw ≠ cxC1raw ∧
    jsonParse (cleanupText cxC1raw)
      = some (Json.obj [("a".data, Json.str "xy".data)]) ∧
    Json.obj [("a".data, Json.str "xy".data)]
      ≠ Json.obj [("a".data, Json.str "x```y".data)] := by
  refine ⟨by rfl, ?_, by rfl, ?_⟩
  · have hsf : stripFences cxC1raw = "\x7b\"a\":\"xy\"\x7d".data := by rfl
    rw [hsf]
    intro hcon
    exact absurd (congrArg List.length hcon) (by decide)
  · intro hcon
    injection hcon with hfields
    injection hfields with hpair
    have hstr : Json.str "xy".data = Json.str "x```y".data := congrArg Prod.snd hpair
    injection hstr with hs
    exact absurd (congrArg List.length hs) (by decide)
